import Mathlib

/-! Breeze timeline animation.

A shallow embedding of the class `TimelineAnimation` of
`kstyle/animations/breezemultistatedata.h`, and the properties of its per-tick evaluation
`updateCurrentTime`.

Conventions of the embedding.

* Numbers. `float` is IEEE-754 binary32 and `qreal` is `double`, IEEE-754 binary64 (the Qt 5
  default). A floating-point value (`FP`) is a rational, an infinity or NaN; an arithmetic
  operation computes the exact result and rounds it to the nearest value of its format, ties
  to even, with gradual underflow and overflow to infinity. The two zeros are identified.
  The integer types are unbounded integers; a conversion from floating point checks the range
  of the target type.
* Containers and pointers. `QVector<T>` is a list; a pointer is an `Option` of its pointee.
* Faults. A failed `Q_ASSERT`, an index out of range and a conversion or addition with
  undefined behaviour end the computation with a `Fault`; everything else returns.
* `QVariant`. A variant is invalid, holds a value of one of the eight meta-types that
  `interpolate` dispatches on, or holds a value of some other meta-type.
  `QVariant::value<T>()` returns the payload of a variant of type `T`; what it returns for a
  variant of another type is left open (`QtConvert`). `QVariant::operator!=` belongs to the
  Qt library too: it converts between types, compares numbers by value, compares `double`,
  `float` and `QPointF` fuzzily and never finds a NaN equal to anything. The embedding
  leaves it open as well (the field `ne` of `QtConvert`), so that the properties hold for
  whatever the comparison answers; the examples run with `QtConvert.zero`, whose comparison
  follows `QVariant::cmp` of Qt 5.15.
* Qt functions: `qMin`, `qMax`, `qBound`, `qRound`, `qFuzzyIsNull`,
  `QEasingCurve::valueForProgress` and the operators of `QPoint` and `QPointF` follow their
  Qt 5 definitions.
* Signals. `emit valueChanged()` is counted. The writes of a tick to the variable vector are
  also recorded in a log, which no control flow reads.
-/

namespace Breeze

/-! ## Floating-point values -/

/-- Floor of the base-2 logarithm of the positive rational `n / d`. -/
def ilog2 (n d : Nat) : Int :=
  if d ≤ n then (Nat.log2 (n / d) : Int)
  else
    let k := Nat.log2 (d / n)
    if d ≤ n * 2 ^ k then -(k : Int) else -(k : Int) - 1

/-- Two to an integer power, as a rational. -/
def pow2 (e : Int) : ℚ :=
  if 0 ≤ e then ((2 ^ e.toNat : Nat) : ℚ) else 1 / ((2 ^ (-e).toNat : Nat) : ℚ)

/-- Nearest natural number to a non-negative rational, ties to even. -/
def rne (x : ℚ) : Nat :=
  let f := x.num.toNat / x.den
  let r := x - (f : ℚ)
  if r < 1 / 2 then f else if 1 / 2 < r then f + 1 else if f % 2 = 0 then f else f + 1

/-- A value of an IEEE-754 binary format: a finite rational, an infinity (with its sign) or
NaN. -/
inductive FP
  | fin (q : ℚ)
  | inf (neg : Bool)
  | nan
  deriving DecidableEq

/-- Round-to-nearest-even of a rational into the binary format with `p` significand bits and
largest exponent `emax` (smallest normal exponent `1 - emax`, gradual underflow, overflow to
infinity). -/
def roundTo (p : Nat) (emax : Int) (q : ℚ) : FP :=
  if q = 0 then .fin 0
  else
    let a := |q|
    let e := ilog2 a.num.toNat a.den
    let qe := max e (1 - emax) - ((p : Int) - 1)
    let r := (rne (a / pow2 qe) : ℚ) * pow2 qe
    if emax ≤ e ∧ pow2 (emax + 1) ≤ r then .inf (decide (q < 0))
    else .fin (if q < 0 then -r else r)

/-- Rounding to `float` (binary32). -/
def rnd32 (q : ℚ) : FP := roundTo 24 127 q

/-- Rounding to `double` (binary64). -/
def rnd64 (q : ℚ) : FP := roundTo 53 1023 q

namespace FP

/-- Unary minus. -/
def neg : FP → FP
  | fin q => fin (-q)
  | inf n => inf (!n)
  | nan => nan

/-- IEEE addition, the exact sum rounded by `rnd`. -/
def add (rnd : ℚ → FP) : FP → FP → FP
  | fin a, fin b => rnd (a + b)
  | fin _, inf n => inf n
  | inf n, fin _ => inf n
  | inf n, inf m => if n = m then inf n else nan
  | _, _ => nan

/-- IEEE subtraction. -/
def sub (rnd : ℚ → FP) (x y : FP) : FP := add rnd x (neg y)

/-- IEEE multiplication, the exact product rounded by `rnd`. -/
def mul (rnd : ℚ → FP) : FP → FP → FP
  | fin a, fin b => rnd (a * b)
  | fin a, inf n => if a = 0 then nan else inf (xor (decide (a < 0)) n)
  | inf n, fin b => if b = 0 then nan else inf (xor n (decide (b < 0)))
  | inf n, inf m => inf (xor n m)
  | _, _ => nan

/-- IEEE division, the exact quotient rounded by `rnd`; a non-zero value over zero is an
infinity and zero over zero is NaN. -/
def div (rnd : ℚ → FP) : FP → FP → FP
  | fin a, fin b =>
    if b = 0 then (if a = 0 then nan else inf (decide (a < 0))) else rnd (a / b)
  | fin _, inf _ => fin 0
  | inf n, fin b => inf (xor n (decide (b < 0)))
  | _, _ => nan

/-- The comparison `x < y`, false when an operand is NaN. -/
def lt : FP → FP → Bool
  | fin a, fin b => decide (a < b)
  | fin _, inf n => !n
  | inf n, fin _ => n
  | inf n, inf m => n && !m
  | _, _ => false

/-- The comparison `x <= y`, false when an operand is NaN. -/
def le : FP → FP → Bool
  | fin a, fin b => decide (a ≤ b)
  | fin _, inf n => !n
  | inf n, fin _ => n
  | inf n, inf m => n || !m
  | _, _ => false

/-- Conversion of an integer to `double`. -/
def ofInt (n : Int) : FP := rnd64 (n : ℚ)

/-- Conversion of a `double` to `float`. -/
def toFloat : FP → FP
  | fin q => rnd32 q
  | x => x

/-- The constant `1.0`. -/
def one : FP := fin 1

/-- The constant `0.5`. -/
def half : FP := fin (1 / 2)

end FP

/-! ## Faults -/

/-- Ways in which a call can fail to return. -/
inductive Fault
  /-- A `Q_ASSERT` fails or a vector is indexed out of range. -/
  | assertion
  /-- A conversion to an integer type or a signed addition has undefined behaviour. -/
  | undefinedBehaviour
  deriving DecidableEq

deriving instance DecidableEq for Except

/-- Truncation toward zero of a finite value. -/
def FP.trunc : FP → Option Int
  | .fin q =>
    some (if 0 ≤ q then ((q.num.toNat / q.den : Nat) : Int)
      else -(((-q.num).toNat / q.den : Nat) : Int))
  | _ => none

/-- Conversion of a floating-point value to an integer type with range `lo .. hi`: the value
is truncated toward zero, and the behaviour is undefined when the truncated value is not in
the range (or the value is not finite). -/
def FP.toIntegral (lo hi : Int) (x : FP) : Except Fault Int :=
  match x.trunc with
  | some n => if lo ≤ n ∧ n ≤ hi then .ok n else .error .undefinedBehaviour
  | none => .error .undefinedBehaviour

/-- Conversion to `int`. -/
def FP.toInt32 (x : FP) : Except Fault Int := x.toIntegral (-(2 ^ 31)) (2 ^ 31 - 1)

/-- Addition of two `int`s; overflow is undefined. -/
def addInt32 (a b : Int) : Except Fault Int :=
  if -(2 ^ 31) ≤ a + b ∧ a + b ≤ 2 ^ 31 - 1 then .ok (a + b) else .error .undefinedBehaviour

/-- Qt 5 `qRound(double d)`:
`d >= 0.0 ? int(d + 0.5) : int(d - double(int(d-1)) + 0.5) + int(d-1)`. -/
def qRound (d : FP) : Except Fault Int :=
  if FP.le (.fin 0) d then (FP.add rnd64 d FP.half).toInt32
  else do
    let k ← (FP.sub rnd64 d FP.one).toInt32
    let m ← (FP.add rnd64 (FP.sub rnd64 d (FP.ofInt k)) FP.half).toInt32
    addInt32 m k

/-- Qt `qMin(a, b)`: `(a < b) ? a : b`. -/
def qMin (a b : FP) : FP := if FP.lt a b then a else b

/-- Qt `qMax(a, b)`: `(a < b) ? b : a`. -/
def qMax (a b : FP) : FP := if FP.lt a b then b else a

/-- Qt `qBound(min, val, max)`: `qMax(min, qMin(max, val))`. -/
def qBound (min val max : FP) : FP := qMax min (qMin max val)

/-- Qt `qAbs(t)`: `t >= 0 ? t : -t`. -/
def qAbs (t : FP) : FP := if FP.le (.fin 0) t then t else t.neg

/-- Qt `qFuzzyIsNull(float f)`: `qAbs(f) <= 0.00001f`. -/
def qFuzzyIsNull (f : FP) : Bool := FP.le (qAbs f) (rnd32 (1 / 100000))

/-! ## QVariant -/

/-- A `QVariant`: an invalid variant, a value of one of the eight meta-types that
`interpolate` knows, or a value of any other meta-type (identified by its type id, with an
uninterpreted payload). -/
inductive QVariant
  | invalid
  | int (v : Int)
  | uint (v : Nat)
  | longLong (v : Int)
  | uLongLong (v : Nat)
  | float (v : FP)
  | double (v : FP)
  | point (x y : Int)
  | pointF (x y : FP)
  | other (typeId payload : Nat)
  deriving DecidableEq

/-- The method `QVariant::isValid()`. -/
def QVariant.isValid : QVariant → Bool
  | .invalid => false
  | _ => true

/-- What the Qt library contributes to the class: what `QVariant::value<T>()` returns for a
variant that holds another type than `T`, and what `QVariant::operator!=` answers for two
variants (`ne value other` is `value != other`). The embedding leaves them open. -/
structure QtConvert where
  toInt : QVariant → Int
  toUInt : QVariant → Nat
  toLongLong : QVariant → Int
  toULongLong : QVariant → Nat
  toFloat : QVariant → FP
  toDouble : QVariant → FP
  toPoint : QVariant → Int × Int
  toPointF : QVariant → FP × FP
  ne : QVariant → QVariant → Bool

/-! ### The comparison of Qt 5.15 -/

/-- The comparison `x == y` of two floating-point values, false when an operand is NaN. -/
def FP.eq : FP → FP → Bool
  | .fin a, .fin b => decide (a = b)
  | .inf n, .inf m => decide (n = m)
  | _, _ => false

/-- Whether `qFpClassify` gives `FP_NORMAL` or `FP_SUBNORMAL`: a finite value other than
zero. -/
def FP.isFiniteNonZero : FP → Bool
  | .fin q => decide (q ≠ 0)
  | _ => false

/-- Qt `qFuzzyCompare(double p1, double p2)`:
`qAbs(p1 - p2) * 1000000000000. <= qMin(qAbs(p1), qAbs(p2))`. -/
def qFuzzyCompare (p1 p2 : FP) : Bool :=
  FP.le (FP.mul rnd64 (qAbs (FP.sub rnd64 p1 p2)) (.fin 1000000000000))
    (qMin (qAbs p1) (qAbs p2))

/-- Qt `qFuzzyIsNull(double d)`: `qAbs(d) <= 0.000000000001`. -/
def qFuzzyIsNullDouble (d : FP) : Bool := FP.le (qAbs d) (rnd64 (1 / 1000000000000))

/-- Whether the meta-type of a variant is floating point (`qIsFloatingPoint`). -/
def QVariant.isFloatingPoint : QVariant → Bool
  | .float _ => true
  | .double _ => true
  | _ => false

/-- Whether the meta-type of a variant is numeric (`qIsNumericType`). -/
def QVariant.isNumeric : QVariant → Bool
  | .int _ => true
  | .uint _ => true
  | .longLong _ => true
  | .uLongLong _ => true
  | .float _ => true
  | .double _ => true
  | _ => false

/-- The value of an integer variant (`qConvertToNumber`, before it is cut to the promoted
type). -/
def QVariant.toNumber : QVariant → Int
  | .int v => v
  | .uint v => (v : Int)
  | .longLong v => v
  | .uLongLong v => (v : Int)
  | _ => 0

/-- The value of a numeric variant as a `qreal` (`qConvertToRealNumber`). -/
def QVariant.toRealNumber : QVariant → FP
  | .float v => v
  | .double v => v
  | w => FP.ofInt w.toNumber

/-- The comparison of two variants of integer types (`integralCompare` of Qt 5.15, for
equality): both values are cut to the type that `numericTypePromotion` gives, which is
`qulonglong` if one of the two is, else `qlonglong` if one of the two is, else `uint` if one
of the two is, else `int`. -/
def integralEquals (v1 v2 : QVariant) : Bool :=
  match v1, v2 with
  | .uLongLong a, w => decide (((a : Int) - w.toNumber) % 2 ^ 64 = 0)
  | w, .uLongLong b => decide ((w.toNumber - (b : Int)) % 2 ^ 64 = 0)
  | .longLong a, w => decide (a = w.toNumber)
  | w, .longLong b => decide (w.toNumber = b)
  | .uint a, w => decide (((a : Int) - w.toNumber) % 2 ^ 32 = 0)
  | w, .uint b => decide ((w.toNumber - (b : Int)) % 2 ^ 32 = 0)
  | v, w => decide (v.toNumber = w.toNumber)

/-- The comparison of two variants of numeric types (`numericCompare` of Qt 5.15, for
equality): integers are compared after promotion; when one of the two is a `float` or a
`double` both are converted to `qreal` and are equal when `r1 == r2` or, both being finite
and not zero, when `qFuzzyCompare(r1, r2)`. -/
def numericEquals (v1 v2 : QVariant) : Bool :=
  if v1.isFloatingPoint || v2.isFloatingPoint then
    FP.eq v1.toRealNumber v2.toRealNumber ||
      (v1.toRealNumber.isFiniteNonZero && v2.toRealNumber.isFiniteNonZero &&
        qFuzzyCompare v1.toRealNumber v2.toRealNumber)
  else integralEquals v1 v2

/-- One coordinate of `operator==(const QPointF &, const QPointF &)` of Qt 5.15:
`(!p1 || !p2) ? qFuzzyIsNull(p1 - p2) : qFuzzyCompare(p1, p2)`. -/
def coordinateEquals (p1 p2 : FP) : Bool :=
  if FP.eq p1 (.fin 0) || FP.eq p2 (.fin 0) then qFuzzyIsNullDouble (FP.sub rnd64 p1 p2)
  else qFuzzyCompare p1 p2

/-- The comparison `QVariant::cmp` of Qt 5.15 (`operator==`) on the variants of the
embedding: two variants of numeric types are compared as numbers; two invalid variants are
equal; two `QPoint`s are equal when their coordinates are; two `QPointF`s are compared
coordinate by coordinate, fuzzily. A variant of another meta-type has an uninterpreted
payload: two such variants are taken to be equal when type and payload are. Every other
pair (two different kinds that are not both numeric) is taken to differ: Qt first tries a
conversion there, which fails between a number or an invalid variant and a point; the
conversion between a `QPoint` and a `QPointF` and the conversions of the other meta-types
are not modelled. -/
def QVariant.cmp : QVariant → QVariant → Bool
  | .invalid, .invalid => true
  | .point x1 y1, .point x2 y2 => decide (x1 = x2 ∧ y1 = y2)
  | .pointF x1 y1, .pointF x2 y2 => coordinateEquals x1 x2 && coordinateEquals y1 y2
  | .other t1 p1, .other t2 p2 => decide (t1 = t2 ∧ p1 = p2)
  | v1, v2 => v1.isNumeric && v2.isNumeric && numericEquals v1 v2

/-- A Qt whose conversions yield the default-constructed value everywhere and whose
`operator!=` is the negation of `QVariant::cmp` of Qt 5.15. -/
def QtConvert.zero : QtConvert where
  toInt := fun _ => 0
  toUInt := fun _ => 0
  toLongLong := fun _ => 0
  toULongLong := fun _ => 0
  toFloat := fun _ => .fin 0
  toDouble := fun _ => .fin 0
  toPoint := fun _ => (0, 0)
  toPointF := fun _ => (.fin 0, .fin 0)
  ne := fun v1 v2 => !QVariant.cmp v1 v2

/-! ## Interpolation -/

/-- What the template `interpolateGeneric<ValueType>` needs of its type argument: the stored
type `T`, the type `P` of the product `T * double`, `QVariant::value<T>()`, the product, the
sum of two products, and the conversion of the sum to `T` wrapped into a `QVariant` again. -/
structure ValueType where
  T : Type
  P : Type
  value : QVariant → T
  mul : T → FP → Except Fault P
  add : P → P → Except Fault P
  ret : P → Except Fault QVariant

/-- The template `interpolateGeneric<ValueType>`:
`a = from.value<T>(); b = to.value<T>(); return a * (1.0 - progress) + b * progress;` -/
def interpolateGeneric (V : ValueType) (from_ to_ : QVariant) (progress : FP) :
    Except Fault QVariant := do
  let a := V.value from_
  let b := V.value to_
  let x ← V.mul a (FP.sub rnd64 FP.one progress)
  let y ← V.mul b progress
  let r ← V.add x y
  V.ret r

/-- An integer type with range `lo .. hi`: the operands are converted to `double`, the sum is
a `double` and the result is converted back. -/
def integerType (value : QVariant → Int) (lo hi : Int) (wrap : Int → QVariant) : ValueType where
  T := Int
  P := FP
  value := value
  mul := fun a c => .ok (FP.mul rnd64 (FP.ofInt a) c)
  add := fun x y => .ok (FP.add rnd64 x y)
  ret := fun r => (r.toIntegral lo hi).map wrap

section Convert

variable (qt : QtConvert)

/-- The type argument `int`. -/
def intType : ValueType :=
  integerType (fun v => match v with | .int a => a | w => qt.toInt w)
    (-(2 ^ 31)) (2 ^ 31 - 1) .int

/-- The type argument `uint`. -/
def uintType : ValueType :=
  integerType (fun v => match v with | .uint a => (a : Int) | w => (qt.toUInt w : Int))
    0 (2 ^ 32 - 1) (fun n => .uint n.toNat)

/-- The type argument `long long`. -/
def longLongType : ValueType :=
  integerType (fun v => match v with | .longLong a => a | w => qt.toLongLong w)
    (-(2 ^ 63)) (2 ^ 63 - 1) .longLong

/-- The type argument `unsigned long long`. -/
def uLongLongType : ValueType :=
  integerType (fun v => match v with | .uLongLong a => (a : Int) | w => (qt.toULongLong w : Int))
    0 (2 ^ 64 - 1) (fun n => .uLongLong n.toNat)

/-- The type argument `float`: `float * double` is a `double`, the result is rounded to
`float`. -/
def floatType : ValueType where
  T := FP
  P := FP
  value := fun v => match v with | .float a => a | w => qt.toFloat w
  mul := fun a c => .ok (FP.mul rnd64 a c)
  add := fun x y => .ok (FP.add rnd64 x y)
  ret := fun r => .ok (.float r.toFloat)

/-- The type argument `double`. -/
def doubleType : ValueType where
  T := FP
  P := FP
  value := fun v => match v with | .double a => a | w => qt.toDouble w
  mul := fun a c => .ok (FP.mul rnd64 a c)
  add := fun x y => .ok (FP.add rnd64 x y)
  ret := fun r => .ok (.double r)

/-- The type argument `QPoint`: `operator*(QPoint, double)` rounds each coordinate with
`qRound`, `operator+` adds the `int` coordinates. -/
def pointType : ValueType where
  T := Int × Int
  P := Int × Int
  value := fun v => match v with | .point x y => (x, y) | w => qt.toPoint w
  mul := fun a c => do
    let x ← qRound (FP.mul rnd64 (FP.ofInt a.1) c)
    let y ← qRound (FP.mul rnd64 (FP.ofInt a.2) c)
    pure (x, y)
  add := fun p q => do
    let x ← addInt32 p.1 q.1
    let y ← addInt32 p.2 q.2
    pure (x, y)
  ret := fun r => .ok (.point r.1 r.2)

/-- The type argument `QPointF`: product and sum are taken coordinate by coordinate. -/
def pointFType : ValueType where
  T := FP × FP
  P := FP × FP
  value := fun v => match v with | .pointF x y => (x, y) | w => qt.toPointF w
  mul := fun a c => .ok (FP.mul rnd64 a.1 c, FP.mul rnd64 a.2 c)
  add := fun p q => .ok (FP.add rnd64 p.1 q.1, FP.add rnd64 p.2 q.2)
  ret := fun r => .ok (.pointF r.1 r.2)

/-- The function `TimelineAnimation::interpolate`: dispatch on the meta-type of `from`; for a type that is
not supported a warning is printed and `to` is returned. -/
def interpolate (from_ to_ : QVariant) (progress : FP) : Except Fault QVariant :=
  match from_ with
  | .int _ => interpolateGeneric (intType qt) from_ to_ progress
  | .uint _ => interpolateGeneric (uintType qt) from_ to_ progress
  | .longLong _ => interpolateGeneric (longLongType qt) from_ to_ progress
  | .uLongLong _ => interpolateGeneric (uLongLongType qt) from_ to_ progress
  | .float _ => interpolateGeneric (floatType qt) from_ to_ progress
  | .double _ => interpolateGeneric (doubleType qt) from_ to_ progress
  | .point _ _ => interpolateGeneric (pointType qt) from_ to_ progress
  | .pointF _ _ => interpolateGeneric (pointFType qt) from_ to_ progress
  | _ => .ok to_

end Convert

/-! ## Transition table -/

/-- A `QEasingCurve`, given by its easing function. -/
structure QEasingCurve where
  func : FP → FP

/-- The default-constructed curve, `QEasingCurve::Linear`. -/
def QEasingCurve.linear : QEasingCurve := ⟨fun p => p⟩

/-- Qt 5 `QEasingCurve::valueForProgress`: the progress is clamped by `qBound(0, progress, 1)`
and handed to the easing function. -/
def QEasingCurve.valueForProgress (c : QEasingCurve) (progress : FP) : FP :=
  c.func (qBound (.fin 0) progress (.fin 1))

/-- The struct `TimelineAnimation::Entry`. The field `state` is the pointer to the snapshot
vector, `none` for `nullptr`. -/
structure Entry where
  relStartTime : FP
  state : Option (List QVariant)
  dataId : Nat
  from_ : QVariant
  to_ : QVariant
  relDuration : FP
  easingCurve : QEasingCurve

namespace Entry

/-- The constructor
`Entry(float relStartTime, float relDuration, unsigned dataId, QVariant from, QVariant to,
QEasingCurve easingCurve)`. -/
def transition (relStartTime relDuration : FP) (dataId : Nat) (from_ to_ : QVariant)
    (easingCurve : QEasingCurve) : Entry where
  relStartTime := relStartTime
  state := none
  dataId := dataId
  from_ := from_
  to_ := to_
  relDuration := relDuration
  easingCurve := easingCurve

/-- The constructor `Entry(float relStartTime, unsigned member, QVariant to)`. -/
def setter (relStartTime : FP) (member : Nat) (to_ : QVariant) : Entry where
  relStartTime := relStartTime
  state := none
  dataId := member
  from_ := .invalid
  to_ := to_
  relDuration := .fin 0
  easingCurve := .linear

/-- The constructor `Entry(float relStartTime, const QVector<QVariant> *state)`; `q_check_ptr`
rejects a null pointer. The constructor leaves `dataId` uninitialised (the tick never reads it
for such an entry); here it is 0. -/
def snapshot (relStartTime : FP) (state : List QVariant) : Entry where
  relStartTime := relStartTime
  state := some state
  dataId := 0
  from_ := .invalid
  to_ := .invalid
  relDuration := .fin 0
  easingCurve := .linear

/-- The method `Entry::isSetter`. -/
def isSetter (e : Entry) : Bool := qFuzzyIsNull e.relDuration && !e.from_.isValid

/-- The method `Entry::isStartingFromPreviousValue`. -/
def isStartingFromPreviousValue (e : Entry) : Bool := !e.from_.isValid && e.to_.isValid

end Entry

/-! ## The animation -/

/-- The struct `TimelineAnimation::TransitionState`. -/
structure TransitionState where
  previousValue : QVariant := .invalid
  processed : Bool := false
  deriving DecidableEq

/-- The enumeration `QAbstractAnimation::State`. -/
inductive State
  | Stopped
  | Paused
  | Running
  deriving DecidableEq

/-- The object `TimelineAnimation`: the state of the base class `QAbstractAnimation`, the
members `_durationMs`, `_transitions` and `_transitionStates`, and the vector that the member
`_data` points to. -/
structure TimelineAnimation where
  state : State
  _durationMs : Int
  _data : List QVariant
  _transitions : Option (List Entry)
  _transitionStates : List TransitionState

/-- A write to the variable vector during a tick: the assignment `value = ...` of a scalar
entry (with the index of the entry, the index of the variable, the value before and the value
after) or the assignment `*_data = *transition.state` of a snapshot entry. -/
inductive Write
  | assign (entry dataId : Nat) (old new : QVariant)
  | replace (entry : Nat) (new : List QVariant)
  deriving DecidableEq

/-- Index of the table entry that made a write. -/
def Write.entry : Write → Nat
  | .assign entry _ _ _ => entry
  | .replace entry _ => entry

/-- Whether a write is the assignment of a scalar entry. -/
def Write.isAssign : Write → Bool
  | .assign _ _ _ _ => true
  | .replace _ _ => false

/-- Whether a write touches the variable `k`: an assignment to `k`, or any replacement of the
whole vector. -/
def Write.touches (k : Nat) : Write → Bool
  | .assign _ dataId _ _ => decide (dataId = k)
  | .replace _ _ => true

/-- The variable vector after a write. -/
def Write.apply (data : List QVariant) : Write → List QVariant
  | .assign _ dataId _ new => data.set dataId new
  | .replace _ new => new

/-- The variable vector after a sequence of writes. -/
def replay (data : List QVariant) (log : List Write) : List QVariant :=
  log.foldl Write.apply data

/-- A log is faithful from the vector `data` on when every assignment in it records as `old`
the value that its variable holds at that moment, and writes a value that differs from it
by the comparison `ne` (`old != new`). -/
def faithful (ne : QVariant → QVariant → Bool) : List QVariant → List Write → Prop
  | _, [] => True
  | data, w :: ws =>
    (match w with
      | .assign _ dataId old new => data[dataId]? = some old ∧ ne old new = true
      | .replace _ _ => True) ∧ faithful ne (w.apply data) ws

/-- What the loop of `updateCurrentTime` works on: the variable vector, the running states,
the local `changed`, and the log of writes made so far. -/
structure Scan where
  data : List QVariant
  states : List TransitionState
  changed : Bool
  log : List Write

/-- How one pass through the loop body ends: at the end of the body or with `continue`
(`next`), or with `break` (`brk`). -/
inductive Ctl
  | next (s : Scan)
  | brk (s : Scan)

/-- The scan state carried by an outcome. -/
def Ctl.scan : Ctl → Scan
  | .next s => s
  | .brk s => s

/-- What a call of `updateCurrentTime` leaves: the object, the number of times that
`valueChanged` was emitted, and the log of the writes to the variable vector. -/
structure Tick where
  anim : TimelineAnimation
  valueChanged : Nat
  log : List Write

/-- The `progress` of `updateCurrentTime`: `qreal(currentTime)/_durationMs`. -/
def progressOf (durationMs currentTime : Int) : FP :=
  FP.div rnd64 (FP.ofInt currentTime) (FP.ofInt durationMs)

/-- The `relEndTime` of an entry: the `float` sum `relStartTime + relDuration`. -/
def Entry.relEndTime (transition : Entry) : FP :=
  FP.add rnd32 transition.relStartTime transition.relDuration

/-- The `transitionProgress` of a running entry:
`(progress - transition.relStartTime) / transition.relDuration`, in `qreal`. -/
def Entry.transitionProgress (transition : Entry) (progress : FP) : FP :=
  FP.div rnd64 (FP.sub rnd64 progress transition.relStartTime) transition.relDuration

section Engine

variable (qt : QtConvert)

/-- One pass through the body of the loop of `updateCurrentTime`, for the entry `transition`
at index `i` of the table. -/
def loopBody (progress : FP) (i : Nat) (transition : Entry) (s : Scan) : Except Fault Ctl :=
  match s.states[i]? with
  | none => .error .assertion
  | some state =>
    if state.processed then .ok (.next s)
    else
      let relEndTime := transition.relEndTime
      match transition.state with
      | some snapshot =>
        if FP.le relEndTime progress then
          .ok (.next { s with
            data := snapshot
            states := s.states.set i { state with processed := true }
            log := s.log ++ [.replace i snapshot] })
        else .ok (.next s)
      | none =>
        match s.data[transition.dataId]? with
        | none => .error .assertion
        | some value =>
          if FP.lt relEndTime progress then
            let s1 : Scan :=
              if qt.ne value transition.to_ then
                { s with
                  data := s.data.set transition.dataId transition.to_
                  changed := true
                  log := s.log ++ [.assign i transition.dataId value transition.to_] }
              else s
            .ok (.next { s1 with states := s1.states.set i { state with processed := true } })
          else if FP.le transition.relStartTime progress then
            let state1 : TransitionState :=
              if transition.isStartingFromPreviousValue && !state.previousValue.isValid then
                { state with previousValue := value }
              else state
            let transitionProgress := transition.transitionProgress progress
            let from_ :=
              if transition.isStartingFromPreviousValue then state1.previousValue
              else transition.from_
            match interpolate qt from_ transition.to_
                (transition.easingCurve.valueForProgress transitionProgress) with
            | .error f => .error f
            | .ok newValue =>
              let s1 : Scan := { s with states := s.states.set i state1 }
              if qt.ne value newValue then
                .ok (.next { s1 with
                  data := s1.data.set transition.dataId newValue
                  changed := true
                  log := s1.log ++ [.assign i transition.dataId value newValue] })
              else .ok (.next s1)
          else .ok (.brk s)

/-- The loop `for (int i = 0; i < _transitions->size(); ++i)` from index `i` on, over the
entries of the table that are left. -/
def loop (progress : FP) : List Entry → Nat → Scan → Except Fault Ctl
  | [], _, s => .ok (.next s)
  | transition :: rest, i, s =>
    match loopBody qt progress i transition s with
    | .ok (.next s1) => loop progress rest (i + 1) s1
    | .ok (.brk s1) => .ok (.brk s1)
    | .error f => .error f

/-- The method `TimelineAnimation::updateCurrentTime`: nothing happens without a table; else
the progress is computed, the loop runs over the table, and `valueChanged` is emitted when
`changed` is set. -/
def updateCurrentTime (a : TimelineAnimation) (currentTime : Int) : Except Fault Tick :=
  match a._transitions with
  | none => .ok { anim := a, valueChanged := 0, log := [] }
  | some transitions =>
    let progress := progressOf a._durationMs currentTime
    match loop qt progress transitions 0
        { data := a._data, states := a._transitionStates, changed := false, log := [] } with
    | .error f => .error f
    | .ok c =>
      .ok { anim := { a with _data := c.scan.data, _transitionStates := c.scan.states }
            valueChanged := if c.scan.changed then 1 else 0
            log := c.scan.log }

end Engine

namespace TimelineAnimation

/-- The method `TimelineAnimation::updateState`: on `Running` every running state is replaced
by a default-constructed one. -/
def updateState (a : TimelineAnimation) (newState _oldState : State) : TimelineAnimation :=
  match newState with
  | .Running => { a with _transitionStates := a._transitionStates.map (fun _ => {}) }
  | _ => a

/-- The method `TimelineAnimation::setDuration`. -/
def setDuration (a : TimelineAnimation) (durationMs : Int) : TimelineAnimation :=
  { a with _durationMs := durationMs }

/-- The method `TimelineAnimation::duration`. -/
def duration (a : TimelineAnimation) : Int := a._durationMs

/-- The method `QAbstractAnimation::stop`: nothing when the animation is stopped, else the
state becomes `Stopped` and `updateState(Stopped, oldState)` is called. -/
def stop (a : TimelineAnimation) : TimelineAnimation :=
  if a.state = .Stopped then a
  else updateState { a with state := .Stopped } .Stopped a.state

/-- The method `TimelineAnimation::setTransitions`. -/
def setTransitions (a : TimelineAnimation) (transitions : Option (List Entry)) :
    TimelineAnimation :=
  let a1 := a.stop
  let a2 := { a1 with _transitions := transitions }
  match transitions with
  | some table => { a2 with _transitionStates := List.replicate table.length {} }
  | none => { a2 with _transitionStates := [] }

/-- The constructor of `TimelineAnimation`; `q_check_ptr` rejects a null `data`. -/
def create (durationMs : Int) (data : List QVariant) (transitions : Option (List Entry)) :
    TimelineAnimation :=
  setTransitions
    { state := .Stopped, _durationMs := durationMs, _data := data, _transitions := none,
      _transitionStates := [] }
    transitions

end TimelineAnimation

/-- A run: one call of `updateCurrentTime` for each elapsed time of the list, in order, each
on the object that the tick before left; the result lists what every tick left. -/
def runTicks (qt : QtConvert) : TimelineAnimation → List Int → Except Fault (List Tick)
  | _, [] => .ok []
  | a, currentTime :: rest =>
    match updateCurrentTime qt a currentTime with
    | .error f => .error f
    | .ok t =>
      match runTicks qt t.anim rest with
      | .error f => .error f
      | .ok ts => .ok (t :: ts)
/-- What the passes of the loop for the table indices `lo .. hi - 1` did when they took the scan
state `s` to `s1`, making the writes `l`: the log grew by `l`, whose writes come from those
indices, record the values held and replay to the new vector; `changed` was set exactly when
an assignment was made; only the running states of those indices can differ; an entry that was
processed kept its running state and wrote nothing; a captured value was kept. -/
structure Effect (qt : QtConvert) (lo hi : Nat) (s s1 : Scan) (l : List Write) : Prop where
  log : s1.log = s.log ++ l
  entry : ∀ w ∈ l, lo ≤ w.entry ∧ w.entry < hi
  sound : faithful qt.ne s.data l
  data : replay s.data l = s1.data
  changed : s1.changed = (s.changed || l.any Write.isAssign)
  length : s1.states.length = s.states.length
  outside : ∀ j, j < lo ∨ hi ≤ j → s1.states[j]? = s.states[j]?
  processed : ∀ (j : Nat) (st : TransitionState), s.states[j]? = some st → st.processed = true →
    s1.states[j]? = some st ∧ ∀ w ∈ l, w.entry ≠ j
  captured : ∀ (j : Nat) (st : TransitionState), s.states[j]? = some st → st.previousValue.isValid = true →
    ∃ st1, s1.states[j]? = some st1 ∧ st1.previousValue = st.previousValue

/-- The scan state at the start of the loop of a tick. -/
def TimelineAnimation.scan0 (a : TimelineAnimation) : Scan :=
  { data := a._data, states := a._transitionStates, changed := false, log := [] }

/-- The entry of the worked example: start 0.0, duration fraction 0.4 (both `float`), variable
0, from 0 to 10 (both `int`), linear easing. -/
def exampleEntry : Entry :=
  Entry.transition (rnd32 0) (rnd32 (2 / 5)) 0 (.int 0) (.int 10) .linear

/-- The animation of the worked example: duration 250, the table with the single entry
`exampleEntry`, run on the vector `data`, and started. -/
def exampleAnimation (data : List QVariant) : TimelineAnimation :=
  (TimelineAnimation.create 250 data (some [exampleEntry])).updateState .Running .Stopped

/-- What the tick at elapsed time 150 leaves of the worked example when variable 0 held 4. -/
def exampleEndTick : Tick where
  anim :=
    { state := .Stopped, _durationMs := 250, _data := [.int 10],
      _transitions := some [exampleEntry],
      _transitionStates := [{ previousValue := .invalid, processed := true }] }
  valueChanged := 1
  log := [.assign 0 0 (.int 4) (.int 10)]

/-- The parts of a tick result that can be compared: the vector, the running states, the
number of notifications and the log. -/
def Tick.summary (t : Tick) : List QVariant × List TransitionState × Nat × List Write :=
  (t.anim._data, t.anim._transitionStates, t.valueChanged, t.log)

/-- An animation with duration 250 on the vector `[0]` whose table is the single snapshot
entry at start 0.0 with the vector `[1]`. -/
def snapshotAnimation : TimelineAnimation :=
  TimelineAnimation.create 250 [.int 0] (some [Entry.snapshot (rnd32 0) [.int 1]])

/-- A "continue from the current value" entry: start 0.0, duration fraction 1.0, variable 0,
no `from`, to `int` 10, linear easing. -/
def continueEntry : Entry :=
  Entry.transition (rnd32 0) (rnd32 1) 0 .invalid (.int 10) .linear

/-- An animation with duration 250 on the vector `data` whose table is the single entry
`continueEntry`. -/
def continueAnimation (data : List QVariant) : TimelineAnimation :=
  TimelineAnimation.create 250 data (some [continueEntry])

/-- What the tick at elapsed time 125 leaves of `continueAnimation [0]`. -/
def continueTick : Tick where
  anim :=
    { state := .Stopped, _durationMs := 250, _data := [.int 5],
      _transitions := some [continueEntry],
      _transitionStates := [{ previousValue := .int 0, processed := false }] }
  valueChanged := 1
  log := [.assign 0 0 (.int 0) (.int 5)]

/-- What the tick at elapsed time 0 leaves of `snapshotAnimation`. -/
def snapshotTick : Tick where
  anim :=
    { state := .Stopped, _durationMs := 250, _data := [.int 1],
      _transitions := some [Entry.snapshot (rnd32 0) [.int 1]],
      _transitionStates := [{ previousValue := .invalid, processed := true }] }
  valueChanged := 0
  log := [.replace 0 [.int 1]]

/-- An animation with duration 250 on the vector `[0]` whose table is the single snapshot
entry at start 0.0 with the two-element vector `[1, 2]`. -/
def resizeAnimation : TimelineAnimation :=
  TimelineAnimation.create 250 [.int 0] (some [Entry.snapshot (rnd32 0) [.int 1, .int 2]])

/-! ## Further notions -/

/-- Whether the meta-type of a variant is one of the eight that `interpolate` dispatches on. -/
def QVariant.isSupported : QVariant → Bool
  | .int _ => true
  | .uint _ => true
  | .longLong _ => true
  | .uLongLong _ => true
  | .float _ => true
  | .double _ => true
  | .point _ _ => true
  | .pointF _ _ => true
  | _ => false

/-- The value that the running branch interpolates from, for an entry whose running state is
`st` while its variable holds `value`: the explicit `from`, or for a "continue from the
current value" entry the captured value (captured now from the variable if none was). -/
def Entry.effectiveFrom (e : Entry) (st : TransitionState) (value : QVariant) : QVariant :=
  if e.isStartingFromPreviousValue then
    (if st.previousValue.isValid then st.previousValue else value)
  else e.from_

/-- A value of type `float`: a finite value is a binary32 number. -/
def FP.isFloat : FP → Prop
  | .fin q => rnd32 q = .fin q
  | _ => True

/-- A value of type `double`: a finite value is a binary64 number. -/
def FP.isDouble : FP → Prop
  | .fin q => rnd64 q = .fin q
  | _ => True

/-- A call that a client can make on the object between installing a table and installing
the next one: a tick, a state change, or `setDuration`. -/
inductive Op
  | tick (currentTime : Int)
  | updateState (newState oldState : State)
  | setDuration (durationMs : Int)

/-- The object after a sequence of calls, made in order. -/
def applyOps (qt : QtConvert) : TimelineAnimation → List Op → Except Fault TimelineAnimation
  | a, [] => .ok a
  | a, .tick currentTime :: rest =>
    match updateCurrentTime qt a currentTime with
    | .error f => .error f
    | .ok t => applyOps qt t.anim rest
  | a, .updateState newState oldState :: rest => applyOps qt (a.updateState newState oldState) rest
  | a, .setDuration durationMs :: rest => applyOps qt (a.setDuration durationMs) rest

/-- The loop of `updateCurrentTime` with the `break` of the "too early" branch taken out:
every entry of the table is evaluated, in table order. -/
def loopAll (qt : QtConvert) (progress : FP) : List Entry → Nat → Scan → Except Fault Scan
  | [], _, s => .ok s
  | transition :: rest, i, s =>
    match loopBody qt progress i transition s with
    | .ok c => loopAll qt progress rest (i + 1) c.scan
    | .error f => .error f

/-- A tick that evaluates every entry of the table without breaking: `updateCurrentTime` with
`loopAll` in the place of the loop. -/
def updateCurrentTimeAll (qt : QtConvert) (a : TimelineAnimation) (currentTime : Int) :
    Except Fault Tick :=
  match a._transitions with
  | none => .ok { anim := a, valueChanged := 0, log := [] }
  | some transitions =>
    match loopAll qt (progressOf a._durationMs currentTime) transitions 0 a.scan0 with
    | .error f => .error f
    | .ok s =>
      .ok { anim := { a with _data := s.data, _transitionStates := s.states }
            valueChanged := if s.changed then 1 else 0
            log := s.log }

/-- An animation with duration 250 on the vector `[3]` whose table is the single setter
entry at offset `s` that sets variable 0 to 7. -/
def setterAnimation (s : ℚ) : TimelineAnimation :=
  TimelineAnimation.create 250 [.int 3] (some [Entry.setter (rnd32 s) 0 (.int 7)])

/-- An animation with duration 5 on the vector `[0]` whose table holds a snapshot entry at
start 0.5 with the vector `[9]`, followed by the entry of the worked example. -/
def lateSnapshotAnimation : TimelineAnimation :=
  TimelineAnimation.create 5 [.int 0]
    (some [Entry.snapshot (rnd32 (1 / 2)) [.int 9], exampleEntry])

/-- The binary exponent of a positive rational `a`: the `e` with `2^e <= a < 2^(e+1)`, as
`roundTo` computes it. -/
def expo (a : ℚ) : Int := ilog2 a.num.toNat a.den

/-- The exponent of the unit in the last place that `roundTo` uses for a positive rational
`a` in the format with `p` significand bits and largest exponent `emax`. -/
def quantum (p : Nat) (emax : Int) (a : ℚ) : Int := max (expo a) (1 - emax) - ((p : Int) - 1)

/-- A rational that the format with `p` significand bits and largest exponent `emax` holds
exactly: a significand below `2^p` times a power of two that is not below the smallest unit,
with a magnitude below `2^(emax+1)`. -/
def Representable (p : Nat) (emax : Int) (q : ℚ) : Prop :=
  ∃ (m : Nat) (k : Int), |q| = (m : ℚ) * pow2 k ∧ m < 2 ^ p ∧
    1 - emax - ((p : Int) - 1) ≤ k ∧ |q| < pow2 (emax + 1)

instance FP.decIsFloat : (x : FP) → Decidable x.isFloat
  | .fin q => inferInstanceAs (Decidable (rnd32 q = .fin q))
  | .inf _ => inferInstanceAs (Decidable True)
  | .nan => inferInstanceAs (Decidable True)

instance FP.decIsDouble : (x : FP) → Decidable x.isDouble
  | .fin q => inferInstanceAs (Decidable (rnd64 q = .fin q))
  | .inf _ => inferInstanceAs (Decidable True)
  | .nan => inferInstanceAs (Decidable True)

/-- The second entry of `sortedAnimation`: start 0.5, duration fraction 0.25, variable 1, from
0 to 8 (both `int`), linear easing. -/
def lateEntry : Entry :=
  Entry.transition (rnd32 (1 / 2)) (rnd32 (1 / 4)) 1 (.int 0) (.int 8) .linear

/-- An animation with duration 5 on the vector `[0, 0]` whose table is sorted by start:
the entry of the worked example, then `lateEntry`. -/
def sortedAnimation : TimelineAnimation :=
  TimelineAnimation.create 5 [.int 0, .int 0] (some [exampleEntry, lateEntry])

/-- What the tick at elapsed time 1 leaves of `sortedAnimation`. -/
def sortedTick : Tick where
  anim :=
    { state := .Stopped, _durationMs := 5, _data := [.int 4, .int 0],
      _transitions := some [exampleEntry, lateEntry],
      _transitionStates := [{}, {}] }
  valueChanged := 1
  log := [.assign 0 0 (.int 0) (.int 4)]

/-- An animation with duration 5 on the vector `[0]` whose table is a single scalar entry
with a negative duration fraction: start 0.5, duration fraction -0.4, variable 0, from 0 to
10 (both `int`), linear easing. -/
def reversedAnimation : TimelineAnimation :=
  TimelineAnimation.create 5 [.int 0]
    (some [Entry.transition (rnd32 (1 / 2)) (rnd32 (-2 / 5)) 0 (.int 0) (.int 10) .linear])

deriving instance DecidableEq for Scan

deriving instance DecidableEq for Ctl

/-- The scan state that the tick at elapsed time 1 of `sortedAnimation` has reached when it
meets the second entry. -/
def sortedScan : Scan where
  data := [.int 4, .int 0]
  states := [{}, {}]
  changed := true
  log := [.assign 0 0 (.int 0) (.int 4)]

/-- An entry whose `float` end is above the exact sum of start and duration fraction: start
0.5, duration fraction 0.25 + 3 * 2^-25, variable 0, from 0 to 10 (both `int`), linear
easing. -/
def overshootEntry : Entry :=
  Entry.transition (rnd32 (1 / 2)) (rnd32 (8388611 / 33554432)) 0 (.int 0) (.int 10) .linear

/-- An animation with duration 8388608 on the vector `[0]` whose table is the single entry
`overshootEntry`. -/
def overshootAnimation : TimelineAnimation :=
  TimelineAnimation.create 8388608 [.int 0] (some [overshootEntry])

/-- An entry whose `float` end is below the exact sum of start and duration fraction: start
0.5, duration fraction 0.25 + 2^-25, variable 0, from 0 to 10 (both `int`), linear easing. -/
def roundedEndEntry : Entry :=
  Entry.transition (rnd32 (1 / 2)) (rnd32 (8388609 / 33554432)) 0 (.int 0) (.int 10) .linear

/-- An animation with duration 4 on the vector `[0]` whose table is the single entry
`roundedEndEntry`. -/
def roundedEndAnimation : TimelineAnimation :=
  TimelineAnimation.create 4 [.int 0] (some [roundedEndEntry])

/-- An entry that interpolates from a value of an unsupported meta-type (type id 67, a
`QColor`, with an uninterpreted payload): start 0.0, duration fraction 1.0, variable 0, to
the `int` 10, linear easing. -/
def unsupportedEntry : Entry :=
  Entry.transition (rnd32 0) (rnd32 1) 0 (.other 67 0) (.int 10) .linear

/-- An animation with duration 5 on the vector `data` whose table is the single entry
`unsupportedEntry`. -/
def unsupportedAnimation (data : List QVariant) : TimelineAnimation :=
  TimelineAnimation.create 5 data (some [unsupportedEntry])

/-- An animation with duration 5 on the vector that holds the point (NaN, NaN), the
`invalidPointF` of the header, whose table is the single setter entry at offset 0.0 that
sets variable 0 to the same point. -/
def nanAnimation : TimelineAnimation :=
  TimelineAnimation.create 5 [.pointF .nan .nan]
    (some [Entry.setter (rnd32 0) 0 (.pointF .nan .nan)])


/-! ## Lists and logs -/

theorem set_of_getElem? {α : Type} (l : List α) (i : Nat) (x : α) (h : l[i]? = some x) :
    l.set i x = l := by
  apply List.ext_getElem?
  intro j
  by_cases hj : i = j
  · subst hj
    rw [List.getElem?_set_self', h]
    simp
  · rw [List.getElem?_set_ne hj]

theorem replay_append (data : List QVariant) (l1 l2 : List Write) :
    replay data (l1 ++ l2) = replay (replay data l1) l2 := by
  simp [replay, List.foldl_append]

theorem faithful_cons (ne : QVariant → QVariant → Bool) (data : List QVariant) (w : Write)
    (ws : List Write) :
    faithful ne data (w :: ws) ↔
      (match w with
        | .assign _ dataId old new => data[dataId]? = some old ∧ ne old new = true
        | .replace _ _ => True) ∧ faithful ne (w.apply data) ws :=
  Iff.rfl

theorem faithful_append (ne : QVariant → QVariant → Bool) (data : List QVariant)
    (l1 l2 : List Write) :
    faithful ne data (l1 ++ l2) ↔
      faithful ne data l1 ∧ faithful ne (replay data l1) l2 := by
  induction l1 generalizing data with
  | nil => simp [faithful, replay]
  | cons w ws ih =>
    rw [List.cons_append, faithful_cons, faithful_cons, ih]
    simp only [replay, List.foldl_cons]
    tauto

theorem replay_untouched (k : Nat) (data : List QVariant) (l : List Write)
    (h : ∀ w ∈ l, w.touches k = false) : (replay data l)[k]? = data[k]? := by
  induction l generalizing data with
  | nil => simp [replay]
  | cons w ws ih =>
    have hw := h w (List.mem_cons_self _ _)
    have hws : ∀ v ∈ ws, v.touches k = false := fun v hv => h v (List.mem_cons_of_mem _ hv)
    simp only [replay, List.foldl_cons]
    have := ih (w.apply data) hws
    simp only [replay] at this
    rw [this]
    cases w with
    | assign entry dataId old new =>
      simp [Write.touches] at hw
      simp [Write.apply, List.getElem?_set_ne hw]
    | replace entry new => simp [Write.touches] at hw

theorem replay_length (n : Nat) (data : List QVariant) (l : List Write)
    (hd : data.length = n)
    (h : ∀ entry new, Write.replace entry new ∈ l → new.length = n) :
    (replay data l).length = n := by
  induction l generalizing data with
  | nil => simpa [replay] using hd
  | cons w ws ih =>
    simp only [replay, List.foldl_cons]
    apply ih
    · cases w with
      | assign entry dataId old new => simpa [Write.apply] using hd
      | replace entry new => exact h entry new (List.mem_cons_self _ _)
    · intro entry new hmem
      exact h entry new (List.mem_cons_of_mem _ hmem)

section Lemmas

variable (qt : QtConvert)

/-! ## The loop body, branch by branch -/

theorem loop_append (p : FP) (pre post : List Entry) (i : Nat) (s : Scan) :
    loop qt p (pre ++ post) i s =
      match loop qt p pre i s with
      | .ok (.next s1) => loop qt p post (i + pre.length) s1
      | .ok (.brk s1) => .ok (.brk s1)
      | .error f => .error f := by
  induction pre generalizing i s with
  | nil => simp [loop]
  | cons e es ih =>
    simp only [List.cons_append, loop, List.length_cons]
    cases h : loopBody qt p i e s with
    | error f => simp
    | ok c =>
      cases c with
      | next s1 => simp [ih, Nat.add_assoc, Nat.add_comm 1]
      | brk s1 => simp

theorem loopBody_processed (p : FP) (i : Nat) (e : Entry) (s : Scan) (st : TransitionState)
    (hst : s.states[i]? = some st) (hp : st.processed = true) :
    loopBody qt p i e s = .ok (.next s) := by
  simp [loopBody, hst, hp]

theorem loopBody_snapshot (p : FP) (i : Nat) (e : Entry) (s : Scan) (st : TransitionState)
    (snapshot : List QVariant)
    (hst : s.states[i]? = some st) (hp : st.processed = false) (hsnap : e.state = some snapshot) :
    loopBody qt p i e s =
      if FP.le e.relEndTime p then
        .ok (.next { s with
          data := snapshot
          states := s.states.set i { st with processed := true }
          log := s.log ++ [.replace i snapshot] })
      else .ok (.next s) := by
  simp [loopBody, hst, hp, hsnap]

theorem loopBody_ended (p : FP) (i : Nat) (e : Entry) (s : Scan) (st : TransitionState)
    (value : QVariant)
    (hst : s.states[i]? = some st) (hp : st.processed = false) (hsnap : e.state = none)
    (hval : s.data[e.dataId]? = some value) (hlt : FP.lt e.relEndTime p = true) :
    loopBody qt p i e s =
      .ok (.next
        { data := if qt.ne value e.to_ then s.data.set e.dataId e.to_ else s.data
          states := s.states.set i { st with processed := true }
          changed := if qt.ne value e.to_ then true else s.changed
          log :=
            if qt.ne value e.to_ then s.log ++ [.assign i e.dataId value e.to_]
            else s.log }) := by
  cases hv : qt.ne value e.to_ <;> simp [loopBody, hst, hp, hsnap, hval, hlt, hv]

/-- The running state that the running branch leaves for its entry. -/
theorem loopBody_running (p : FP) (i : Nat) (e : Entry) (s : Scan) (st : TransitionState)
    (value : QVariant)
    (hst : s.states[i]? = some st) (hp : st.processed = false) (hsnap : e.state = none)
    (hval : s.data[e.dataId]? = some value) (hlt : FP.lt e.relEndTime p = false)
    (hrun : FP.le e.relStartTime p = true) :
    loopBody qt p i e s =
      let st1 : TransitionState :=
        if e.isStartingFromPreviousValue && !st.previousValue.isValid then
          { st with previousValue := value }
        else st
      match interpolate qt (if e.isStartingFromPreviousValue then st1.previousValue else e.from_)
          e.to_ (e.easingCurve.valueForProgress (e.transitionProgress p)) with
      | .error f => .error f
      | .ok newValue =>
        .ok (.next
          { data := if qt.ne value newValue then s.data.set e.dataId newValue else s.data
            states := s.states.set i st1
            changed := if qt.ne value newValue then true else s.changed
            log := if qt.ne value newValue then s.log ++ [.assign i e.dataId value newValue]
              else s.log }) := by
  simp only [loopBody, hst, hp, hsnap, hval, hlt, hrun]
  simp only [Bool.false_eq_true, if_false, if_true]
  split
  · rfl
  · rename_i newValue hint
    cases hv : qt.ne value newValue <;> simp [hv]

theorem loopBody_early (p : FP) (i : Nat) (e : Entry) (s : Scan) (st : TransitionState)
    (value : QVariant)
    (hst : s.states[i]? = some st) (hp : st.processed = false) (hsnap : e.state = none)
    (hval : s.data[e.dataId]? = some value) (hlt : FP.lt e.relEndTime p = false)
    (hrun : FP.le e.relStartTime p = false) :
    loopBody qt p i e s = .ok (.brk s) := by
  simp [loopBody, hst, hp, hsnap, hval, hlt, hrun]

end Lemmas

theorem Effect.refl (qt : QtConvert) (lo hi : Nat) (s : Scan) : Effect qt lo hi s s [] where
  log := by simp
  entry := by simp
  sound := trivial
  data := rfl
  changed := by simp
  length := rfl
  outside := fun _ _ => rfl
  processed := fun j st h _ => ⟨h, by simp⟩
  captured := fun j st h _ => ⟨st, h, rfl⟩

theorem Effect.trans {qt : QtConvert} {a b c : Nat} {s s1 s2 : Scan} {l1 l2 : List Write}
    (hab : a ≤ b) (hbc : b ≤ c) (h1 : Effect qt a b s s1 l1) (h2 : Effect qt b c s1 s2 l2) :
    Effect qt a c s s2 (l1 ++ l2) where
  log := by rw [h2.log, h1.log, List.append_assoc]
  entry := by
    intro w hw
    rcases List.mem_append.mp hw with hw | hw
    · have := h1.entry w hw; omega
    · have := h2.entry w hw; omega
  sound := by
    rw [faithful_append, h1.data]
    exact ⟨h1.sound, h2.sound⟩
  data := by rw [replay_append, h1.data, h2.data]
  changed := by rw [h2.changed, h1.changed, List.any_append, Bool.or_assoc]
  length := by rw [h2.length, h1.length]
  outside := by
    intro j hj
    rw [h2.outside j (by omega), h1.outside j (by omega)]
  processed := by
    intro j st hst hp
    obtain ⟨h1s, h1l⟩ := h1.processed j st hst hp
    obtain ⟨h2s, h2l⟩ := h2.processed j st h1s hp
    refine ⟨h2s, ?_⟩
    intro w hw
    rcases List.mem_append.mp hw with hw | hw
    · exact h1l w hw
    · exact h2l w hw
  captured := by
    intro j st hst hv
    obtain ⟨st1, h1s, h1v⟩ := h1.captured j st hst hv
    obtain ⟨st2, h2s, h2v⟩ := h2.captured j st1 h1s (by rw [h1v]; exact hv)
    exact ⟨st2, h2s, by rw [h2v, h1v]⟩

/-- The effect of a pass that replaces the running state of its own entry, which was not
processed, and makes the writes `l`. -/
theorem Effect.of_set {qt : QtConvert} {i : Nat} {s s1 : Scan} {l : List Write}
    {st st1 : TransitionState}
    (hst : s.states[i]? = some st) (hp : st.processed = false)
    (hstates : s1.states = s.states.set i st1)
    (hcap : st.previousValue.isValid = true → st1.previousValue = st.previousValue)
    (hlog : s1.log = s.log ++ l) (hentry : ∀ w ∈ l, w.entry = i)
    (hf : faithful qt.ne s.data l) (hdata : replay s.data l = s1.data)
    (hch : s1.changed = (s.changed || l.any Write.isAssign)) :
    Effect qt i (i + 1) s s1 l where
  log := hlog
  entry := by intro w hw; have := hentry w hw; omega
  sound := hf
  data := hdata
  changed := hch
  length := by rw [hstates, List.length_set]
  outside := by
    intro j hj
    rw [hstates, List.getElem?_set_ne (by omega)]
  processed := by
    intro j st0 hst0 hp0
    have hji : i ≠ j := by
      intro hij
      subst hij
      rw [hst] at hst0
      cases hst0
      rw [hp] at hp0
      cases hp0
    refine ⟨by rw [hstates, List.getElem?_set_ne hji]; exact hst0, ?_⟩
    intro w hw
    rw [hentry w hw]
    exact hji
  captured := by
    intro j st0 hst0 hv
    by_cases hji : i = j
    · subst hji
      rw [hst] at hst0
      cases hst0
      refine ⟨st1, ?_, hcap hv⟩
      rw [hstates, List.getElem?_set_self']
      simp [hst]
    · exact ⟨st0, by rw [hstates, List.getElem?_set_ne hji]; exact hst0, rfl⟩

section Lemmas

variable (qt : QtConvert)

/-- The effect of one pass of the loop body. -/
theorem loopBody_effect (p : FP) (i : Nat) (e : Entry) (s : Scan) (c : Ctl)
    (h : loopBody qt p i e s = .ok c) : ∃ l, Effect qt i (i + 1) s c.scan l := by
  cases hst : s.states[i]? with
  | none => simp [loopBody, hst] at h
  | some st =>
    by_cases hp : st.processed = true
    · rw [loopBody_processed qt p i e s st hst hp] at h
      cases h
      exact ⟨[], Effect.refl qt _ _ _⟩
    · have hp : st.processed = false := by simpa using hp
      cases hsnap : e.state with
      | some snapshot =>
        rw [loopBody_snapshot qt p i e s st snapshot hst hp hsnap] at h
        split at h
        · cases h
          exact ⟨[.replace i snapshot], Effect.of_set hst hp rfl (fun _ => rfl) rfl
            (by simp [Write.entry]) (by simp [faithful]) (by simp [replay, Write.apply, Ctl.scan])
            (by simp [Write.isAssign, Ctl.scan])⟩
        · cases h
          exact ⟨[], Effect.refl qt _ _ _⟩
      | none =>
        cases hval : s.data[e.dataId]? with
        | none => simp [loopBody, hst, hp, hsnap, hval] at h
        | some value =>
          by_cases hlt : FP.lt e.relEndTime p = true
          · rw [loopBody_ended qt p i e s st value hst hp hsnap hval hlt] at h
            cases h
            cases hv : qt.ne value e.to_
            · exact ⟨[], Effect.of_set hst hp rfl (fun _ => rfl) (by simp [Ctl.scan, hv])
                (by simp) trivial (by simp [replay, Ctl.scan, hv]) (by simp [Ctl.scan, hv])⟩
            · exact ⟨[.assign i e.dataId value e.to_],
                Effect.of_set hst hp rfl (fun _ => rfl) (by simp [Ctl.scan, hv])
                (by simp [Write.entry]) (by simp [faithful, hval, hv])
                (by simp [replay, Write.apply, Ctl.scan, hv])
                (by simp [Write.isAssign, Ctl.scan, hv])⟩
          · have hlt : FP.lt e.relEndTime p = false := by simpa using hlt
            by_cases hrun : FP.le e.relStartTime p = true
            · rw [loopBody_running qt p i e s st value hst hp hsnap hval hlt hrun] at h
              simp only at h
              split at h
              · cases h
              · rename_i newValue hint
                cases h
                have hcap : st.previousValue.isValid = true →
                    (if (e.isStartingFromPreviousValue && !st.previousValue.isValid) = true then
                      { st with previousValue := value } else st).previousValue
                      = st.previousValue := by
                  intro hv
                  simp [hv]
                cases hv : qt.ne value newValue
                · exact ⟨[], Effect.of_set hst hp rfl hcap (by simp [Ctl.scan, hv])
                    (by simp) trivial (by simp [replay, Ctl.scan, hv]) (by simp [Ctl.scan, hv])⟩
                · exact ⟨[.assign i e.dataId value newValue],
                    Effect.of_set hst hp rfl hcap (by simp [Ctl.scan, hv])
                    (by simp [Write.entry]) (by simp [faithful, hval, hv])
                    (by simp [replay, Write.apply, Ctl.scan, hv])
                    (by simp [Write.isAssign, Ctl.scan, hv])⟩
            · have hrun : FP.le e.relStartTime p = false := by simpa using hrun
              rw [loopBody_early qt p i e s st value hst hp hsnap hval hlt hrun] at h
              cases h
              exact ⟨[], Effect.refl qt _ _ _⟩

/-- The effect of the loop over the entries `es`, which sit at the indices from `i` on. -/
theorem loop_effect (p : FP) (es : List Entry) (i : Nat) (s : Scan) (c : Ctl)
    (h : loop qt p es i s = .ok c) : ∃ l, Effect qt i (i + es.length) s c.scan l := by
  induction es generalizing i s with
  | nil =>
    simp [loop] at h
    subst h
    exact ⟨[], Effect.refl qt _ _ _⟩
  | cons e es ih =>
    simp only [loop] at h
    cases hb : loopBody qt p i e s with
    | error f => simp [hb] at h
    | ok c1 =>
      obtain ⟨l1, h1⟩ := loopBody_effect qt p i e s c1 hb
      cases c1 with
      | next s1 =>
        simp only [hb] at h
        obtain ⟨l2, h2⟩ := ih (i + 1) s1 h
        refine ⟨l1 ++ l2, ?_⟩
        have : i + (e :: es).length = i + 1 + es.length := by simp; omega
        rw [this]
        exact Effect.trans (by omega) (by omega) h1 h2
      | brk s1 =>
        simp only [hb] at h
        cases h
        refine ⟨l1 ++ [], ?_⟩
        exact Effect.trans (Nat.le_succ i) (by simp) h1 (Effect.refl qt _ _ _)

end Lemmas

section Tick

variable (qt : QtConvert)

/-- A tick that returns ran the loop over the whole table. -/
theorem updateCurrentTime_ok (a : TimelineAnimation) (table : List Entry) (t : Int) (r : Tick)
    (ht : a._transitions = some table) (h : updateCurrentTime qt a t = .ok r) :
    ∃ c, loop qt (progressOf a._durationMs t) table 0 a.scan0 = .ok c ∧
      r = { anim := { a with _data := c.scan.data, _transitionStates := c.scan.states }
            valueChanged := if c.scan.changed then 1 else 0
            log := c.scan.log } := by
  cases a with
  | mk state durationMs data transitions transitionStates =>
    simp only at ht
    subst ht
    simp only [updateCurrentTime] at h
    cases hl : loop qt (progressOf durationMs t) table 0
        { data := data, states := transitionStates, changed := false, log := [] } with
    | error f => simp [hl] at h
    | ok c =>
      simp only [hl] at h
      cases h
      exact ⟨c, hl, rfl⟩

theorem updateCurrentTime_of_loop (a : TimelineAnimation) (table : List Entry) (t : Int) (c : Ctl)
    (ht : a._transitions = some table)
    (h : loop qt (progressOf a._durationMs t) table 0 a.scan0 = .ok c) :
    updateCurrentTime qt a t =
      .ok { anim := { a with _data := c.scan.data, _transitionStates := c.scan.states }
            valueChanged := if c.scan.changed then 1 else 0
            log := c.scan.log } := by
  cases a with
  | mk state durationMs data transitions transitionStates =>
    simp only at ht
    subst ht
    simp only [TimelineAnimation.scan0] at h
    simp only [updateCurrentTime, h]

theorem loop_single_next (p : FP) (i : Nat) (e : Entry) (s s1 : Scan)
    (h : loopBody qt p i e s = .ok (.next s1)) : loop qt p [e] i s = .ok (.next s1) := by
  simp only [loop, h]

/-- A tick over a table with a single scalar entry that has ended. -/
theorem tick_single_ended (a : TimelineAnimation) (e : Entry) (st : TransitionState)
    (value : QVariant) (t : Int)
    (ht : a._transitions = some [e]) (hs : a._transitionStates = [st])
    (hp : st.processed = false) (hsnap : e.state = none)
    (hval : a._data[e.dataId]? = some value)
    (hlt : FP.lt e.relEndTime (progressOf a._durationMs t) = true) :
    updateCurrentTime qt a t =
      .ok { anim := { a with
                      _data := if qt.ne value e.to_ then a._data.set e.dataId e.to_ else a._data
                      _transitionStates := [{ st with processed := true }] }
            valueChanged := if qt.ne value e.to_ then 1 else 0
            log := if qt.ne value e.to_ then [.assign 0 e.dataId value e.to_] else [] } := by
  have hst : a.scan0.states[0]? = some st := by simp [TimelineAnimation.scan0, hs]
  have hb := loopBody_ended qt (progressOf a._durationMs t) 0 e a.scan0 st value hst hp hsnap
    hval hlt
  have hl := loop_single_next qt _ _ _ _ _ hb
  rw [updateCurrentTime_of_loop qt a [e] t _ ht hl]
  cases hv : qt.ne value e.to_ <;> simp [Ctl.scan, TimelineAnimation.scan0, hv, hs]

/-- A tick over a table with a single scalar entry that is running. -/
theorem tick_single_running (a : TimelineAnimation) (e : Entry) (st : TransitionState)
    (value newValue : QVariant) (t : Int)
    (ht : a._transitions = some [e]) (hs : a._transitionStates = [st])
    (hp : st.processed = false) (hsnap : e.state = none)
    (hval : a._data[e.dataId]? = some value)
    (hlt : FP.lt e.relEndTime (progressOf a._durationMs t) = false)
    (hrun : FP.le e.relStartTime (progressOf a._durationMs t) = true)
    (hfrom : e.from_.isValid = true)
    (hint : interpolate qt e.from_ e.to_
      (e.easingCurve.valueForProgress (e.transitionProgress (progressOf a._durationMs t)))
        = .ok newValue) :
    updateCurrentTime qt a t =
      .ok { anim := { a with
                      _data :=
                        if qt.ne value newValue then a._data.set e.dataId newValue else a._data
                      _transitionStates := [st] }
            valueChanged := if qt.ne value newValue then 1 else 0
            log := if qt.ne value newValue then [.assign 0 e.dataId value newValue] else [] } := by
  have hst : a.scan0.states[0]? = some st := by simp [TimelineAnimation.scan0, hs]
  have hb := loopBody_running qt (progressOf a._durationMs t) 0 e a.scan0 st value hst hp hsnap
    hval hlt hrun
  have hstart : e.isStartingFromPreviousValue = false := by
    simp [Entry.isStartingFromPreviousValue, hfrom]
  simp only [hstart, Bool.false_and, Bool.false_eq_true, if_false, hint] at hb
  have hl := loop_single_next qt _ _ _ _ _ hb
  rw [updateCurrentTime_of_loop qt a [e] t _ ht hl]
  cases hv : qt.ne value newValue <;> simp [Ctl.scan, TimelineAnimation.scan0, hv, hs]

end Tick

/-! ## The worked example -/

theorem interpolate_int (qt : QtConvert) (a b : Int) (x : FP) :
    interpolate qt (.int a) (.int b) x = interpolate .zero (.int a) (.int b) x := rfl

theorem exampleAnimation_eq (data : List QVariant) :
    exampleAnimation data =
      { state := .Stopped, _durationMs := 250, _data := data,
        _transitions := some [exampleEntry], _transitionStates := [{}] } := rfl

/-- The numbers of the worked example at elapsed time 50: the duration fraction 0.4 as a
`float`, the progress 50/250 as a `double`, and the local progress, which is below one half. -/
theorem example_numbers :
    exampleEntry.relDuration = .fin (13421773 / 33554432) ∧
    progressOf 250 50 = .fin (3602879701896397 / 18014398509481984) ∧
    exampleEntry.transitionProgress (progressOf 250 50)
      = .fin (4503599560261633 / 9007199254740992) ∧
    FP.lt (exampleEntry.transitionProgress (progressOf 250 50)) FP.half = true := by
  decide!

theorem example_running_0 :
    FP.lt exampleEntry.relEndTime (progressOf 250 0) = false ∧
    FP.le exampleEntry.relStartTime (progressOf 250 0) = true ∧
    interpolate .zero exampleEntry.from_ exampleEntry.to_
      (exampleEntry.easingCurve.valueForProgress
        (exampleEntry.transitionProgress (progressOf 250 0))) = .ok (.int 0) := by
  decide!

theorem example_running_50 :
    FP.lt exampleEntry.relEndTime (progressOf 250 50) = false ∧
    FP.le exampleEntry.relStartTime (progressOf 250 50) = true ∧
    interpolate .zero exampleEntry.from_ exampleEntry.to_
      (exampleEntry.easingCurve.valueForProgress
        (exampleEntry.transitionProgress (progressOf 250 50))) = .ok (.int 4) := by
  decide!

theorem example_ended_150 : FP.lt exampleEntry.relEndTime (progressOf 250 150) = true := by
  decide!

/-- Two `int` variants differ for `QtConvert.zero` exactly when their values do. -/
theorem zero_ne_int (a b : Int) : QtConvert.zero.ne (.int a) (.int b) = decide (a ≠ b) := by
  simp [QtConvert.zero, QVariant.cmp, QVariant.isNumeric, numericEquals,
    QVariant.isFloatingPoint, integralEquals, QVariant.toNumber]

/-- C1 (as amended). Duration 250, the single entry start 0.0, duration fraction 0.4,
variable 0, from `int` 0 to `int` 10, linear easing, fresh running state, any vector with a
variable 0, for a comparison that holds two `int`s to differ exactly when their values do
and a variable 0 that is the `int` 0 if the comparison finds it equal to the `int` 0 (any
`int` variable is): `updateCurrentTime(0)` leaves variable 0 equal to 0;
`updateCurrentTime(50)` leaves it equal to 4 with the entry not processed (the `float` 0.4 is
13421773/33554432, above 2/5, so the local progress 0.2/0.4 is below one half, the
interpolated `double` is below 5 and the conversion to `int` truncates);
`updateCurrentTime(150)` leaves it equal to 10 with the entry processed. -/
theorem C1_worked_example (qt : QtConvert) (v : QVariant) (rest : List QVariant)
    (hint : ∀ a b : Int, qt.ne (.int a) (.int b) = decide (a ≠ b))
    (hv : qt.ne v (.int 0) = false → v = .int 0) :
    ∃ t1 t2 t3 : Tick,
      updateCurrentTime qt (exampleAnimation (v :: rest)) 0 = .ok t1 ∧
      t1.anim._data = .int 0 :: rest ∧
      updateCurrentTime qt t1.anim 50 = .ok t2 ∧
      t2.anim._data = .int 4 :: rest ∧
      t2.anim._transitionStates = [{ previousValue := .invalid, processed := false }] ∧
      updateCurrentTime qt t2.anim 150 = .ok t3 ∧
      t3.anim._data = .int 10 :: rest ∧
      t3.anim._transitionStates = [{ previousValue := .invalid, processed := true }] := by
  have hd : ∀ w : QVariant, (w :: rest)[exampleEntry.dataId]? = some w := fun w => by
    simp [exampleEntry, Entry.transition]
  have hs : ∀ w x : QVariant, (w :: rest).set exampleEntry.dataId x = x :: rest :=
    fun w x => by simp [exampleEntry, Entry.transition]
  have h04 : qt.ne (.int 0) (.int 4) = true := by rw [hint]; decide
  have h410 : qt.ne (.int 4) exampleEntry.to_ = true := by
    have : exampleEntry.to_ = .int 10 := rfl
    rw [this, hint]
    decide
  have h0 : ∃ t1, updateCurrentTime qt (exampleAnimation (v :: rest)) 0 = .ok t1 ∧
      t1.anim = exampleAnimation (.int 0 :: rest) := by
    refine ⟨_, tick_single_running qt (exampleAnimation (v :: rest)) exampleEntry {} v (.int 0) 0
      rfl rfl rfl rfl (hd v) example_running_0.1 example_running_0.2.1 rfl
      ((interpolate_int qt 0 10 _).trans example_running_0.2.2), ?_⟩
    cases hc : qt.ne v (.int 0) with
    | true => simp [exampleAnimation_eq, hs]
    | false =>
      rw [hv hc]
      simp [exampleAnimation_eq]
  have h1 : ∃ t2, updateCurrentTime qt (exampleAnimation (.int 0 :: rest)) 50 = .ok t2 ∧
      t2.anim = exampleAnimation (.int 4 :: rest) :=
    ⟨_, tick_single_running qt (exampleAnimation (.int 0 :: rest)) exampleEntry {} (.int 0)
      (.int 4) 50 rfl rfl rfl rfl (hd _) example_running_50.1 example_running_50.2.1 rfl
      ((interpolate_int qt 0 10 _).trans example_running_50.2.2),
      by simp [exampleAnimation_eq, hs, h04]⟩
  have h2 : ∃ t3, updateCurrentTime qt (exampleAnimation (.int 4 :: rest)) 150 = .ok t3 ∧
      t3.anim = { exampleAnimation (.int 10 :: rest) with
        _transitionStates := [{ previousValue := .invalid, processed := true }] } :=
    ⟨_, tick_single_ended qt (exampleAnimation (.int 4 :: rest)) exampleEntry {} (.int 4)
      150 rfl rfl rfl rfl (hd _) example_ended_150,
      by simp [exampleAnimation_eq, hs, h410]; simp [exampleEntry, Entry.transition]⟩
  obtain ⟨t1, e1, a1⟩ := h0
  obtain ⟨t2, e2, a2⟩ := h1
  obtain ⟨t3, e3, a3⟩ := h2
  refine ⟨t1, t2, t3, e1, by rw [a1]; rfl, by rw [a1]; exact e2, by rw [a2]; rfl,
    by rw [a2]; rfl, by rw [a2]; exact e3, by rw [a3]; rfl, by rw [a3]⟩

/-- C1 (as amended) for the comparison of Qt 5.15 on the vector `[7]`: the three ticks leave
variable 0 equal to 0, 4 and 10. -/
theorem C1_witness :
    ∃ t1 t2 t3 : Tick,
      updateCurrentTime QtConvert.zero (exampleAnimation [.int 7]) 0 = .ok t1 ∧
      t1.anim._data = [.int 0] ∧
      updateCurrentTime QtConvert.zero t1.anim 50 = .ok t2 ∧
      t2.anim._data = [.int 4] ∧
      t2.anim._transitionStates = [{ previousValue := .invalid, processed := false }] ∧
      updateCurrentTime QtConvert.zero t2.anim 150 = .ok t3 ∧
      t3.anim._data = [.int 10] ∧
      t3.anim._transitionStates = [{ previousValue := .invalid, processed := true }] :=
  C1_worked_example QtConvert.zero (.int 7) [] zero_ne_int
    (fun h => absurd h (by rw [zero_ne_int]; decide))

/-- On the vector `[0.0]` (a `double`) the tick at elapsed time 0 of the worked example
leaves the `double` in place: the comparison of Qt 5.15 finds it equal to the `int` 0. -/
theorem example_double_zero_kept :
    (updateCurrentTime QtConvert.zero (exampleAnimation [.double (.fin 0)]) 0).map
        Tick.summary =
      .ok ([.double (.fin 0)], [{ previousValue := .invalid, processed := false }], 0, []) := by
  decide!

/-- The worked example as the specification states it fails at elapsed time 50: after
`updateCurrentTime(0)` and `updateCurrentTime(50)` on the vector `[0]` variable 0 holds 4,
not 5. -/
theorem C1_counterexample :
    ∃ t1 t2 : Tick,
      updateCurrentTime QtConvert.zero (exampleAnimation [.int 0]) 0 = .ok t1 ∧
      updateCurrentTime QtConvert.zero t1.anim 50 = .ok t2 ∧
      t2.anim._data[0]? = some (.int 4) ∧ t2.anim._data[0]? ≠ some (.int 5) :=
  ⟨_, _,
    tick_single_running QtConvert.zero (exampleAnimation [.int 0]) exampleEntry {} (.int 0)
      (.int 0) 0 rfl rfl rfl rfl rfl example_running_0.1 example_running_0.2.1 rfl
      example_running_0.2.2,
    tick_single_running QtConvert.zero (exampleAnimation [.int 0]) exampleEntry {} (.int 0)
      (.int 4) 50 rfl rfl rfl rfl rfl example_running_50.1 example_running_50.2.1 rfl
      example_running_50.2.2,
    by decide, by decide⟩


section TickFacts

variable (qt : QtConvert)

/-- What a tick that returns did, in terms of the effect of its loop. -/
theorem tick_facts (a : TimelineAnimation) (table : List Entry) (t : Int) (r : Tick)
    (ht : a._transitions = some table) (h : updateCurrentTime qt a t = .ok r) :
    ∃ c, loop qt (progressOf a._durationMs t) table 0 a.scan0 = .ok c ∧
      Effect qt 0 table.length a.scan0 c.scan r.log ∧
      r.anim._data = c.scan.data ∧ r.anim._transitionStates = c.scan.states ∧
      r.valueChanged = (if r.log.any Write.isAssign then 1 else 0) ∧
      r.anim._transitions = a._transitions ∧ r.anim._durationMs = a._durationMs ∧
      r.anim.state = a.state := by
  obtain ⟨c, hl, hr⟩ := updateCurrentTime_ok qt a table t r ht h
  obtain ⟨l, he⟩ := loop_effect qt _ table 0 a.scan0 c hl
  have hlog : c.scan.log = l := by
    have := he.log
    simpa [TimelineAnimation.scan0] using this
  have hch : c.scan.changed = l.any Write.isAssign := by
    have := he.changed
    simpa [TimelineAnimation.scan0] using this
  subst hr
  simp only [Nat.zero_add] at he
  refine ⟨c, hl, ?_, rfl, rfl, ?_, rfl, rfl, rfl⟩
  · simpa only [hlog] using he
  · simp only [hlog, hch]

/-- A tick on an object without a table returns at once. -/
theorem updateCurrentTime_null (a : TimelineAnimation) (t : Int) (ht : a._transitions = none) :
    updateCurrentTime qt a t = .ok { anim := a, valueChanged := 0, log := [] } := by
  simp only [updateCurrentTime, ht]

end TickFacts


/-- A tick only replaces the vector and the running states of the object. -/
theorem tick_anim (qt : QtConvert) (a : TimelineAnimation) (t : Int) (r : Tick)
    (h : updateCurrentTime qt a t = .ok r) :
    r.anim = { a with _data := r.anim._data, _transitionStates := r.anim._transitionStates } := by
  cases a with
  | mk state durationMs data transitions transitionStates =>
    cases transitions with
    | none =>
      rw [updateCurrentTime_null qt _ t rfl] at h
      cases h
      rfl
    | some table =>
      obtain ⟨c, _, hr⟩ := updateCurrentTime_ok qt _ table t r rfl h
      subst hr
      rfl

/-- The result of a tick, from its summary. -/
theorem tick_of_summary (qt : QtConvert) (a : TimelineAnimation) (t : Int)
    (d : List QVariant) (s : List TransitionState) (n : Nat) (l : List Write)
    (h : (updateCurrentTime qt a t).map Tick.summary = .ok (d, s, n, l)) :
    updateCurrentTime qt a t =
      .ok { anim := { a with _data := d, _transitionStates := s }, valueChanged := n, log := l } := by
  cases hr : updateCurrentTime qt a t with
  | error f => simp [hr, Except.map] at h
  | ok r =>
    have ha := tick_anim qt a t r hr
    simp only [hr, Except.map, Tick.summary, Except.ok.injEq, Prod.mk.injEq] at h
    obtain ⟨h1, h2, h3, h4⟩ := h
    cases r with
    | mk anim valueChanged log =>
      simp only at h1 h2 h3 h4 ha
      subst h3 h4
      rw [ha, h1, h2]

theorem FP.lt_false_of_le (x y : FP) (h : FP.le x y = true) : FP.lt y x = false := by
  cases x with
  | fin a =>
    cases y with
    | fin b =>
      simp only [FP.le, decide_eq_true_eq] at h
      simp only [FP.lt, decide_eq_false_iff_not, not_lt]
      exact h
    | inf n => cases n <;> simp_all [FP.le, FP.lt]
    | nan => simp [FP.le] at h
  | inf n =>
    cases y with
    | fin b => cases n <;> simp_all [FP.le, FP.lt]
    | inf m => cases n <;> cases m <;> simp_all [FP.le, FP.lt]
    | nan => simp [FP.le] at h
  | nan => simp [FP.le] at h

theorem FP.le_false_of_lt (x y : FP) (h : FP.lt x y = true) : FP.le y x = false := by
  cases hle : FP.le y x with
  | false => rfl
  | true =>
    rw [FP.lt_false_of_le y x hle] at h
    cases h


/-! ## Rounding -/

/-! ## Rounding -/

theorem pow2_eq (e : Int) : pow2 e = (2 : ℚ) ^ e := by
  unfold pow2
  split
  · rename_i h
    have : e = (e.toNat : Int) := (Int.toNat_of_nonneg h).symm
    conv_rhs => rw [this]
    rw [zpow_natCast]
    push_cast
    rfl
  · rename_i h
    have h2 : -e = ((-e).toNat : Int) := (Int.toNat_of_nonneg (by omega)).symm
    have : e = -((-e).toNat : Int) := by omega
    conv_rhs => rw [this]
    rw [zpow_neg, zpow_natCast]
    push_cast
    rw [one_div]

theorem pow2_pos (e : Int) : 0 < pow2 e := by
  rw [pow2_eq]
  positivity

theorem pow2_add (a b : Int) : pow2 (a + b) = pow2 a * pow2 b := by
  simp only [pow2_eq]
  exact zpow_add₀ (by norm_num) a b

theorem pow2_le_pow2 {a b : Int} (h : a ≤ b) : pow2 a ≤ pow2 b := by
  simp only [pow2_eq]
  exact zpow_le_zpow_right₀ (by norm_num) h

theorem pow2_lt_pow2 {a b : Int} (h : a < b) : pow2 a < pow2 b := by
  simp only [pow2_eq]
  exact zpow_lt_zpow_right₀ (by norm_num) h

theorem pow2_lt_pow2_iff {a b : Int} : pow2 a < pow2 b ↔ a < b := by
  constructor
  · intro h
    by_contra hn
    exact absurd (pow2_le_pow2 (not_lt.mp hn)) (not_le.mpr h)
  · exact pow2_lt_pow2

theorem pow2_natCast (n : Nat) : pow2 (n : Int) = ((2 ^ n : Nat) : ℚ) := by
  rw [pow2_eq, zpow_natCast]
  push_cast
  rfl

theorem natDiv_bounds (N D : Nat) (hD : 0 < D) :
    ((N / D : Nat) : ℚ) ≤ (N : ℚ) / D ∧ (N : ℚ) / D < ((N / D : Nat) : ℚ) + 1 := by
  have hDq : (0 : ℚ) < D := by exact_mod_cast hD
  have h1 : N / D * D ≤ N := Nat.div_mul_le_self N D
  have h2 : N < (N / D + 1) * D := by
    have := Nat.div_add_mod N D
    have hm := Nat.mod_lt N hD
    nlinarith
  constructor
  · rw [le_div_iff₀ hDq]
    exact_mod_cast h1
  · rw [div_lt_iff₀ hDq]
    exact_mod_cast h2

theorem toNat_div_den (x : ℚ) (hx : 0 ≤ x) : (x.num.toNat : ℚ) / (x.den : ℚ) = x := by
  have hnum : 0 ≤ x.num := Rat.num_nonneg.mpr hx
  have h1 : ((x.num.toNat : Nat) : ℚ) = (x.num : ℚ) := by
    have := Int.toNat_of_nonneg hnum
    exact_mod_cast congrArg (fun z : ℤ => (z : ℚ)) this
  rw [h1]
  exact Rat.num_div_den x

/-- The natural number `x.num.toNat / x.den` is the floor of a non-negative rational. -/
theorem floor_bounds (x : ℚ) (hx : 0 ≤ x) :
    ((x.num.toNat / x.den : Nat) : ℚ) ≤ x ∧ x < ((x.num.toNat / x.den : Nat) : ℚ) + 1 := by
  have h := natDiv_bounds x.num.toNat x.den x.den_pos
  have he := toNat_div_den x hx
  exact ⟨le_of_le_of_eq h.1 he, lt_of_eq_of_lt he.symm h.2⟩

theorem rne_cases (x : ℚ) :
    rne x = x.num.toNat / x.den ∨
      (rne x = x.num.toNat / x.den + 1 ∧ (1 : ℚ) / 2 ≤ x - ((x.num.toNat / x.den : Nat) : ℚ)) := by
  unfold rne
  simp only
  split
  · exact Or.inl rfl
  · rename_i h1
    split
    · exact Or.inr ⟨rfl, le_of_lt (by assumption)⟩
    · split
      · exact Or.inl rfl
      · exact Or.inr ⟨rfl, not_lt.mp h1⟩

/-- A natural number below a non-negative rational is below its rounding. -/
theorem le_rne (x : ℚ) (hx : 0 ≤ x) (n : Nat) (h : (n : ℚ) ≤ x) : n ≤ rne x := by
  obtain ⟨_, h2⟩ := floor_bounds x hx
  have hn : n ≤ x.num.toNat / x.den := by
    have : (n : ℚ) < ((x.num.toNat / x.den : Nat) : ℚ) + 1 := lt_of_le_of_lt h h2
    have : (n : ℚ) < ((x.num.toNat / x.den + 1 : Nat) : ℚ) := by push_cast; exact this
    have := Nat.cast_lt.mp this
    omega
  rcases rne_cases x with h | ⟨h, _⟩ <;> omega

/-- A natural number above a non-negative rational is above its rounding. -/
theorem rne_le (x : ℚ) (hx : 0 ≤ x) (n : Nat) (h : x ≤ (n : ℚ)) : rne x ≤ n := by
  obtain ⟨h1, _⟩ := floor_bounds x hx
  have hn : x.num.toNat / x.den ≤ n := by
    have : ((x.num.toNat / x.den : Nat) : ℚ) ≤ (n : ℚ) := le_trans h1 h
    exact Nat.cast_le.mp this
  rcases rne_cases x with h3 | ⟨h3, h4⟩
  · omega
  · have : ((x.num.toNat / x.den : Nat) : ℚ) < (n : ℚ) := by linarith
    have := Nat.cast_lt.mp this
    omega

theorem rne_natCast (n : Nat) : rne (n : ℚ) = n :=
  le_antisymm (rne_le _ (Nat.cast_nonneg n) n le_rfl) (le_rne _ (Nat.cast_nonneg n) n le_rfl)

theorem pow2_neg_natCast (k : Nat) : pow2 (-(k : Int)) = 1 / ((2 ^ k : Nat) : ℚ) := by
  rw [pow2_eq, zpow_neg, zpow_natCast]
  push_cast
  rw [one_div]

theorem pow2_one : pow2 1 = 2 := by
  rw [pow2_eq]
  norm_num

theorem pow2_succ (e : Int) : pow2 (e + 1) = 2 * pow2 e := by
  rw [pow2_add, pow2_one, mul_comm]

theorem log2_bounds (m : Nat) (hm : 0 < m) : 2 ^ Nat.log2 m ≤ m ∧ m < 2 ^ (Nat.log2 m + 1) := by
  rw [Nat.log2_eq_log_two]
  exact ⟨Nat.pow_log_le_self 2 (by omega), Nat.lt_pow_succ_log_self (by norm_num) m⟩

/-- The exponent that `ilog2` computes brackets the rational `n / d` between two powers of
two. -/
theorem ilog2_spec (n d : Nat) (hn : 0 < n) (hd : 0 < d) :
    pow2 (ilog2 n d) ≤ (n : ℚ) / d ∧ (n : ℚ) / d < pow2 (ilog2 n d + 1) := by
  have hnq : (0 : ℚ) < n := by exact_mod_cast hn
  have hdq : (0 : ℚ) < d := by exact_mod_cast hd
  unfold ilog2
  split
  · rename_i hle
    have hm : 0 < n / d := Nat.div_pos hle hd
    obtain ⟨h1, h2⟩ := log2_bounds (n / d) hm
    obtain ⟨b1, b2⟩ := natDiv_bounds n d hd
    constructor
    · rw [pow2_natCast]
      have : ((2 ^ Nat.log2 (n / d) : Nat) : ℚ) ≤ ((n / d : Nat) : ℚ) := by exact_mod_cast h1
      exact le_trans this b1
    · have e1 : ((Nat.log2 (n / d) : Int) + 1) = ((Nat.log2 (n / d) + 1 : Nat) : Int) := by
        push_cast; ring
      rw [e1, pow2_natCast]
      have : ((n / d : Nat) : ℚ) + 1 ≤ ((2 ^ (Nat.log2 (n / d) + 1) : Nat) : ℚ) := by
        exact_mod_cast h2
      exact lt_of_lt_of_le b2 this
  · rename_i hlt
    have hlt : n < d := not_le.mp hlt
    have hm : 0 < d / n := Nat.div_pos (le_of_lt hlt) hn
    obtain ⟨h1, h2⟩ := log2_bounds (d / n) hm
    have c1 : d / n * n ≤ d := Nat.div_mul_le_self d n
    have c2 : d < (d / n + 1) * n := by
      have := Nat.div_add_mod d n
      have hmod := Nat.mod_lt d hn
      nlinarith
    simp only
    set k := Nat.log2 (d / n) with hk
    have hkpos : (0 : ℚ) < ((2 ^ k : Nat) : ℚ) := by positivity
    have hk1pos : (0 : ℚ) < ((2 ^ (k + 1) : Nat) : ℚ) := by positivity
    have g1 : 2 ^ k * n ≤ d := le_trans (Nat.mul_le_mul_right n h1) c1
    have g2 : d < 2 ^ (k + 1) * n := lt_of_lt_of_le c2 (Nat.mul_le_mul_right n h2)
    split
    · rename_i hsub
      constructor
      · rw [pow2_neg_natCast, div_le_div_iff₀ hkpos hdq]
        have : (d : ℚ) ≤ (n : ℚ) * ((2 ^ k : Nat) : ℚ) := by exact_mod_cast hsub
        linarith
      · rw [pow2_succ, pow2_neg_natCast, div_lt_iff₀ hdq]
        have : ((2 ^ k : Nat) : ℚ) * n ≤ d := by exact_mod_cast g1
        have h3 : 2 * (1 / ((2 ^ k : Nat) : ℚ)) * d = 2 * d / ((2 ^ k : Nat) : ℚ) := by ring
        rw [h3, lt_div_iff₀ hkpos]
        nlinarith
    · rename_i hsub
      have hsub : n * 2 ^ k < d := not_le.mp hsub
      have e1 : -(k : Int) - 1 = -((k + 1 : Nat) : Int) := by push_cast; ring
      have e2 : -(k : Int) - 1 + 1 = -(k : Int) := by ring
      constructor
      · rw [e1, pow2_neg_natCast, div_le_div_iff₀ hk1pos hdq]
        have : (d : ℚ) < ((2 ^ (k + 1) : Nat) : ℚ) * n := by exact_mod_cast g2
        linarith
      · rw [e2, pow2_neg_natCast, div_lt_div_iff₀ hdq hkpos]
        have : (n : ℚ) * ((2 ^ k : Nat) : ℚ) < d := by exact_mod_cast hsub
        linarith

/-- The exponent of a positive rational: `ilog2` of its numerator and denominator. -/
theorem expo_spec (a : ℚ) (ha : 0 < a) :
    pow2 (ilog2 a.num.toNat a.den) ≤ a ∧ a < pow2 (ilog2 a.num.toNat a.den + 1) := by
  have hnum : 0 < a.num := Rat.num_pos.mpr ha
  have h := ilog2_spec a.num.toNat a.den (by omega) a.den_pos
  rw [toNat_div_den a (le_of_lt ha)] at h
  exact h

theorem le_expo (a : ℚ) (ha : 0 < a) (k : Int) (h : pow2 k ≤ a) :
    k ≤ ilog2 a.num.toNat a.den := by
  have h2 := (expo_spec a ha).2
  have := pow2_lt_pow2_iff.mp (lt_of_le_of_lt h h2)
  omega

theorem expo_lt (a : ℚ) (ha : 0 < a) (k : Int) (h : a < pow2 k) :
    ilog2 a.num.toNat a.den < k := by
  have h1 := (expo_spec a ha).1
  exact pow2_lt_pow2_iff.mp (lt_of_le_of_lt h1 h)

theorem expo_mono (a b : ℚ) (ha : 0 < a) (hab : a ≤ b) :
    ilog2 a.num.toNat a.den ≤ ilog2 b.num.toNat b.den :=
  le_expo b (lt_of_lt_of_le ha hab) _ (le_trans (expo_spec a ha).1 hab)

theorem roundTo_zero (p : Nat) (emax : Int) : roundTo p emax 0 = .fin 0 := by
  simp [roundTo]

/-- The rounding of a positive rational: its multiple of the unit in the last place, or
infinity on overflow. -/
theorem roundTo_pos (p : Nat) (emax : Int) (q : ℚ) (hq : 0 < q) :
    roundTo p emax q =
      if emax ≤ expo q ∧
          pow2 (emax + 1) ≤ (rne (q / pow2 (quantum p emax q)) : ℚ) * pow2 (quantum p emax q)
      then .inf false
      else .fin ((rne (q / pow2 (quantum p emax q)) : ℚ) * pow2 (quantum p emax q)) := by
  have h1 : q ≠ 0 := ne_of_gt hq
  have h2 : ¬ q < 0 := not_lt.mpr (le_of_lt hq)
  simp only [roundTo, h1, if_false, abs_of_pos hq, h2, decide_False, expo, quantum]

theorem roundTo_neg (p : Nat) (emax : Int) (q : ℚ) :
    roundTo p emax (-q) = (roundTo p emax q).neg := by
  rcases lt_trichotomy q 0 with h | h | h
  · have h1 : q ≠ 0 := ne_of_lt h
    have h2 : -q ≠ 0 := neg_ne_zero.mpr h1
    have h3 : ¬ -q < 0 := by linarith
    simp only [roundTo, h1, h2, if_false, abs_neg, h, h3, decide_False, decide_True, if_true]
    split <;> simp [FP.neg]
  · subst h
    simp [roundTo, FP.neg]
  · have h1 : q ≠ 0 := ne_of_gt h
    have h2 : -q ≠ 0 := neg_ne_zero.mpr h1
    have h3 : ¬ q < 0 := not_lt.mpr (le_of_lt h)
    have h4 : -q < 0 := by linarith
    simp only [roundTo, h1, h2, if_false, abs_neg, h3, h4, decide_False, decide_True, if_true]
    split <;> simp [FP.neg]

theorem FP.neg_neg (x : FP) : x.neg.neg = x := by
  cases x <;> simp [FP.neg]

theorem FP.le_neg_neg (x y : FP) : FP.le x.neg y.neg = FP.le y x := by
  cases x with
  | fin a =>
    cases y with
    | fin b => simp [FP.neg, FP.le]
    | inf m => cases m <;> simp [FP.neg, FP.le]
    | nan => simp [FP.neg, FP.le]
  | inf n =>
    cases y with
    | fin b => cases n <;> simp [FP.neg, FP.le]
    | inf m => cases n <;> cases m <;> simp [FP.neg, FP.le]
    | nan => simp [FP.neg, FP.le]
  | nan => cases y <;> simp [FP.neg, FP.le]

/-- What a positive rational that rounds to itself looks like: a natural multiple of its unit
in the last place, below the overflow threshold. -/
theorem fixed_pos (p : Nat) (emax : Int) (q : ℚ) (hq : 0 < q)
    (h : roundTo p emax q = .fin q) :
    (rne (q / pow2 (quantum p emax q)) : ℚ) * pow2 (quantum p emax q) = q ∧
      q < pow2 (emax + 1) := by
  rw [roundTo_pos p emax q hq] at h
  split at h
  · cases h
  · rename_i hov
    have hE : (rne (q / pow2 (quantum p emax q)) : ℚ) * pow2 (quantum p emax q) = q := by
      simpa using h
    refine ⟨hE, ?_⟩
    by_cases he : emax ≤ expo q
    · have : ¬ pow2 (emax + 1) ≤
          (rne (q / pow2 (quantum p emax q)) : ℚ) * pow2 (quantum p emax q) :=
        fun hc => hov ⟨he, hc⟩
      rw [hE] at this
      exact not_le.mp this
    · have h1 := (expo_spec q hq).2
      have h2 : pow2 (ilog2 q.num.toNat q.den + 1) ≤ pow2 (emax + 1) :=
        pow2_le_pow2 (by unfold expo at he; omega)
      exact lt_of_lt_of_le h1 h2

theorem quantum_mono (p : Nat) (emax : Int) (a b : ℚ) (ha : 0 < a) (hab : a ≤ b) :
    quantum p emax a ≤ quantum p emax b := by
  have := expo_mono a b ha hab
  unfold quantum expo
  omega

theorem pow2_sub_natCast (a b : Int) (h : b ≤ a) :
    pow2 a = (((2 ^ (a - b).toNat : Nat) : ℚ)) * pow2 b := by
  have e : a = ((a - b).toNat : Int) + b := by
    have := Int.toNat_of_nonneg (show 0 ≤ a - b by omega)
    omega
  conv_lhs => rw [e]
  rw [pow2_add, pow2_natCast]

/-- Rounding a positive rational does not go above a number of the format that lies above
it. -/
theorem roundTo_le_fixed_pos (p : Nat) (emax : Int) (y g : ℚ) (hy : 0 < y) (hyg : y ≤ g)
    (hg : roundTo p emax g = .fin g) :
    ∃ r, roundTo p emax y = .fin r ∧ 0 ≤ r ∧ r ≤ g := by
  have hgpos : 0 < g := lt_of_lt_of_le hy hyg
  obtain ⟨hgE, hgB⟩ := fixed_pos p emax g hgpos hg
  have hq := quantum_mono p emax y g hy hyg
  have hu : 0 < pow2 (quantum p emax y) := pow2_pos _
  have hsplit := pow2_sub_natCast (quantum p emax g) (quantum p emax y) hq
  -- `g` is a natural multiple of the unit of `y`
  have hN : g = ((rne (g / pow2 (quantum p emax g)) *
      2 ^ (quantum p emax g - quantum p emax y).toNat : Nat) : ℚ)
        * pow2 (quantum p emax y) := by
    calc g = (rne (g / pow2 (quantum p emax g)) : ℚ) * pow2 (quantum p emax g) := hgE.symm
      _ = (rne (g / pow2 (quantum p emax g)) : ℚ) *
            ((((2 ^ (quantum p emax g - quantum p emax y).toNat : Nat) : ℚ)) *
              pow2 (quantum p emax y)) := by rw [← hsplit]
      _ = _ := by push_cast; ring
  have hle : rne (y / pow2 (quantum p emax y)) ≤
      rne (g / pow2 (quantum p emax g)) * 2 ^ (quantum p emax g - quantum p emax y).toNat := by
    apply rne_le _ (le_of_lt (div_pos hy hu))
    rw [div_le_iff₀ hu, ← hN]
    exact hyg
  have hr : (rne (y / pow2 (quantum p emax y)) : ℚ) * pow2 (quantum p emax y) ≤ g := by
    conv_rhs => rw [hN]
    exact mul_le_mul_of_nonneg_right (by exact_mod_cast hle) (le_of_lt hu)
  refine ⟨(rne (y / pow2 (quantum p emax y)) : ℚ) * pow2 (quantum p emax y), ?_, ?_, hr⟩
  · rw [roundTo_pos p emax y hy]
    have : ¬ (emax ≤ expo y ∧ pow2 (emax + 1) ≤
        (rne (y / pow2 (quantum p emax y)) : ℚ) * pow2 (quantum p emax y)) := by
      rintro ⟨_, hc⟩
      exact absurd (lt_of_le_of_lt (le_trans hc hr) hgB) (lt_irrefl _)
    simp only [this, if_false]
  · exact mul_nonneg (Nat.cast_nonneg _) (le_of_lt hu)

/-- Rounding a positive rational does not go below a positive number of the format that lies
below it. -/
theorem fixed_le_roundTo_pos (p : Nat) (emax : Int) (f x : ℚ) (hp : 1 ≤ p) (hf : 0 < f)
    (hfx : f ≤ x) (hfix : roundTo p emax f = .fin f) :
    FP.le (.fin f) (roundTo p emax x) = true := by
  have hx : 0 < x := lt_of_lt_of_le hf hfx
  obtain ⟨hfE, _⟩ := fixed_pos p emax f hf hfix
  rw [roundTo_pos p emax x hx]
  split
  · rfl
  · simp only [FP.le, decide_eq_true_eq]
    have hu : 0 < pow2 (quantum p emax x) := pow2_pos _
    have hxu : 0 ≤ x / pow2 (quantum p emax x) := le_of_lt (div_pos hx hu)
    have hq := quantum_mono p emax f x hf hfx
    rcases eq_or_lt_of_le hq with heq | hlt
    · -- same unit: compare the significands
      rw [heq] at hfE
      have h1 : rne (f / pow2 (quantum p emax x)) ≤ rne (x / pow2 (quantum p emax x)) := by
        apply le_rne _ hxu
        rw [le_div_iff₀ hu, hfE]
        exact hfx
      calc f = (rne (f / pow2 (quantum p emax x)) : ℚ) * pow2 (quantum p emax x) := hfE.symm
        _ ≤ (rne (x / pow2 (quantum p emax x)) : ℚ) * pow2 (quantum p emax x) :=
          mul_le_mul_of_nonneg_right (by exact_mod_cast h1) (le_of_lt hu)
    · -- `f` lies in a lower binade than `x`: the power of two between them is a multiple of
      -- the unit of `x`
      have hmono : expo f ≤ expo x := expo_mono f x hf hfx
      have hqf : quantum p emax f = max (expo f) (1 - emax) - ((p : Int) - 1) := rfl
      have hqx : quantum p emax x = max (expo x) (1 - emax) - ((p : Int) - 1) := rfl
      have hex : expo f < expo x ∧ quantum p emax x = expo x - ((p : Int) - 1) := by
        omega
      have h1 : f < pow2 (expo x) :=
        lt_of_lt_of_le (expo_spec f hf).2 (pow2_le_pow2 (show expo f + 1 ≤ expo x by omega))
      have h2 : pow2 (expo x) ≤ x := (expo_spec x hx).1
      have h3 : pow2 (expo x) = ((2 ^ (p - 1) : Nat) : ℚ) * pow2 (quantum p emax x) := by
        have e : expo x = ((p - 1 : Nat) : Int) + quantum p emax x := by
          rw [hex.2]
          have : ((p - 1 : Nat) : Int) = (p : Int) - 1 := by omega
          omega
        conv_lhs => rw [e]
        rw [pow2_add, pow2_natCast]
      have h4 : 2 ^ (p - 1) ≤ rne (x / pow2 (quantum p emax x)) := by
        apply le_rne _ hxu
        rw [le_div_iff₀ hu, ← h3]
        exact h2
      calc f ≤ pow2 (expo x) := le_of_lt h1
        _ = ((2 ^ (p - 1) : Nat) : ℚ) * pow2 (quantum p emax x) := h3
        _ ≤ (rne (x / pow2 (quantum p emax x)) : ℚ) * pow2 (quantum p emax x) :=
          mul_le_mul_of_nonneg_right (by exact_mod_cast h4) (le_of_lt hu)

/-- The rounding of a non-negative rational is not negative. -/
theorem zero_le_roundTo (p : Nat) (emax : Int) (x : ℚ) (hx : 0 ≤ x) :
    FP.le (.fin 0) (roundTo p emax x) = true := by
  rcases eq_or_lt_of_le hx with h | h
  · rw [← h, roundTo_zero]
    simp [FP.le]
  · rw [roundTo_pos p emax x h]
    split
    · rfl
    · simp only [FP.le, decide_eq_true_eq]
      exact mul_nonneg (Nat.cast_nonneg _) (le_of_lt (pow2_pos _))

/-- Rounding is monotone against a number of the format below: a number of the format that
is at most `x` is at most the rounding of `x`. -/
theorem fixed_le_roundTo (p : Nat) (emax : Int) (f x : ℚ) (hp : 1 ≤ p) (hfx : f ≤ x)
    (hfix : roundTo p emax f = .fin f) : FP.le (.fin f) (roundTo p emax x) = true := by
  rcases lt_trichotomy f 0 with hf | hf | hf
  · rcases lt_or_le x 0 with hx | hx
    · -- both negative: mirror
      have hfix2 : roundTo p emax (-f) = .fin (-f) := by
        rw [roundTo_neg, hfix]
        rfl
      obtain ⟨r, hr, _, hrf⟩ :=
        roundTo_le_fixed_pos p emax (-x) (-f) (by linarith) (by linarith) hfix2
      have hx2 : roundTo p emax x = .fin (-r) := by
        have := roundTo_neg p emax (-x)
        rw [neg_neg, hr] at this
        exact this
      rw [hx2]
      simp only [FP.le, decide_eq_true_eq]
      linarith
    · have h0 := zero_le_roundTo p emax x hx
      cases hr : roundTo p emax x with
      | fin r =>
        rw [hr] at h0
        simp only [FP.le, decide_eq_true_eq] at h0 ⊢
        linarith
      | inf n =>
        rw [hr] at h0
        simpa [FP.le] using h0
      | nan =>
        rw [hr] at h0
        simp [FP.le] at h0
  · subst hf
    exact zero_le_roundTo p emax x hfx
  · exact fixed_le_roundTo_pos p emax f x hp hf hfx hfix

/-- Rounding is monotone against a number of the format above. -/
theorem roundTo_le_fixed (p : Nat) (emax : Int) (x g : ℚ) (hp : 1 ≤ p) (hxg : x ≤ g)
    (hfix : roundTo p emax g = .fin g) : FP.le (roundTo p emax x) (.fin g) = true := by
  have hfix2 : roundTo p emax (-g) = .fin (-g) := by
    rw [roundTo_neg, hfix]
    rfl
  have h := fixed_le_roundTo p emax (-g) (-x) hp (by linarith) hfix2
  rw [roundTo_neg] at h
  have e : FP.fin (-g) = (FP.fin g).neg := rfl
  rw [e, FP.le_neg_neg] at h
  exact h

/-- A representable rational rounds to itself. -/
theorem roundTo_representable_pos (p : Nat) (emax : Int) (q : ℚ) (hq : 0 < q)
    (h : Representable p emax q) : roundTo p emax q = .fin q := by
  obtain ⟨m, k, hqm, hm, hk, hb⟩ := h
  rw [abs_of_pos hq] at hqm hb
  -- the unit in the last place is at most `2^k`
  have hqlt : q < pow2 ((p : Int) + k) := by
    rw [hqm, pow2_add, pow2_natCast]
    exact mul_lt_mul_of_pos_right (by exact_mod_cast hm) (pow2_pos k)
  have he : expo q < (p : Int) + k := expo_lt q hq _ hqlt
  have hqk : quantum p emax q ≤ k := by
    have hqx : quantum p emax q = max (expo q) (1 - emax) - ((p : Int) - 1) := rfl
    omega
  have hsplit := pow2_sub_natCast k (quantum p emax q) hqk
  have hu : 0 < pow2 (quantum p emax q) := pow2_pos _
  have hN : q / pow2 (quantum p emax q) =
      ((m * 2 ^ (k - quantum p emax q).toNat : Nat) : ℚ) := by
    rw [div_eq_iff (ne_of_gt hu)]
    calc q = (m : ℚ) * pow2 k := hqm
      _ = (m : ℚ) * ((((2 ^ (k - quantum p emax q).toNat : Nat) : ℚ)) *
            pow2 (quantum p emax q)) := by rw [← hsplit]
      _ = _ := by push_cast; ring
  have hr : (rne (q / pow2 (quantum p emax q)) : ℚ) * pow2 (quantum p emax q) = q := by
    rw [hN, rne_natCast, ← hN]
    exact div_mul_cancel₀ q (ne_of_gt hu)
  rw [roundTo_pos p emax q hq, hr]
  have : ¬ (emax ≤ expo q ∧ pow2 (emax + 1) ≤ q) := fun hc => absurd hb (not_lt.mpr hc.2)
  simp only [this, if_false]

theorem roundTo_representable (p : Nat) (emax : Int) (q : ℚ)
    (h : Representable p emax q) : roundTo p emax q = .fin q := by
  rcases lt_trichotomy q 0 with hq | hq | hq
  · have h2 : Representable p emax (-q) := by
      unfold Representable at h ⊢
      rw [abs_neg]
      exact h
    have := roundTo_representable_pos p emax (-q) (by linarith) h2
    have h3 := roundTo_neg p emax (-q)
    rw [neg_neg, this] at h3
    rw [h3]
    simp [FP.neg]
  · subst hq
    exact roundTo_zero p emax
  · exact roundTo_representable_pos p emax q hq h

/-- A rational that rounds to itself is representable. -/
theorem representable_of_fixed (p : Nat) (emax : Int) (q : ℚ)
    (h : roundTo p emax q = .fin q) : Representable p emax q := by
  have pos : ∀ a : ℚ, 0 < a → roundTo p emax a = .fin a → Representable p emax a := by
    intro a ha hfix
    obtain ⟨hE, hB⟩ := fixed_pos p emax a ha hfix
    have hu : 0 < pow2 (quantum p emax a) := pow2_pos _
    refine ⟨rne (a / pow2 (quantum p emax a)), quantum p emax a, ?_, ?_, ?_, ?_⟩
    · rw [abs_of_pos ha, hE]
    · -- the significand is below `2^p` because `a` is below `2^(expo a + 1)`
      have h1 : a < pow2 (expo a + 1) := (expo_spec a ha).2
      have hqx : quantum p emax a = max (expo a) (1 - emax) - ((p : Int) - 1) := rfl
      have h2 : pow2 (expo a + 1) ≤ pow2 ((p : Int) + quantum p emax a) :=
        pow2_le_pow2 (by omega)
      have h3 : (rne (a / pow2 (quantum p emax a)) : ℚ) * pow2 (quantum p emax a) <
          ((2 ^ p : Nat) : ℚ) * pow2 (quantum p emax a) := by
        rw [hE, ← pow2_natCast, ← pow2_add]
        exact lt_of_lt_of_le h1 h2
      have h4 := lt_of_mul_lt_mul_right h3 (le_of_lt hu)
      exact_mod_cast h4
    · have hqx : quantum p emax a = max (expo a) (1 - emax) - ((p : Int) - 1) := rfl
      omega
    · rw [abs_of_pos ha]
      exact hB
  rcases lt_trichotomy q 0 with hq | hq | hq
  · have hfix2 : roundTo p emax (-q) = .fin (-q) := by
      rw [roundTo_neg, h]
      rfl
    have := pos (-q) (by linarith) hfix2
    unfold Representable at this ⊢
    rw [abs_neg] at this
    exact this
  · subst hq
    exact ⟨0, 1 - emax - ((p : Int) - 1), by simp, Nat.two_pow_pos p, le_refl _,
      by simpa using pow2_pos _⟩
  · exact pos q hq h

/-- Every `float` is a `double`. -/
theorem rnd64_of_rnd32 (q : ℚ) (h : rnd32 q = .fin q) : rnd64 q = .fin q := by
  obtain ⟨m, k, hqm, hm, hk, hb⟩ := representable_of_fixed 24 127 q h
  apply roundTo_representable
  refine ⟨m, k, hqm, ?_, ?_, ?_⟩
  · exact lt_trans hm (by norm_num)
  · omega
  · exact lt_trans hb (pow2_lt_pow2 (by norm_num))

theorem FP.isDouble_of_isFloat (x : FP) (h : x.isFloat) : x.isDouble := by
  cases x with
  | fin q => exact rnd64_of_rnd32 q h
  | inf n => trivial
  | nan => trivial


/-! ## Order of floating-point values and the end of an entry -/

theorem fp_le_trans (x y z : FP) (h1 : FP.le x y = true) (h2 : FP.le y z = true) :
    FP.le x z = true := by
  cases x with
  | fin a =>
    cases y with
    | fin b =>
      cases z with
      | fin c =>
        simp only [FP.le, decide_eq_true_eq] at h1 h2 ⊢
        exact le_trans h1 h2
      | inf m => simpa [FP.le] using h2
      | nan => simp [FP.le] at h2
    | inf n =>
      cases z with
      | fin c => cases n <;> simp_all [FP.le]
      | inf m => cases n <;> cases m <;> simp_all [FP.le]
      | nan => simp [FP.le] at h2
    | nan => simp [FP.le] at h1
  | inf n =>
    cases y with
    | fin b =>
      cases z with
      | fin c => simpa [FP.le] using h1
      | inf m => cases n <;> cases m <;> simp_all [FP.le]
      | nan => simp [FP.le] at h2
    | inf k =>
      cases z with
      | fin c => cases n <;> cases k <;> simp_all [FP.le]
      | inf m => cases n <;> cases k <;> cases m <;> simp_all [FP.le]
      | nan => simp [FP.le] at h2
    | nan => simp [FP.le] at h1
  | nan => simp [FP.le] at h1

theorem fp_le_of_lt (x y : FP) (h : FP.lt x y = true) : FP.le x y = true := by
  cases x with
  | fin a =>
    cases y with
    | fin b =>
      simp only [FP.lt, decide_eq_true_eq] at h
      simp only [FP.le, decide_eq_true_eq]
      exact le_of_lt h
    | inf n => simpa [FP.le, FP.lt] using h
    | nan => simp [FP.lt] at h
  | inf n =>
    cases y with
    | fin b => simpa [FP.le, FP.lt] using h
    | inf m => cases n <;> cases m <;> simp_all [FP.le, FP.lt]
    | nan => simp [FP.lt] at h
  | nan => simp [FP.lt] at h


/-- With a non-negative duration fraction the end of an entry is not before its start, unless
the end is NaN. -/
theorem start_le_relEndTime (e : Entry) (hfloat : e.relStartTime.isFloat)
    (hdur : FP.le (.fin 0) e.relDuration = true) :
    FP.le e.relStartTime e.relEndTime = true ∨ e.relEndTime = .nan := by
  unfold Entry.relEndTime
  cases hs : e.relStartTime with
  | fin a =>
    rw [hs] at hfloat
    cases hd : e.relDuration with
    | fin b =>
      rw [hd] at hdur
      simp only [FP.le, decide_eq_true_eq] at hdur
      left
      exact fixed_le_roundTo 24 127 a (a + b) (by norm_num) (by linarith) hfloat
    | inf n =>
      rw [hd] at hdur
      cases n <;> simp_all [FP.le, FP.add]
    | nan =>
      rw [hd] at hdur
      simp [FP.le] at hdur
  | inf n =>
    cases hd : e.relDuration with
    | fin b => cases n <;> simp [FP.le, FP.add]
    | inf m =>
      rw [hd] at hdur
      cases n <;> cases m <;> simp_all [FP.le, FP.add]
    | nan =>
      rw [hd] at hdur
      simp [FP.le] at hdur
  | nan => simp [FP.add]

/-- With a non-negative duration fraction an entry that has ended has started. -/
theorem started_of_ended (e : Entry) (p : FP) (hfloat : e.relStartTime.isFloat)
    (hdur : FP.le (.fin 0) e.relDuration = true) (hend : FP.le e.relEndTime p = true) :
    FP.le e.relStartTime p = true := by
  rcases start_le_relEndTime e hfloat hdur with h | h
  · exact fp_le_trans _ _ _ h hend
  · rw [h] at hend
    simp [FP.le] at hend

/-- An entry of a sorted table that comes after an entry that has not started has neither
started nor ended. -/
theorem not_started_after (e : Entry) (p s0 : FP) (hfloat : e.relStartTime.isFloat)
    (hdur : FP.le (.fin 0) e.relDuration = true) (hs0 : FP.le s0 p = false)
    (hle : FP.le s0 e.relStartTime = true) :
    FP.le e.relStartTime p = false ∧ FP.le e.relEndTime p = false ∧
      FP.lt e.relEndTime p = false := by
  have h1 : FP.le e.relStartTime p = false := by
    cases h : FP.le e.relStartTime p with
    | false => rfl
    | true =>
      rw [fp_le_trans _ _ _ hle h] at hs0
      cases hs0
  have h2 : FP.le e.relEndTime p = false := by
    cases h : FP.le e.relEndTime p with
    | false => rfl
    | true =>
      rw [started_of_ended e p hfloat hdur h] at h1
      cases h1
  refine ⟨h1, h2, ?_⟩
  cases h : FP.lt e.relEndTime p with
  | false => rfl
  | true =>
    rw [fp_le_of_lt _ _ h] at h2
    cases h2


section Early

variable (qt : QtConvert)

/-- A pass that ends with `break` changed nothing, and its entry had not started. -/
theorem loopBody_brk (p : FP) (i : Nat) (e : Entry) (s s1 : Scan)
    (h : loopBody qt p i e s = .ok (.brk s1)) :
    s1 = s ∧ FP.le e.relStartTime p = false := by
  unfold loopBody at h
  cases hst : s.states[i]? with
  | none => simp [hst] at h
  | some st =>
    cases hp : st.processed with
    | true => simp [hst, hp] at h
    | false =>
      cases hsnap : e.state with
      | some snapshot =>
        cases hend : FP.le e.relEndTime p <;> simp [hst, hp, hsnap, hend] at h
      | none =>
        cases hval : s.data[e.dataId]? with
        | none => simp [hst, hp, hsnap, hval] at h
        | some value =>
          cases hlt : FP.lt e.relEndTime p with
          | true => simp [hst, hp, hsnap, hval, hlt] at h
          | false =>
            cases hle : FP.le e.relStartTime p with
            | true =>
              simp only [hst, hp, hsnap, hval, hlt, hle] at h
              simp only [Bool.false_eq_true, if_false, if_true] at h
              split at h
              · cases h
              · split at h <;> simp at h
            | false =>
              simp [hst, hp, hsnap, hval, hlt, hle] at h
              exact ⟨h.symm, rfl⟩

/-- The pass for an entry that has neither started nor ended changes nothing, and it can only
fail on an assertion. -/
theorem loopBody_not_started (p : FP) (i : Nat) (e : Entry) (s : Scan)
    (h1 : FP.le e.relStartTime p = false) (h2 : FP.le e.relEndTime p = false)
    (h3 : FP.lt e.relEndTime p = false) :
    (∀ c, loopBody qt p i e s = .ok c → c.scan = s) ∧
    (∀ f, loopBody qt p i e s = .error f → f = .assertion) ∧
    (i < s.states.length → (e.state = none → e.dataId < s.data.length) →
      ∃ c, loopBody qt p i e s = .ok c) := by
  cases hst : s.states[i]? with
  | none =>
    refine ⟨by simp [loopBody, hst], by simp [loopBody, hst], ?_⟩
    intro hi
    rw [List.getElem?_eq_none_iff] at hst
    omega
  | some st =>
    cases hp : st.processed with
    | true => simp [loopBody, hst, hp, Ctl.scan]
    | false =>
      cases hsnap : e.state with
      | some snapshot => simp [loopBody, hst, hp, hsnap, h2, Ctl.scan]
      | none =>
        cases hval : s.data[e.dataId]? with
        | none =>
          refine ⟨by simp [loopBody, hst, hp, hsnap, hval],
            by simp [loopBody, hst, hp, hsnap, hval], ?_⟩
          intro _ hb
          rw [List.getElem?_eq_none_iff] at hval
          have := hb rfl
          omega
        | some value => simp [loopBody, hst, hp, hsnap, hval, h1, h3, Ctl.scan]

/-- The passes for entries that have neither started nor ended, all evaluated. -/
theorem loopAll_not_started (p : FP) (es : List Entry) (i : Nat) (s : Scan)
    (h : ∀ e ∈ es, FP.le e.relStartTime p = false ∧ FP.le e.relEndTime p = false ∧
      FP.lt e.relEndTime p = false) :
    (loopAll qt p es i s = .ok s ∨ loopAll qt p es i s = .error .assertion) ∧
    (i + es.length ≤ s.states.length → (∀ e ∈ es, e.state = none → e.dataId < s.data.length) →
      loopAll qt p es i s = .ok s) := by
  induction es generalizing i with
  | nil => simp [loopAll]
  | cons e rest ih =>
    obtain ⟨h1, h2, h3⟩ := h e (List.mem_cons_self _ _)
    obtain ⟨hok, herr, hex⟩ := loopBody_not_started qt p i e s h1 h2 h3
    have hrest := ih (i + 1) (fun x hx => h x (List.mem_cons_of_mem _ hx))
    simp only [loopAll]
    cases hb : loopBody qt p i e s with
    | error f =>
      rw [herr f hb]
      refine ⟨Or.inr rfl, ?_⟩
      intro hlen hdata
      obtain ⟨c, hc⟩ := hex (by simp only [List.length_cons] at hlen; omega)
        (hdata e (List.mem_cons_self _ _))
      rw [hb] at hc
      cases hc
    | ok c =>
      simp only [hok c hb]
      refine ⟨hrest.1, ?_⟩
      intro hlen hdata
      exact hrest.2 (by simp only [List.length_cons] at hlen; omega)
        (fun x hx => hdata x (List.mem_cons_of_mem _ hx))

end Early


/-! ## Exact values -/

theorem rnd64_one : rnd64 1 = .fin 1 := by decide!

/-- The rounding of a positive rational, from its exponent. -/
theorem roundTo_eval (p : Nat) (emax : Int) (q : ℚ) (e : Int) (r : ℚ) (hq : 0 < q)
    (h1 : pow2 e ≤ q) (h2 : q < pow2 (e + 1))
    (hr : (rne (q / pow2 (max e (1 - emax) - ((p : Int) - 1))) : ℚ) *
      pow2 (max e (1 - emax) - ((p : Int) - 1)) = r)
    (hb : r < pow2 (emax + 1)) : roundTo p emax q = .fin r := by
  have he : expo q = e := by
    have ha := le_expo q hq e h1
    have hc := expo_lt q hq (e + 1) h2
    unfold expo
    omega
  have hqu : quantum p emax q = max e (1 - emax) - ((p : Int) - 1) := by
    unfold quantum
    rw [he]
  rw [roundTo_pos p emax q hq, hqu, hr]
  have : ¬ (emax ≤ expo q ∧ pow2 (emax + 1) ≤ r) := fun hc => absurd hb (not_lt.mpr hc.2)
  simp only [this, if_false]

/-- An integer of magnitude below `2^53` is a `double`. -/
theorem ofInt_exact (n : Int) (h : n.natAbs < 2 ^ 53) : FP.ofInt n = .fin (n : ℚ) := by
  apply roundTo_representable
  refine ⟨n.natAbs, 0, ?_, h, by norm_num, ?_⟩
  · have : pow2 0 = 1 := by decide!
    rw [this, mul_one, Nat.cast_natAbs, Int.cast_abs]
  · have h3 : ((n.natAbs : Nat) : ℚ) < ((2 ^ 53 : Nat) : ℚ) := by exact_mod_cast h
    have h4 : |(n : ℚ)| = ((n.natAbs : Nat) : ℚ) := by
      rw [Nat.cast_natAbs, Int.cast_abs]
    rw [h4]
    refine lt_trans h3 ?_
    have h5 : ((2 ^ 53 : Nat) : ℚ) = pow2 ((53 : Nat) : Int) := (pow2_natCast 53).symm
    rw [h5]
    exact pow2_lt_pow2 (by norm_num)

/-- Truncation of an integer value. -/
theorem trunc_intCast (n : Int) : (FP.fin (n : ℚ)).trunc = some n := by
  simp only [FP.trunc, Rat.num_intCast, Rat.den_intCast, Nat.div_one, Int.cast_nonneg]
  split
  · rename_i h
    rw [Int.toNat_of_nonneg h]
  · rename_i h
    have : 0 ≤ -n := by omega
    rw [Int.toNat_of_nonneg this]
    simp


/-! ## Interpolation at the endpoints -/

theorem sub_one_zero : FP.sub rnd64 FP.one (.fin 0) = .fin 1 := by decide!

theorem sub_one_one : FP.sub rnd64 FP.one (.fin 1) = .fin 0 := by decide!

/-- The `double` expression `a * (1.0 - 0.0) + b * 0.0` for finite `a` and `b`. -/
theorem lerp_zero (a b : ℚ) (ha : rnd64 a = .fin a) :
    FP.add rnd64 (FP.mul rnd64 (.fin a) (FP.sub rnd64 FP.one (.fin 0)))
      (FP.mul rnd64 (.fin b) (.fin 0)) = .fin a := by
  have h0 : rnd64 0 = .fin 0 := roundTo_zero 53 1023
  simp only [sub_one_zero, FP.mul, mul_one, mul_zero, ha, h0, FP.add, add_zero]

/-- The `double` expression `a * (1.0 - 1.0) + b * 1.0` for finite `a` and `b`. -/
theorem lerp_one (a b : ℚ) (hb : rnd64 b = .fin b) :
    FP.add rnd64 (FP.mul rnd64 (.fin a) (FP.sub rnd64 FP.one (.fin 1)))
      (FP.mul rnd64 (.fin b) (.fin 1)) = .fin b := by
  have h0 : rnd64 0 = .fin 0 := roundTo_zero 53 1023
  simp only [sub_one_one, FP.mul, mul_one, mul_zero, hb, h0, FP.add, zero_add]

/-- The endpoints of `interpolateGeneric` for an integer type, in terms of the conversions of
the two values to `double`. -/
theorem integer_endpoints (value : QVariant → Int) (lo hi : Int) (wrap : Int → QVariant)
    (from_ to_ : QVariant) (a b : ℚ)
    (ha : FP.ofInt (value from_) = .fin a) (hb : FP.ofInt (value to_) = .fin b)
    (haa : rnd64 a = .fin a) (hbb : rnd64 b = .fin b) :
    interpolateGeneric (integerType value lo hi wrap) from_ to_ (.fin 0) =
        ((FP.fin a).toIntegral lo hi).map wrap ∧
      interpolateGeneric (integerType value lo hi wrap) from_ to_ (.fin 1) =
        ((FP.fin b).toIntegral lo hi).map wrap := by
  constructor
  · simp only [interpolateGeneric, integerType, bind, Except.bind, ha, hb, lerp_zero a b haa]
  · simp only [interpolateGeneric, integerType, bind, Except.bind, ha, hb, lerp_one a b hbb]

/-- Conversion of an integer value that lies in the range of the target type. -/
theorem toIntegral_intCast (lo hi n : Int) (h1 : lo ≤ n) (h2 : n ≤ hi) :
    (FP.fin (n : ℚ)).toIntegral lo hi = .ok n := by
  simp only [FP.toIntegral, trunc_intCast, h1, h2, and_self, if_true]

/-- The endpoints of `interpolateGeneric` for an integer type, for two values that are in
the range of the type and are `double` values. -/
theorem integer_endpoints_exact (value : QVariant → Int) (lo hi : Int)
    (wrap : Int → QVariant) (from_ to_ : QVariant)
    (ha : FP.ofInt (value from_) = .fin (value from_))
    (hb : FP.ofInt (value to_) = .fin (value to_))
    (ra : lo ≤ value from_ ∧ value from_ ≤ hi) (rb : lo ≤ value to_ ∧ value to_ ≤ hi) :
    interpolateGeneric (integerType value lo hi wrap) from_ to_ (.fin 0) =
        .ok (wrap (value from_)) ∧
      interpolateGeneric (integerType value lo hi wrap) from_ to_ (.fin 1) =
        .ok (wrap (value to_)) := by
  have h := integer_endpoints value lo hi wrap from_ to_ _ _ ha hb ha hb
  rw [toIntegral_intCast lo hi _ ra.1 ra.2, toIntegral_intCast lo hi _ rb.1 rb.2] at h
  exact h

theorem float_endpoints (qt : QtConvert) (a b : ℚ) (ha : rnd32 a = .fin a)
    (hb : rnd32 b = .fin b) :
    interpolate qt (.float (.fin a)) (.float (.fin b)) (.fin 0) = .ok (.float (.fin a)) ∧
      interpolate qt (.float (.fin a)) (.float (.fin b)) (.fin 1) = .ok (.float (.fin b)) := by
  constructor
  · simp only [interpolate, interpolateGeneric, floatType, bind, Except.bind,
      lerp_zero a b (rnd64_of_rnd32 a ha), FP.toFloat, ha]
  · simp only [interpolate, interpolateGeneric, floatType, bind, Except.bind,
      lerp_one a b (rnd64_of_rnd32 b hb), FP.toFloat, hb]

theorem double_endpoints (qt : QtConvert) (a b : ℚ) (ha : rnd64 a = .fin a)
    (hb : rnd64 b = .fin b) :
    interpolate qt (.double (.fin a)) (.double (.fin b)) (.fin 0) = .ok (.double (.fin a)) ∧
      interpolate qt (.double (.fin a)) (.double (.fin b)) (.fin 1) =
        .ok (.double (.fin b)) := by
  constructor
  · simp only [interpolate, interpolateGeneric, doubleType, bind, Except.bind,
      lerp_zero a b ha]
  · simp only [interpolate, interpolateGeneric, doubleType, bind, Except.bind,
      lerp_one a b hb]

theorem pointF_endpoints (qt : QtConvert) (a1 a2 b1 b2 : ℚ) (ha1 : rnd64 a1 = .fin a1)
    (ha2 : rnd64 a2 = .fin a2) (hb1 : rnd64 b1 = .fin b1) (hb2 : rnd64 b2 = .fin b2) :
    interpolate qt (.pointF (.fin a1) (.fin a2)) (.pointF (.fin b1) (.fin b2)) (.fin 0) =
        .ok (.pointF (.fin a1) (.fin a2)) ∧
      interpolate qt (.pointF (.fin a1) (.fin a2)) (.pointF (.fin b1) (.fin b2)) (.fin 1) =
        .ok (.pointF (.fin b1) (.fin b2)) := by
  constructor
  · simp only [interpolate, interpolateGeneric, pointFType, bind, Except.bind,
      lerp_zero a1 b1 ha1, lerp_zero a2 b2 ha2]
  · simp only [interpolate, interpolateGeneric, pointFType, bind, Except.bind,
      lerp_one a1 b1 hb1, lerp_one a2 b2 hb2]

/-- A half-integer of magnitude below `2^52` is a `double`. -/
theorem rnd64_half_integer (n : Nat) (h : n < 2 ^ 52) :
    rnd64 ((n : ℚ) + 1 / 2) = .fin ((n : ℚ) + 1 / 2) := by
  apply roundTo_representable
  have hpos : (0 : ℚ) < (n : ℚ) + 1 / 2 := by positivity
  have hp : pow2 (-1) = 1 / 2 := by decide!
  refine ⟨2 * n + 1, -1, ?_, by omega, by norm_num, ?_⟩
  · rw [abs_of_pos hpos, hp]
    push_cast
    ring
  · rw [abs_of_pos hpos]
    have h3 : (n : ℚ) + 1 / 2 < pow2 53 := by
      have h4 : (n : ℚ) < 4503599627370496 := by exact_mod_cast h
      have h5 : pow2 53 = 9007199254740992 := by decide!
      rw [h5]
      linarith
    exact lt_trans h3 (pow2_lt_pow2 (by norm_num))

/-- Truncation of a non-negative half-integer. -/
theorem trunc_half_integer (n : Nat) : (FP.fin ((n : ℚ) + 1 / 2)).trunc = some (n : Int) := by
  have hpos : (0 : ℚ) ≤ (n : ℚ) + 1 / 2 := by positivity
  obtain ⟨h1, h2⟩ := floor_bounds ((n : ℚ) + 1 / 2) hpos
  simp only [FP.trunc, hpos, if_true, Option.some.injEq, Nat.cast_inj]
  have h3 : (((n : ℚ) + 1 / 2).num.toNat / ((n : ℚ) + 1 / 2).den : Nat) < n + 1 := by
    have : ((((n : ℚ) + 1 / 2).num.toNat / ((n : ℚ) + 1 / 2).den : Nat) : ℚ) <
        ((n + 1 : Nat) : ℚ) := by
      push_cast
      linarith
    exact_mod_cast this
  have h4 : n < (((n : ℚ) + 1 / 2).num.toNat / ((n : ℚ) + 1 / 2).den : Nat) + 1 := by
    have : ((n : Nat) : ℚ) <
        (((((n : ℚ) + 1 / 2).num.toNat / ((n : ℚ) + 1 / 2).den : Nat) + 1 : Nat) : ℚ) := by
      push_cast
      linarith
    exact_mod_cast this
  omega

/-- The function `qRound` returns an integer argument that lies in the range of `int`, the
least `int` apart. -/
theorem qRound_intCast (n : Int) (h1 : -(2 ^ 31) < n) (h2 : n ≤ 2 ^ 31 - 1) :
    qRound (.fin (n : ℚ)) = .ok n := by
  rcases le_or_lt 0 n with hn | hn
  · obtain ⟨m, rfl⟩ := Int.eq_ofNat_of_zero_le hn
    have hle : FP.le (.fin 0) (.fin (m : ℚ)) = true := by
      simp only [FP.le, decide_eq_true_eq]
      exact Nat.cast_nonneg m
    have hm : m < 2 ^ 52 := by omega
    have hr : -(2 ^ 31) ≤ (m : Int) ∧ (m : Int) ≤ 2 ^ 31 - 1 := ⟨by omega, h2⟩
    simp only [Int.cast_natCast, qRound, hle, if_true, FP.add, FP.half,
      rnd64_half_integer m hm, FP.toInt32, FP.toIntegral, trunc_half_integer, hr, and_self]
  · have hle : FP.le (.fin 0) (.fin (n : ℚ)) = false := by
      simp only [FP.le, decide_eq_false_iff_not, not_le]
      exact_mod_cast hn
    have e1 : (n : ℚ) + -1 = ((n - 1 : Int) : ℚ) := by push_cast; ring
    have hk : rnd64 (((n - 1 : Int) : ℚ)) = .fin ((n - 1 : Int) : ℚ) :=
      ofInt_exact (n - 1) (by omega)
    have e2 : (n : ℚ) + -((n - 1 : Int) : ℚ) = 1 := by push_cast; ring
    have h3 : rnd64 (1 + 1 / 2) = .fin (3 / 2) := by decide!
    have h4 : (FP.fin (3 / 2)).toIntegral (-(2 ^ 31)) (2 ^ 31 - 1) = .ok 1 := by decide!
    have hc := toIntegral_intCast (-(2 ^ 31)) (2 ^ 31 - 1) (n - 1) (by omega) (by omega)
    have e3 : 1 + (n - 1) = n := by omega
    simp only [qRound, hle, Bool.false_eq_true, if_false, FP.sub, FP.neg, FP.add, FP.one,
      FP.half, e1, hk, FP.toInt32, hc, bind, Except.bind, FP.ofInt, e2, rnd64_one, h3, h4,
      addInt32, e3]
    rw [if_pos ⟨le_of_lt h1, h2⟩]

/-- The product `QPoint * 1.0` and `QPoint * 0.0` for one coordinate in the range of `int`,
the least `int` apart. -/
theorem qRound_mul (n : Int) (h1 : -(2 ^ 31) < n) (h2 : n ≤ 2 ^ 31 - 1) :
    qRound (FP.mul rnd64 (FP.ofInt n) (.fin 1)) = .ok n ∧
      qRound (FP.mul rnd64 (FP.ofInt n) (.fin 0)) = .ok 0 := by
  have hn : FP.ofInt n = .fin (n : ℚ) := ofInt_exact n (by omega)
  have hn2 : rnd64 (n : ℚ) = .fin (n : ℚ) := hn
  have h0 : rnd64 0 = .fin 0 := roundTo_zero 53 1023
  have hq0 : qRound (.fin 0) = .ok 0 := by decide!
  constructor
  · simp only [hn, FP.mul, mul_one, hn2]
    exact qRound_intCast n h1 h2
  · simp only [hn, FP.mul, mul_zero, h0, hq0]

theorem point_endpoints (qt : QtConvert) (a1 a2 b1 b2 : Int)
    (ha1 : -(2 ^ 31) < a1 ∧ a1 ≤ 2 ^ 31 - 1) (ha2 : -(2 ^ 31) < a2 ∧ a2 ≤ 2 ^ 31 - 1)
    (hb1 : -(2 ^ 31) < b1 ∧ b1 ≤ 2 ^ 31 - 1) (hb2 : -(2 ^ 31) < b2 ∧ b2 ≤ 2 ^ 31 - 1) :
    interpolate qt (.point a1 a2) (.point b1 b2) (.fin 0) = .ok (.point a1 a2) ∧
      interpolate qt (.point a1 a2) (.point b1 b2) (.fin 1) = .ok (.point b1 b2) := by
  have ra1 : -(2 ^ 31) ≤ a1 + 0 ∧ a1 + 0 ≤ 2 ^ 31 - 1 := ⟨by omega, by omega⟩
  have ra2 : -(2 ^ 31) ≤ a2 + 0 ∧ a2 + 0 ≤ 2 ^ 31 - 1 := ⟨by omega, by omega⟩
  have rb1 : -(2 ^ 31) ≤ 0 + b1 ∧ 0 + b1 ≤ 2 ^ 31 - 1 := ⟨by omega, by omega⟩
  have rb2 : -(2 ^ 31) ≤ 0 + b2 ∧ 0 + b2 ≤ 2 ^ 31 - 1 := ⟨by omega, by omega⟩
  constructor
  · simp only [interpolate, interpolateGeneric, pointType, bind, Except.bind, pure,
      Except.pure, sub_one_zero, (qRound_mul a1 ha1.1 ha1.2).1, (qRound_mul a2 ha2.1 ha2.2).1,
      (qRound_mul b1 hb1.1 hb1.2).2, (qRound_mul b2 hb2.1 hb2.2).2, addInt32]
    rw [if_pos ra1, if_pos ra2]
    simp only [add_zero]
  · simp only [interpolate, interpolateGeneric, pointType, bind, Except.bind, pure,
      Except.pure, sub_one_one, (qRound_mul a1 ha1.1 ha1.2).2, (qRound_mul a2 ha2.1 ha2.2).2,
      (qRound_mul b1 hb1.1 hb1.2).1, (qRound_mul b2 hb2.1 hb2.2).1, addInt32]
    rw [if_pos rb1, if_pos rb2]
    simp only [zero_add]

theorem int_endpoints (qt : QtConvert) (a b : Int)
    (ha : -(2 ^ 31) ≤ a ∧ a ≤ 2 ^ 31 - 1) (hb : -(2 ^ 31) ≤ b ∧ b ≤ 2 ^ 31 - 1) :
    interpolate qt (.int a) (.int b) (.fin 0) = .ok (.int a) ∧
      interpolate qt (.int a) (.int b) (.fin 1) = .ok (.int b) :=
  integer_endpoints_exact _ (-(2 ^ 31)) (2 ^ 31 - 1) .int (.int a) (.int b)
    (ofInt_exact a (by omega)) (ofInt_exact b (by omega)) ha hb

theorem uint_endpoints (qt : QtConvert) (a b : Nat) (ha : a ≤ 2 ^ 32 - 1)
    (hb : b ≤ 2 ^ 32 - 1) :
    interpolate qt (.uint a) (.uint b) (.fin 0) = .ok (.uint a) ∧
      interpolate qt (.uint a) (.uint b) (.fin 1) = .ok (.uint b) := by
  have h := integer_endpoints_exact
    (fun v => match v with | .uint a => (a : Int) | w => (qt.toUInt w : Int))
    0 (2 ^ 32 - 1) (fun n => .uint n.toNat) (.uint a) (.uint b)
    (ofInt_exact a (by omega)) (ofInt_exact b (by omega))
    (show (0 : Int) ≤ (a : Int) ∧ (a : Int) ≤ 2 ^ 32 - 1 from ⟨by omega, by omega⟩)
    (show (0 : Int) ≤ (b : Int) ∧ (b : Int) ≤ 2 ^ 32 - 1 from ⟨by omega, by omega⟩)
  simpa [interpolate, uintType] using h

theorem longLong_endpoints (qt : QtConvert) (a b : Int)
    (ha : -(2 ^ 63) ≤ a ∧ a ≤ 2 ^ 63 - 1) (hb : -(2 ^ 63) ≤ b ∧ b ≤ 2 ^ 63 - 1)
    (hea : FP.ofInt a = .fin (a : ℚ)) (heb : FP.ofInt b = .fin (b : ℚ)) :
    interpolate qt (.longLong a) (.longLong b) (.fin 0) = .ok (.longLong a) ∧
      interpolate qt (.longLong a) (.longLong b) (.fin 1) = .ok (.longLong b) :=
  integer_endpoints_exact _ (-(2 ^ 63)) (2 ^ 63 - 1) .longLong (.longLong a) (.longLong b)
    hea heb ha hb

theorem uLongLong_endpoints (qt : QtConvert) (a b : Nat) (ha : a ≤ 2 ^ 64 - 1)
    (hb : b ≤ 2 ^ 64 - 1)
    (hea : FP.ofInt a = .fin ((a : Int) : ℚ)) (heb : FP.ofInt b = .fin ((b : Int) : ℚ)) :
    interpolate qt (.uLongLong a) (.uLongLong b) (.fin 0) = .ok (.uLongLong a) ∧
      interpolate qt (.uLongLong a) (.uLongLong b) (.fin 1) = .ok (.uLongLong b) := by
  have h := integer_endpoints_exact
    (fun v => match v with | .uLongLong a => (a : Int) | w => (qt.toULongLong w : Int))
    0 (2 ^ 64 - 1) (fun n => .uLongLong n.toNat) (.uLongLong a) (.uLongLong b)
    hea heb
    (show (0 : Int) ≤ (a : Int) ∧ (a : Int) ≤ 2 ^ 64 - 1 from ⟨by omega, by omega⟩)
    (show (0 : Int) ≤ (b : Int) ∧ (b : Int) ≤ 2 ^ 64 - 1 from ⟨by omega, by omega⟩)
  simpa [interpolate, uLongLongType] using h


section Termination

variable (qt : QtConvert)

/-- A tick leaves a processed entry processed, with the same running state, and the entry makes
no write. -/
theorem tick_processed (b : TimelineAnimation) (table : List Entry) (i : Nat) (t : Int)
    (r : Tick) (st : TransitionState) (ht : b._transitions = some table)
    (hst : b._transitionStates[i]? = some st) (hp : st.processed = true)
    (h : updateCurrentTime qt b t = .ok r) :
    r.anim._transitionStates[i]? = some st ∧ (∀ w ∈ r.log, w.entry ≠ i) ∧
      r.anim._transitions = some table := by
  obtain ⟨c, _, he, _, hs, _, htr, _, _⟩ := tick_facts qt b table t r ht h
  obtain ⟨h1, h2⟩ := he.processed i st hst hp
  exact ⟨by rw [hs]; exact h1, h2, by rw [htr, ht]⟩

/-- A tick over a table with a single entry that is processed changes nothing and is silent. -/
theorem tick_single_processed (b : TimelineAnimation) (e : Entry) (t : Int)
    (r : Tick) (st : TransitionState) (ht : b._transitions = some [e])
    (hst : b._transitionStates[0]? = some st) (hp : st.processed = true)
    (h : updateCurrentTime qt b t = .ok r) :
    r.anim._data = b._data ∧ r.valueChanged = 0 ∧ r.log = [] := by
  obtain ⟨c, _, he, hd, _, hv, _, _, _⟩ := tick_facts qt b [e] t r ht h
  obtain ⟨_, h2⟩ := he.processed 0 st hst hp
  have hlog : r.log = [] := by
    cases hl : r.log with
    | nil => rfl
    | cons w ws =>
      have hw : w ∈ r.log := by rw [hl]; exact List.mem_cons_self _ _
      have := he.entry w hw
      have := h2 w hw
      simp at *
      omega
  refine ⟨?_, ?_, hlog⟩
  · rw [hd, ← he.data, hlog]
    rfl
  · rw [hv, hlog]
    rfl

/-- Every tick of a run leaves a processed entry processed, and the entry makes no write. -/
theorem run_processed (table : List Entry) (i : Nat) (st : TransitionState)
    (hp : st.processed = true) (ts : List Int) :
    ∀ (b : TimelineAnimation) (rs : List Tick), b._transitions = some table →
      b._transitionStates[i]? = some st → runTicks qt b ts = .ok rs →
      ∀ r ∈ rs, r.anim._transitionStates[i]? = some st ∧ ∀ w ∈ r.log, w.entry ≠ i := by
  induction ts with
  | nil =>
    intro b rs _ _ hrun
    simp [runTicks] at hrun
    subst hrun
    simp
  | cons t ts ih =>
    intro b rs ht hst hrun
    simp only [runTicks] at hrun
    cases h1 : updateCurrentTime qt b t with
    | error f => simp [h1] at hrun
    | ok r1 =>
      simp only [h1] at hrun
      cases h2 : runTicks qt r1.anim ts with
      | error f => simp [h2] at hrun
      | ok rs1 =>
        simp only [h2] at hrun
        cases hrun
        obtain ⟨hs1, hl1, ht1⟩ := tick_processed qt b table i t r1 st ht hst hp h1
        intro r hr
        rcases List.mem_cons.mp hr with hr | hr
        · subst hr
          exact ⟨hs1, hl1⟩
        · exact ih r1.anim rs1 ht1 hs1 h2 r hr

/-- Every tick of a run over a table with a single entry that is processed leaves the vector
as it is and is silent. -/
theorem run_single_processed (e : Entry) (st : TransitionState)
    (hp : st.processed = true) (ts : List Int) :
    ∀ (b : TimelineAnimation) (rs : List Tick), b._transitions = some [e] →
      b._transitionStates[0]? = some st → runTicks qt b ts = .ok rs →
      ∀ r ∈ rs, r.anim._data = b._data ∧ r.valueChanged = 0 := by
  induction ts with
  | nil =>
    intro b rs _ _ hrun
    simp [runTicks] at hrun
    subst hrun
    simp
  | cons t ts ih =>
    intro b rs ht hst hrun
    simp only [runTicks] at hrun
    cases h1 : updateCurrentTime qt b t with
    | error f => simp [h1] at hrun
    | ok r1 =>
      simp only [h1] at hrun
      cases h2 : runTicks qt r1.anim ts with
      | error f => simp [h2] at hrun
      | ok rs1 =>
        simp only [h2] at hrun
        cases hrun
        obtain ⟨hs1, _, ht1⟩ := tick_processed qt b [e] 0 t r1 st ht hst hp h1
        obtain ⟨hd1, hv1, _⟩ := tick_single_processed qt b e t r1 st ht hst hp h1
        intro r hr
        rcases List.mem_cons.mp hr with hr | hr
        · subst hr
          exact ⟨hd1, hv1⟩
        · have := ih r1.anim rs1 ht1 hs1 h2 r hr
          rw [hd1] at this
          exact this

/-- The tick in which an unprocessed scalar entry is reached after its end. -/
theorem tick_ended (a : TimelineAnimation) (pre post : List Entry) (e : Entry) (t : Int)
    (r : Tick) (s1 : Scan) (st : TransitionState)
    (htable : a._transitions = some (pre ++ e :: post)) (hscalar : e.state = none)
    (hreach : loop qt (progressOf a._durationMs t) pre 0 a.scan0 = .ok (.next s1))
    (hst : s1.states[pre.length]? = some st) (hunp : st.processed = false)
    (hpast : FP.lt e.relEndTime (progressOf a._durationMs t) = true)
    (htick : updateCurrentTime qt a t = .ok r) :
    r.anim._transitionStates[pre.length]? = some { st with processed := true } ∧
    ((∀ w ∈ r.log, pre.length < w.entry → w.touches e.dataId = false) →
      ∃ value, s1.data[e.dataId]? = some value ∧
        r.anim._data[e.dataId]? = some (if qt.ne value e.to_ then e.to_ else value)) := by
  obtain ⟨c, hl, hr⟩ := updateCurrentTime_ok qt a _ t r htable htick
  rw [loop_append, hreach] at hl
  simp only [Nat.zero_add, loop] at hl
  obtain ⟨l1, he1⟩ := loop_effect qt _ pre 0 a.scan0 (.next s1) hreach
  cases hval : s1.data[e.dataId]? with
  | none => simp [loopBody, hst, hunp, hscalar, hval] at hl
  | some value =>
    rw [loopBody_ended qt _ _ e s1 st value hst hunp hscalar hval hpast] at hl
    simp only at hl
    obtain ⟨l2, he2⟩ := loop_effect qt _ post _ _ c hl
    subst hr
    refine ⟨?_, ?_⟩
    · show c.scan.states[pre.length]? = _
      rw [he2.outside pre.length (Or.inl (Nat.lt_succ_self _))]
      show (s1.states.set pre.length _)[pre.length]? = _
      rw [List.getElem?_set_self', hst]
      rfl
    · intro hno
      refine ⟨value, rfl, ?_⟩
      show c.scan.data[e.dataId]? = _
      have hlog : c.scan.log = _ := he2.log
      have hl2 : ∀ w ∈ l2, w.touches e.dataId = false := by
        intro w hw
        apply hno w
        · show w ∈ c.scan.log
          rw [hlog]
          exact List.mem_append_right _ hw
        · have := he2.entry w hw
          omega
      rw [← he2.data, replay_untouched e.dataId _ l2 hl2]
      cases hv : qt.ne value e.to_ with
      | false =>
        simp only [Bool.false_eq_true, if_false]
        exact hval
      | true =>
        simp only [if_true]
        rw [List.getElem?_set_self', hval]
        rfl

end Termination


theorem exampleEndTick_eq :
    updateCurrentTime QtConvert.zero (exampleAnimation [.int 4]) 150 = .ok exampleEndTick :=
  tick_single_ended QtConvert.zero (exampleAnimation [.int 4]) exampleEntry {} (.int 4) 150
    rfl rfl rfl rfl rfl example_ended_150

/-- What the tick at elapsed time 150 leaves of the worked example when variable 0 held the
`double` 10.0. -/
theorem exampleDoubleTick_eq :
    (updateCurrentTime QtConvert.zero (exampleAnimation [.double (.fin 10)]) 150).map
        Tick.summary =
      .ok ([.double (.fin 10)], [{ previousValue := .invalid, processed := true }], 0, []) := by
  decide!

/-- C2, as stated, fails when the variable holds a value that `QVariant::operator!=` finds
equal to `to` without being `to`: in the worked example on the vector `[10.0]` (a `double`)
the tick at elapsed time 150 is past the end of the entry, whose `to` is the `int` 10; the
comparison of Qt 5.15 finds the `double` 10.0 equal to the `int` 10, so the entry is marked
processed without a write, and variable 0 still holds the `double` 10.0, not `to`. -/
theorem C2_counterexample :
    FP.lt exampleEntry.relEndTime (progressOf 250 150) = true ∧
    exampleEntry.to_ = .int 10 ∧
    QtConvert.zero.ne (.double (.fin 10)) (.int 10) = false ∧
    (updateCurrentTime QtConvert.zero (exampleAnimation [.double (.fin 10)]) 150).map
        Tick.summary =
      .ok ([.double (.fin 10)], [{ previousValue := .invalid, processed := true }], 0, []) ∧
    QVariant.double (.fin 10) ≠ exampleEntry.to_ :=
  ⟨example_ended_150, rfl, by decide!, exampleDoubleTick_eq, by decide⟩

/-- C2, amended. Idempotent termination. In a tick whose progress is strictly greater than
the end (`relStartTime + relDuration`) of a scalar entry that the scan reaches unprocessed,
the entry becomes processed and, provided no later entry writes the same variable in that
tick, the target variable holds `to` if `operator!=` found the value it held different from
`to`, and else still holds that value; so it holds exactly `to` unless the comparison found
a value other than `to` equal to `to`. In every later tick of the run the entry is still
processed and makes no write; for a table with this single entry every later tick leaves the
vector unchanged and raises no notification. The same holds for a tick from any object in
which the entry is processed (whatever happened to the vector or the duration in between). -/
theorem C2_idempotent_termination (qt : QtConvert) (a : TimelineAnimation)
    (pre post : List Entry) (e : Entry) (t : Int) (r : Tick) (s1 : Scan) (st : TransitionState)
    (htable : a._transitions = some (pre ++ e :: post)) (hscalar : e.state = none)
    (hreach : loop qt (progressOf a._durationMs t) pre 0 a.scan0 = .ok (.next s1))
    (hst : s1.states[pre.length]? = some st) (hunp : st.processed = false)
    (hpast : FP.lt e.relEndTime (progressOf a._durationMs t) = true)
    (htick : updateCurrentTime qt a t = .ok r) :
    (∃ st1, r.anim._transitionStates[pre.length]? = some st1 ∧ st1.processed = true) ∧
    ((∀ w ∈ r.log, pre.length < w.entry → w.touches e.dataId = false) →
      ∃ value, s1.data[e.dataId]? = some value ∧
        r.anim._data[e.dataId]? = some (if qt.ne value e.to_ then e.to_ else value)) ∧
    ((∀ value, s1.data[e.dataId]? = some value → qt.ne value e.to_ = false →
        value = e.to_) →
      (∀ w ∈ r.log, pre.length < w.entry → w.touches e.dataId = false) →
      r.anim._data[e.dataId]? = some e.to_) ∧
    (∀ (ts : List Int) (rs : List Tick), runTicks qt r.anim ts = .ok rs → ∀ r2 ∈ rs,
      (∃ st2, r2.anim._transitionStates[pre.length]? = some st2 ∧ st2.processed = true) ∧
      (∀ w ∈ r2.log, w.entry ≠ pre.length) ∧
      (pre = [] → post = [] → r2.anim._data = r.anim._data ∧ r2.valueChanged = 0)) ∧
    (∀ (b : TimelineAnimation) (t2 : Int) (r2 : Tick) (stb : TransitionState),
      b._transitions = some (pre ++ e :: post) →
      b._transitionStates[pre.length]? = some stb → stb.processed = true →
      updateCurrentTime qt b t2 = .ok r2 →
      r2.anim._transitionStates[pre.length]? = some stb ∧
      (∀ w ∈ r2.log, w.entry ≠ pre.length) ∧
      (pre = [] → post = [] → r2.anim._data = b._data ∧ r2.valueChanged = 0)) := by
  obtain ⟨hproc, hto⟩ := tick_ended qt a pre post e t r s1 st htable hscalar hreach hst hunp
    hpast htick
  have htr : r.anim._transitions = some (pre ++ e :: post) := by
    obtain ⟨_, _, _, _, _, _, h, _, _⟩ := tick_facts qt a _ t r htable htick
    rw [h, htable]
  refine ⟨⟨_, hproc, rfl⟩, hto, ?_, ?_, ?_⟩
  · intro hexact hno
    obtain ⟨value, hheld, hval⟩ := hto hno
    rw [hval]
    cases hc : qt.ne value e.to_ with
    | false =>
      simp only [Bool.false_eq_true, if_false]
      rw [hexact value hheld hc]
    | true => simp only [if_true]
  · intro ts rs hrun r2 hr2
    obtain ⟨h1, h2⟩ := run_processed qt _ pre.length _ rfl ts r.anim rs htr hproc hrun r2 hr2
    refine ⟨⟨_, h1, rfl⟩, h2, ?_⟩
    intro hpre hpost
    subst hpre
    subst hpost
    exact run_single_processed qt e _ rfl ts r.anim rs htr hproc hrun r2 hr2
  · intro b t2 r2 stb hb hstb hp h2
    obtain ⟨h1, hw, _⟩ := tick_processed qt b _ pre.length t2 r2 stb hb hstb hp h2
    refine ⟨h1, hw, ?_⟩
    intro hpre hpost
    subst hpre
    subst hpost
    obtain ⟨hd, hv, _⟩ := tick_single_processed qt b e t2 r2 stb hb hstb hp h2
    exact ⟨hd, hv⟩

/-- C2 at the worked example: the tick at elapsed time 150 (progress 0.6, past the end 0.4)
on the vector `[4]` marks the entry processed and leaves variable 0 equal to 10. -/
theorem C2_witness :
    FP.lt exampleEntry.relEndTime (progressOf 250 150) = true ∧
    updateCurrentTime QtConvert.zero (exampleAnimation [.int 4]) 150 = .ok exampleEndTick ∧
    (∃ st1, exampleEndTick.anim._transitionStates[0]? = some st1 ∧ st1.processed = true) ∧
    (∃ value, (exampleAnimation [.int 4]).scan0.data[exampleEntry.dataId]? = some value ∧
      exampleEndTick.anim._data[exampleEntry.dataId]? =
        some (if QtConvert.zero.ne value exampleEntry.to_ then exampleEntry.to_ else value)) ∧
    exampleEndTick.anim._data[exampleEntry.dataId]? = some exampleEntry.to_ :=
  have h := C2_idempotent_termination QtConvert.zero (exampleAnimation [.int 4]) [] []
    exampleEntry 150 exampleEndTick (exampleAnimation [.int 4]).scan0 {} rfl rfl rfl rfl rfl
    example_ended_150 exampleEndTick_eq
  ⟨example_ended_150, exampleEndTick_eq, h.1, h.2.1 (by decide),
    h.2.2.1
      (fun value hv hne => by
        have hval : value = .int 4 := by
          have h4 : (exampleAnimation [.int 4]).scan0.data[exampleEntry.dataId]? =
              some (.int 4) := rfl
          rw [h4] at hv
          exact (Option.some.inj hv).symm
        subst hval
        exact absurd hne (by decide))
      (by decide)⟩


/-- C3 fails on the code. The table holds one snapshot entry at start 0.0 with the vector
`[1]`, the variable vector is `[0]`: the tick at elapsed time 0 replaces the vector by `[1]`
and emits `valueChanged` zero times. The snapshot branch assigns `*_data` and never sets
`changed`, which only the two scalar branches do. -/
theorem C3_snapshot_is_silent :
    snapshotAnimation._data = [.int 0] ∧
    (updateCurrentTime QtConvert.zero snapshotAnimation 0).map Tick.summary =
      .ok ([.int 1], [{ previousValue := .invalid, processed := true }], 0,
        [.replace 0 [.int 1]]) := by
  decide!


/-- What every tick that returns satisfies, with or without a table: the log is faithful,
replays to the new vector, and `valueChanged` is emitted once when the log holds an
assignment and not at all otherwise. -/
theorem tick_log (qt : QtConvert) (a : TimelineAnimation) (t : Int) (r : Tick)
    (h : updateCurrentTime qt a t = .ok r) :
    faithful qt.ne a._data r.log ∧ replay a._data r.log = r.anim._data ∧
      r.valueChanged = (if r.log.any Write.isAssign then 1 else 0) := by
  cases ht : a._transitions with
  | none =>
    rw [updateCurrentTime_null qt a t ht] at h
    cases h
    exact ⟨trivial, rfl, rfl⟩
  | some table =>
    obtain ⟨c, _, he, hd, _, hv, _, _, _⟩ := tick_facts qt a table t r ht h
    exact ⟨he.sound, by rw [hd]; exact he.data, hv⟩

/-- A tick that changes the vector without a notification made the assignment of a snapshot
entry. -/
theorem tick_silent_change (qt : QtConvert) (a : TimelineAnimation) (t : Int) (r : Tick)
    (h : updateCurrentTime qt a t = .ok r) (hne : r.anim._data ≠ a._data)
    (hsilent : r.valueChanged = 0) : ∃ i new, Write.replace i new ∈ r.log := by
  obtain ⟨_, hd, hv⟩ := tick_log qt a t r h
  cases hl : r.log with
  | nil =>
    rw [hl] at hd
    exact absurd hd.symm hne
  | cons w ws =>
    cases w with
    | assign entry dataId old new =>
      rw [hsilent, hl] at hv
      simp [Write.isAssign] at hv
    | replace i new => exact ⟨i, new, List.mem_cons_self _ _⟩

/-- A variable that holds the point (NaN, NaN) is overwritten with the same point, and the
tick notifies: the comparison of Qt 5.15 never finds a NaN equal. -/
theorem nan_point_tick :
    (updateCurrentTime QtConvert.zero nanAnimation 1).map Tick.summary =
      .ok ([.pointF .nan .nan], [{ previousValue := .invalid, processed := true }], 1,
        [.assign 0 0 (.pointF .nan .nan) (.pointF .nan .nan)]) := by
  decide!

section Capture

variable (qt : QtConvert)

/-- A tick keeps a captured value that is valid. -/
theorem tick_captured (b : TimelineAnimation) (table : List Entry) (i : Nat) (t : Int)
    (r : Tick) (st : TransitionState) (ht : b._transitions = some table)
    (hst : b._transitionStates[i]? = some st) (hv : st.previousValue.isValid = true)
    (h : updateCurrentTime qt b t = .ok r) :
    (∃ st1, r.anim._transitionStates[i]? = some st1 ∧ st1.previousValue = st.previousValue) ∧
      r.anim._transitions = some table := by
  obtain ⟨c, _, he, _, hs, _, htr, _, _⟩ := tick_facts qt b table t r ht h
  obtain ⟨st1, h1, h2⟩ := he.captured i st hst hv
  exact ⟨⟨st1, by rw [hs]; exact h1, h2⟩, by rw [htr, ht]⟩

/-- Every tick of a run keeps a captured value that is valid. -/
theorem run_captured (table : List Entry) (i : Nat) (X : QVariant) (hX : X.isValid = true)
    (ts : List Int) :
    ∀ (b : TimelineAnimation) (rs : List Tick) (st : TransitionState),
      b._transitions = some table → b._transitionStates[i]? = some st →
      st.previousValue = X → runTicks qt b ts = .ok rs →
      ∀ r ∈ rs, ∃ st2, r.anim._transitionStates[i]? = some st2 ∧ st2.previousValue = X := by
  induction ts with
  | nil =>
    intro b rs st _ _ _ hrun
    simp [runTicks] at hrun
    subst hrun
    simp
  | cons t ts ih =>
    intro b rs st ht hst hpv hrun
    simp only [runTicks] at hrun
    cases h1 : updateCurrentTime qt b t with
    | error f => simp [h1] at hrun
    | ok r1 =>
      simp only [h1] at hrun
      cases h2 : runTicks qt r1.anim ts with
      | error f => simp [h2] at hrun
      | ok rs1 =>
        simp only [h2] at hrun
        cases hrun
        obtain ⟨⟨st1, hs1, hp1⟩, ht1⟩ :=
          tick_captured qt b table i t r1 st ht hst (by rw [hpv]; exact hX) h1
        intro r hr
        rcases List.mem_cons.mp hr with hr | hr
        · subst hr
          exact ⟨st1, hs1, by rw [hp1, hpv]⟩
        · exact ih r1.anim rs1 st1 ht1 hs1 (by rw [hp1, hpv]) h2 r hr

/-- The running branch of a "continue from the current value" entry whose running state holds
the start `X` (captured before, or captured now from the variable): the interpolation starts
from `X`, the variable receives the interpolated value and the running state holds `X`. -/
theorem loopBody_continue (p : FP) (i : Nat) (e : Entry) (s : Scan) (st : TransitionState)
    (value X : QVariant) (c : Ctl)
    (hst : s.states[i]? = some st) (hp : st.processed = false) (hsnap : e.state = none)
    (hfrom : e.from_.isValid = false) (hto : e.to_.isValid = true)
    (hval : s.data[e.dataId]? = some value)
    (hstart : FP.le e.relStartTime p = true) (hend : FP.le p e.relEndTime = true)
    (hX : (st.previousValue.isValid = true ∧ st.previousValue = X) ∨
      (st.previousValue.isValid = false ∧ value = X))
    (h : loopBody qt p i e s = .ok c) :
    ∃ newValue s2,
      interpolate qt X e.to_ (e.easingCurve.valueForProgress (e.transitionProgress p))
        = .ok newValue ∧
      c = .next s2 ∧
      s2.states[i]? = some { previousValue := X, processed := false } ∧
      s2.data[e.dataId]? = some (if qt.ne value newValue then newValue else value) := by
  have hlt := FP.lt_false_of_le _ _ hend
  have hcont : e.isStartingFromPreviousValue = true := by
    simp [Entry.isStartingFromPreviousValue, hfrom, hto]
  rw [loopBody_running qt p i e s st value hst hp hsnap hval hlt hstart] at h
  have hst1 : (if (e.isStartingFromPreviousValue && !st.previousValue.isValid) = true then
      { st with previousValue := value } else st) = { previousValue := X, processed := false } := by
    rcases hX with ⟨h1, h2⟩ | ⟨h1, h2⟩
    · simp only [hcont, h1, Bool.not_true, Bool.and_false, Bool.false_eq_true, if_false]
      cases st with
      | mk pv pr =>
        simp only at h2 hp
        rw [h2, hp]
    · simp only [hcont, h1, Bool.not_false, Bool.and_true, if_true, h2, hp]
  simp only [hst1] at h
  simp only [hcont, if_true] at h
  cases hint : interpolate qt X e.to_
      (e.easingCurve.valueForProgress (e.transitionProgress p)) with
  | error f => simp [hint] at h
  | ok newValue =>
    simp only [hint] at h
    cases h
    refine ⟨newValue, _, rfl, rfl, ?_, ?_⟩
    · simp only
      rw [List.getElem?_set_self', hst]
      rfl
    · cases hv : qt.ne value newValue with
      | false =>
        simp only [Bool.false_eq_true, if_false]
        exact hval
      | true =>
        simp only [if_true]
        rw [List.getElem?_set_self', hval]
        rfl

end Capture


theorem continueTick_eq :
    updateCurrentTime QtConvert.zero (continueAnimation [.int 0]) 125 = .ok continueTick :=
  tick_of_summary QtConvert.zero (continueAnimation [.int 0]) 125 _ _ _ _ (by decide!)

/-- C5 fails for a variable that holds an invalid `QVariant`. With the single "continue from
the current value" entry (start 0.0, duration fraction 1.0, to 10) on the vector `[invalid]`,
the tick at elapsed time 0 stores the invalid value X as the captured start and steps the
variable to 10; the tick at elapsed time 125 of the same run captures again, and the captured
value is 10, not X. -/
theorem C5_counterexample :
    (runTicks QtConvert.zero (continueAnimation [.invalid]) [0, 125]).map
        (List.map Tick.summary) =
      .ok [([.int 10], [{ previousValue := .invalid, processed := false }], 1,
              [.assign 0 0 .invalid (.int 10)]),
           ([.int 10], [{ previousValue := .int 10, processed := false }], 0, [])] := by
  decide!

/-- C5 (as amended). Continue-from-current capture. A scalar entry has no `from` and a valid
`to`, and its running state is unprocessed with no captured value. On a tick with
start <= progress <= end in which the scan reaches the entry while the variable holds `X`: the
pass stores `X` as the captured start and leaves the variable equal to
`interpolate(X, to, easing(local progress))` if `operator!=` finds `X` different from that
value, and equal to `X` else; after the tick the running state of the entry holds `X`. If `X`
is a valid value, then after every later tick of the run the captured value is still `X`;
and whenever the entry is reached again in its running branch with `X` captured, whatever
the variable holds by then, the interpolation starts from `X`, and the variable is set to
the interpolated value if `operator!=` finds its value different from it. -/
theorem C5_capture (qt : QtConvert) (a : TimelineAnimation) (pre post : List Entry)
    (e : Entry) (t : Int) (r : Tick) (s1 : Scan) (st : TransitionState) (X : QVariant)
    (htable : a._transitions = some (pre ++ e :: post)) (hscalar : e.state = none)
    (hfrom : e.from_.isValid = false) (hto : e.to_.isValid = true)
    (hreach : loop qt (progressOf a._durationMs t) pre 0 a.scan0 = .ok (.next s1))
    (hst : s1.states[pre.length]? = some st) (hunp : st.processed = false)
    (hnocap : st.previousValue.isValid = false)
    (hstart : FP.le e.relStartTime (progressOf a._durationMs t) = true)
    (hend : FP.le (progressOf a._durationMs t) e.relEndTime = true)
    (hX : s1.data[e.dataId]? = some X)
    (htick : updateCurrentTime qt a t = .ok r) :
    (∃ newValue s2,
      interpolate qt X e.to_
        (e.easingCurve.valueForProgress (e.transitionProgress (progressOf a._durationMs t)))
          = .ok newValue ∧
      loopBody qt (progressOf a._durationMs t) pre.length e s1 = .ok (.next s2) ∧
      s2.states[pre.length]? = some { previousValue := X, processed := false } ∧
      s2.data[e.dataId]? = some (if qt.ne X newValue then newValue else X)) ∧
    r.anim._transitionStates[pre.length]? = some { previousValue := X, processed := false } ∧
    (X.isValid = true →
      ∀ (ts : List Int) (rs : List Tick), runTicks qt r.anim ts = .ok rs → ∀ r2 ∈ rs,
        ∃ st2, r2.anim._transitionStates[pre.length]? = some st2 ∧ st2.previousValue = X) ∧
    (X.isValid = true →
      ∀ (p2 : FP) (sb : Scan) (stb : TransitionState) (value : QVariant) (c2 : Ctl),
      sb.states[pre.length]? = some stb → stb.previousValue = X → stb.processed = false →
      FP.le e.relStartTime p2 = true → FP.le p2 e.relEndTime = true →
      sb.data[e.dataId]? = some value →
      loopBody qt p2 pre.length e sb = .ok c2 →
      ∃ newValue,
        interpolate qt X e.to_ (e.easingCurve.valueForProgress (e.transitionProgress p2))
          = .ok newValue ∧
        c2.scan.data[e.dataId]? = some (if qt.ne value newValue then newValue else value) ∧
        c2.scan.states[pre.length]? = some stb) := by
  obtain ⟨c, hl, hr⟩ := updateCurrentTime_ok qt a _ t r htable htick
  rw [loop_append, hreach] at hl
  simp only [Nat.zero_add, loop] at hl
  cases hb : loopBody qt (progressOf a._durationMs t) pre.length e s1 with
  | error f => simp [hb] at hl
  | ok c1 =>
    obtain ⟨newValue, s2, hint, hc1, hs2, hd2⟩ :=
      loopBody_continue qt _ pre.length e s1 st X X c1 hst hunp hscalar hfrom hto hX hstart
        hend (Or.inr ⟨hnocap, rfl⟩) hb
    subst hc1
    simp only [hb] at hl
    obtain ⟨l2, he2⟩ := loop_effect qt _ post _ s2 c hl
    have hfinal : r.anim._transitionStates[pre.length]? =
        some { previousValue := X, processed := false } := by
      subst hr
      show c.scan.states[pre.length]? = _
      rw [he2.outside pre.length (Or.inl (Nat.lt_succ_self _)), hs2]
    have htr : r.anim._transitions = some (pre ++ e :: post) := by
      subst hr
      exact htable
    refine ⟨⟨newValue, s2, hint, rfl, hs2, hd2⟩, hfinal, ?_, ?_⟩
    · intro hvalid ts rs hrun r2 hr2
      exact run_captured qt _ pre.length X hvalid ts r.anim rs _ htr hfinal rfl hrun r2 hr2
    · intro hvalid p2 sb stb value c2 hsb hpv hpb hs2b he2b hvb hb2
      obtain ⟨nv, s3, hi3, hc3, hs3, hd3⟩ :=
        loopBody_continue qt p2 pre.length e sb stb value X c2 hsb hpb hscalar hfrom hto hvb
          hs2b he2b (Or.inl ⟨by rw [hpv]; exact hvalid, hpv⟩) hb2
      subst hc3
      refine ⟨nv, hi3, hd3, ?_⟩
      show s3.states[pre.length]? = _
      rw [hs3]
      cases stb with
      | mk pv pr =>
        simp only at hpv hpb
        rw [hpv, hpb]

/-- C5 at an example: the single entry `continueEntry` on the vector `[0]`, tick at elapsed
time 125 (progress 0.5): the start 0 is captured and variable 0 becomes 5. -/
theorem C5_witness :
    updateCurrentTime QtConvert.zero (continueAnimation [.int 0]) 125 = .ok continueTick ∧
    continueTick.anim._transitionStates[0]? =
      some { previousValue := .int 0, processed := false } ∧
    continueTick.anim._data = [.int 5] :=
  have h := C5_capture QtConvert.zero (continueAnimation [.int 0]) [] [] continueEntry 125
    continueTick (continueAnimation [.int 0]).scan0 {} (.int 0) rfl rfl rfl rfl rfl rfl rfl rfl
    (by decide!) (by decide!) rfl continueTick_eq
  ⟨continueTick_eq, h.2.1, rfl⟩


theorem snapshotTick_eq :
    updateCurrentTime QtConvert.zero snapshotAnimation 0 = .ok snapshotTick :=
  tick_of_summary QtConvert.zero snapshotAnimation 0 _ _ _ _ (by decide!)

/-- C6. Snapshot atomicity. The scan of a tick reaches an unprocessed snapshot entry. If the
end offset of the entry is <= progress, the pass replaces the whole vector by the contents of
the snapshot and marks the entry processed, the entry is processed after the tick, and if no
later entry writes in that tick the vector after the tick is the snapshot. If the end offset
is > progress, the pass leaves the vector and the running states as they are. For an entry
built by the snapshot constructor from a `float` start offset, the end offset is the start
offset. -/
theorem C6_snapshot_atomicity (qt : QtConvert) (a : TimelineAnimation)
    (pre post : List Entry) (e : Entry) (snap : List QVariant) (t : Int) (r : Tick) (s1 : Scan)
    (st : TransitionState)
    (htable : a._transitions = some (pre ++ e :: post)) (hsnap : e.state = some snap)
    (hreach : loop qt (progressOf a._durationMs t) pre 0 a.scan0 = .ok (.next s1))
    (hst : s1.states[pre.length]? = some st) (hunp : st.processed = false)
    (htick : updateCurrentTime qt a t = .ok r) :
    (FP.le e.relEndTime (progressOf a._durationMs t) = true →
      loopBody qt (progressOf a._durationMs t) pre.length e s1 =
        .ok (.next { s1 with
          data := snap
          states := s1.states.set pre.length { st with processed := true }
          log := s1.log ++ [.replace pre.length snap] }) ∧
      r.anim._transitionStates[pre.length]? = some { st with processed := true } ∧
      ((∀ w ∈ r.log, w.entry ≤ pre.length) → r.anim._data = snap)) ∧
    (FP.lt (progressOf a._durationMs t) e.relEndTime = true →
      loopBody qt (progressOf a._durationMs t) pre.length e s1 = .ok (.next s1)) ∧
    (∀ (q : ℚ) (v : List QVariant), e = Entry.snapshot (.fin q) v → rnd32 q = .fin q →
      e.relEndTime = e.relStartTime) := by
  have hbody := loopBody_snapshot qt (progressOf a._durationMs t) pre.length e s1 st snap hst
    hunp hsnap
  refine ⟨?_, ?_, ?_⟩
  · intro hle
    simp only [hle, if_true] at hbody
    obtain ⟨c, hl, hr⟩ := updateCurrentTime_ok qt a _ t r htable htick
    rw [loop_append, hreach] at hl
    simp only [Nat.zero_add, loop, hbody] at hl
    obtain ⟨l2, he2⟩ := loop_effect qt _ post _ _ c hl
    subst hr
    refine ⟨hbody, ?_, ?_⟩
    · show c.scan.states[pre.length]? = _
      rw [he2.outside pre.length (Or.inl (Nat.lt_succ_self _))]
      show (s1.states.set pre.length _)[pre.length]? = _
      rw [List.getElem?_set_self', hst]
      rfl
    · intro hno
      show c.scan.data = snap
      have hlog : c.scan.log = _ := he2.log
      have hl2 : l2 = [] := by
        cases l2 with
        | nil => rfl
        | cons w ws =>
          have h1 := he2.entry w (List.mem_cons_self _ _)
          have h2 := hno w (by
            show w ∈ c.scan.log
            rw [hlog]
            exact List.mem_append_right _ (List.mem_cons_self _ _))
          omega
      rw [← he2.data, hl2]
      rfl
  · intro hlt
    have hle := FP.le_false_of_lt _ _ hlt
    simpa only [hle, Bool.false_eq_true, if_false] using hbody
  · intro q v he hq
    subst he
    simp only [Entry.relEndTime, Entry.snapshot, FP.add, add_zero, hq]

/-- C6 at an example: the single snapshot entry at start 0.0 with the vector `[1]`, on the
vector `[0]`; the tick at elapsed time 0 leaves the vector `[1]` and the entry processed. -/
theorem C6_witness :
    updateCurrentTime QtConvert.zero snapshotAnimation 0 = .ok snapshotTick ∧
    snapshotTick.anim._transitionStates[0]? =
      some { previousValue := .invalid, processed := true } ∧
    snapshotTick.anim._data = [.int 1] :=
  have h := C6_snapshot_atomicity QtConvert.zero snapshotAnimation [] []
    (Entry.snapshot (rnd32 0) [.int 1]) [.int 1] 0 snapshotTick snapshotAnimation.scan0 {}
    rfl rfl rfl rfl rfl snapshotTick_eq
  have h1 := h.1 (by decide!)
  ⟨snapshotTick_eq, h1.2.1, h1.2.2 (by decide)⟩


/-- A tick keeps the number of running states. -/
theorem tick_states_length (qt : QtConvert) (a : TimelineAnimation) (t : Int) (r : Tick)
    (h : updateCurrentTime qt a t = .ok r) :
    r.anim._transitionStates.length = a._transitionStates.length := by
  cases ht : a._transitions with
  | none =>
    rw [updateCurrentTime_null qt a t ht] at h
    cases h
    rfl
  | some table =>
    obtain ⟨c, _, he, _, hs, _, _, _, _⟩ := tick_facts qt a table t r ht h
    rw [hs]
    exact he.length

/-- To start an object again after its vector was put back is to start the object that only
shares its base state, duration, table and number of running states. -/
theorem restart_eq (a b : TimelineAnimation) (old old2 : State) (hs : b.state = a.state)
    (hd : b._durationMs = a._durationMs) (ht : b._transitions = a._transitions)
    (hl : b._transitionStates.length = a._transitionStates.length) :
    TimelineAnimation.updateState { b with _data := a._data } .Running old2 =
      a.updateState .Running old := by
  cases a with
  | mk sa da va ta ra =>
    cases b with
    | mk sb db vb tb rb =>
      simp only at hs hd ht hl
      subst hs hd ht
      simp only [TimelineAnimation.updateState, TimelineAnimation.mk.injEq, true_and]
      rw [List.map_const', List.map_const', hl]

/-- Every object that a run passes through shares the base state, the duration, the table and
the number of running states of the object it started from. -/
theorem run_frame (qt : QtConvert) (ts : List Int) :
    ∀ (a : TimelineAnimation) (rs : List Tick), runTicks qt a ts = .ok rs →
      ∀ r ∈ rs, r.anim.state = a.state ∧ r.anim._durationMs = a._durationMs ∧
        r.anim._transitions = a._transitions ∧
        r.anim._transitionStates.length = a._transitionStates.length := by
  induction ts with
  | nil =>
    intro a rs hrun
    simp [runTicks] at hrun
    subst hrun
    simp
  | cons t ts ih =>
    intro a rs hrun
    simp only [runTicks] at hrun
    cases h1 : updateCurrentTime qt a t with
    | error f => simp [h1] at hrun
    | ok r1 =>
      simp only [h1] at hrun
      cases h2 : runTicks qt r1.anim ts with
      | error f => simp [h2] at hrun
      | ok rs1 =>
        simp only [h2] at hrun
        cases hrun
        have ha := tick_anim qt a t r1 h1
        have hlen := tick_states_length qt a t r1 h1
        have h1s : r1.anim.state = a.state := by rw [ha]
        have h1d : r1.anim._durationMs = a._durationMs := by rw [ha]
        have h1t : r1.anim._transitions = a._transitions := by rw [ha]
        intro r hr
        rcases List.mem_cons.mp hr with hr | hr
        · subst hr
          exact ⟨h1s, h1d, h1t, hlen⟩
        · obtain ⟨i1, i2, i3, i4⟩ := ih r1.anim rs1 h2 r hr
          exact ⟨by rw [i1, h1s], by rw [i2, h1d], by rw [i3, h1t], by rw [i4, hlen]⟩

/-- C7. Reset-on-restart. `updateState` with new state `Running` (whatever the old state)
leaves every running state unprocessed with no captured value, keeps their number and leaves
the vector untouched. Consequently, after a run over the elapsed times `ts`, putting the
initial vector back into any object the run passed through (whatever running states it holds)
and starting again replays the same ticks: the same vectors, running states, logs and
notifications. -/
theorem C7_reset_on_restart (qt : QtConvert) (a : TimelineAnimation) (old old2 : State)
    (ts : List Int) (rs : List Tick)
    (hrun : runTicks qt (a.updateState .Running old) ts = .ok rs) :
    (∀ st ∈ (a.updateState .Running old)._transitionStates,
      st = { previousValue := .invalid, processed := false }) ∧
    (a.updateState .Running old)._transitionStates.length = a._transitionStates.length ∧
    (a.updateState .Running old)._data = a._data ∧
    (∀ b, b ∈ a.updateState .Running old :: rs.map Tick.anim →
      runTicks qt (TimelineAnimation.updateState { b with _data := a._data } .Running old2) ts
        = .ok rs) := by
  refine ⟨?_, ?_, rfl, ?_⟩
  · intro st hst
    simp only [TimelineAnimation.updateState, List.mem_map] at hst
    obtain ⟨_, _, h⟩ := hst
    exact h.symm
  · simp [TimelineAnimation.updateState]
  · intro b hb
    have hframe : b.state = a.state ∧ b._durationMs = a._durationMs ∧
        b._transitions = a._transitions ∧
        b._transitionStates.length = a._transitionStates.length := by
      rcases List.mem_cons.mp hb with hb | hb
      · subst hb
        simp [TimelineAnimation.updateState]
      · obtain ⟨r, hr, hrb⟩ := List.mem_map.mp hb
        subst hrb
        obtain ⟨i1, i2, i3, i4⟩ := run_frame qt ts _ rs hrun r hr
        refine ⟨i1, i2, i3, ?_⟩
        rw [i4]
        simp [TimelineAnimation.updateState]
    rw [restart_eq a b old old2 hframe.1 hframe.2.1 hframe.2.2.1 hframe.2.2.2]
    exact hrun

/-- C7 at the worked example: the run with the single tick at elapsed time 150 from the vector
`[4]` leaves the entry processed and the vector `[10]`; with the vector `[4]` put back and
the animation started again, the same tick results. -/
theorem C7_witness :
    runTicks QtConvert.zero
        ((exampleAnimation [.int 4]).updateState .Running .Stopped) [150]
      = .ok [exampleEndTick] ∧
    runTicks QtConvert.zero
        (TimelineAnimation.updateState { exampleEndTick.anim with _data := [.int 4] }
          .Running .Stopped) [150]
      = .ok [exampleEndTick] :=
  have hrun : runTicks QtConvert.zero
      ((exampleAnimation [.int 4]).updateState .Running .Stopped) [150]
        = .ok [exampleEndTick] := by
    show runTicks QtConvert.zero (exampleAnimation [.int 4]) [150] = _
    simp only [runTicks, exampleEndTick_eq]
  have h := C7_reset_on_restart QtConvert.zero (exampleAnimation [.int 4]) .Stopped .Stopped
    [150] [exampleEndTick] hrun
  ⟨hrun, h.2.2.2 exampleEndTick.anim (by simp)⟩

/-- C8. Install. After `setTransitions` with a table of n entries there are exactly n running
states, each unprocessed with no captured value, whatever the running states were before; after
`setTransitions(nullptr)` there are no running states, and every subsequent tick returns,
leaves the object (so the vector) unchanged and raises no notification; `setTransitions`
never modifies the vector. -/
theorem C8_install (qt : QtConvert) (a : TimelineAnimation) :
    (∀ table : List Entry,
      (a.setTransitions (some table))._transitionStates =
        List.replicate table.length { previousValue := .invalid, processed := false } ∧
      (a.setTransitions (some table))._transitionStates.length = table.length ∧
      (a.setTransitions (some table))._transitions = some table ∧
      (a.setTransitions (some table))._data = a._data) ∧
    (a.setTransitions none)._transitionStates = [] ∧
    (a.setTransitions none)._transitions = none ∧
    (a.setTransitions none)._data = a._data ∧
    (∀ t : Int, updateCurrentTime qt (a.setTransitions none) t =
      .ok { anim := a.setTransitions none, valueChanged := 0, log := [] }) ∧
    (∀ ts : List Int, runTicks qt (a.setTransitions none) ts =
      .ok (ts.map fun _ => { anim := a.setTransitions none, valueChanged := 0, log := [] })) := by
  have hstop : a.stop._data = a._data := by
    simp only [TimelineAnimation.stop, TimelineAnimation.updateState]
    split <;> rfl
  have hnull : ∀ t : Int, updateCurrentTime qt (a.setTransitions none) t =
      .ok { anim := a.setTransitions none, valueChanged := 0, log := [] } :=
    fun t => updateCurrentTime_null qt _ t rfl
  refine ⟨?_, rfl, rfl, hstop, hnull, ?_⟩
  · intro table
    exact ⟨rfl, by simp [TimelineAnimation.setTransitions], rfl, hstop⟩
  · intro ts
    induction ts with
    | nil => rfl
    | cons t ts ih => simp only [runTicks, hnull, ih, List.map_cons]


section Length

variable (qt : QtConvert)

/-- A replacement that one pass logs carries the snapshot of the entry of the pass. -/
theorem loopBody_replace (p : FP) (i : Nat) (e : Entry) (s : Scan) (c : Ctl)
    (h : loopBody qt p i e s = .ok c) (j : Nat) (new : List QVariant)
    (hmem : Write.replace j new ∈ c.scan.log) :
    Write.replace j new ∈ s.log ∨ e.state = some new := by
  cases hst : s.states[i]? with
  | none => simp [loopBody, hst] at h
  | some st =>
    by_cases hp : st.processed = true
    · rw [loopBody_processed qt p i e s st hst hp] at h
      cases h
      exact Or.inl hmem
    · have hp : st.processed = false := by simpa using hp
      cases hsnap : e.state with
      | some snapshot =>
        rw [loopBody_snapshot qt p i e s st snapshot hst hp hsnap] at h
        split at h
        · cases h
          simp only [Ctl.scan, List.mem_append, List.mem_singleton] at hmem
          rcases hmem with hmem | hmem
          · exact Or.inl hmem
          · cases hmem
            exact Or.inr rfl
        · cases h
          exact Or.inl hmem
      | none =>
        cases hval : s.data[e.dataId]? with
        | none => simp [loopBody, hst, hp, hsnap, hval] at h
        | some value =>
          by_cases hlt : FP.lt e.relEndTime p = true
          · rw [loopBody_ended qt p i e s st value hst hp hsnap hval hlt] at h
            cases h
            simp only [Ctl.scan] at hmem
            split at hmem
            · simp only [List.mem_append, List.mem_singleton] at hmem
              rcases hmem with hmem | hmem
              · exact Or.inl hmem
              · cases hmem
            · exact Or.inl hmem
          · have hlt : FP.lt e.relEndTime p = false := by simpa using hlt
            by_cases hrun : FP.le e.relStartTime p = true
            · rw [loopBody_running qt p i e s st value hst hp hsnap hval hlt hrun] at h
              simp only at h
              split at h
              · cases h
              · cases h
                simp only [Ctl.scan] at hmem
                split at hmem
                · simp only [List.mem_append, List.mem_singleton] at hmem
                  rcases hmem with hmem | hmem
                  · exact Or.inl hmem
                  · cases hmem
                · exact Or.inl hmem
            · have hrun : FP.le e.relStartTime p = false := by simpa using hrun
              rw [loopBody_early qt p i e s st value hst hp hsnap hval hlt hrun] at h
              cases h
              exact Or.inl hmem

/-- A replacement that the loop logs carries the snapshot of an entry of the table. -/
theorem loop_replace (p : FP) (es : List Entry) (i : Nat) (s : Scan) (c : Ctl)
    (h : loop qt p es i s = .ok c) (j : Nat) (new : List QVariant)
    (hmem : Write.replace j new ∈ c.scan.log) :
    Write.replace j new ∈ s.log ∨ ∃ e ∈ es, e.state = some new := by
  induction es generalizing i s with
  | nil =>
    simp [loop] at h
    subst h
    exact Or.inl hmem
  | cons e es ih =>
    simp only [loop] at h
    cases hb : loopBody qt p i e s with
    | error f => simp [hb] at h
    | ok c1 =>
      cases c1 with
      | next s1 =>
        simp only [hb] at h
        rcases ih (i + 1) s1 h with h1 | ⟨e1, he1, hs1⟩
        · rcases loopBody_replace qt p i e s _ hb j new h1 with h2 | h2
          · exact Or.inl h2
          · exact Or.inr ⟨e, List.mem_cons_self _ _, h2⟩
        · exact Or.inr ⟨e1, List.mem_cons_of_mem _ he1, hs1⟩
      | brk s1 =>
        simp only [hb] at h
        cases h
        rcases loopBody_replace qt p i e s _ hb j new hmem with h2 | h2
        · exact Or.inl h2
        · exact Or.inr ⟨e, List.mem_cons_self _ _, h2⟩

end Length

/-- C9 fails when a snapshot has another length than the vector. The table holds one snapshot
entry at start 0.0 with the vector `[1, 2]`, the variable vector is `[0]`: the tick at elapsed
time 0 leaves a vector of length 2. -/
theorem C9_counterexample :
    resizeAnimation._data.length = 1 ∧
    (updateCurrentTime QtConvert.zero resizeAnimation 0).map
        (fun r => (r.anim._data, r.anim._data.length)) = .ok ([.int 1, .int 2], 2) := by
  decide!

/-- C9 (as amended). When every snapshot of the table has the length of the variable vector
(in particular when the table has no snapshot entry, or there is no table) the length of the
vector after `updateCurrentTime` equals its length before; `setTransitions` and `updateState`
leave the vector itself as it is. -/
theorem C9_length (qt : QtConvert) (a : TimelineAnimation) (t : Int) (r : Tick)
    (hsnap : ∀ table, a._transitions = some table → ∀ e ∈ table, ∀ snap,
      e.state = some snap → snap.length = a._data.length)
    (h : updateCurrentTime qt a t = .ok r) :
    r.anim._data.length = a._data.length ∧
    (∀ transitions, (a.setTransitions transitions)._data = a._data) ∧
    (∀ newState oldState, (a.updateState newState oldState)._data = a._data) := by
  refine ⟨?_, ?_, ?_⟩
  · cases ht : a._transitions with
    | none =>
      rw [updateCurrentTime_null qt a t ht] at h
      cases h
      rfl
    | some table =>
      obtain ⟨c, hl, he, hd, _, _, _, _, _⟩ := tick_facts qt a table t r ht h
      rw [hd, ← he.data]
      apply replay_length
      · rfl
      · intro j new hmem
        have hlog : c.scan.log = r.log := by
          have := he.log
          simpa [TimelineAnimation.scan0] using this
        rcases loop_replace qt _ table 0 a.scan0 c hl j new (by rw [hlog]; exact hmem) with
          h1 | ⟨e, he1, hs1⟩
        · simp [TimelineAnimation.scan0] at h1
        · exact hsnap table ht e he1 new hs1
  · intro transitions
    have hstop : a.stop._data = a._data := by
      simp only [TimelineAnimation.stop, TimelineAnimation.updateState]
      split <;> rfl
    cases transitions with
    | none => exact hstop
    | some table => exact hstop
  · intro newState oldState
    cases newState <;> rfl

/-- C9 (as amended) at an example: the snapshot `[1]` replaces the vector `[0]`, of the same
length. -/
theorem C9_witness :
    updateCurrentTime QtConvert.zero snapshotAnimation 0 = .ok snapshotTick ∧
    snapshotTick.anim._data.length = snapshotAnimation._data.length :=
  have h := C9_length QtConvert.zero snapshotAnimation 0 snapshotTick
    (by
      intro table ht e he snap hs
      cases ht
      simp only [List.mem_singleton] at he
      subst he
      cases hs
      rfl)
    snapshotTick_eq
  ⟨snapshotTick_eq, h.1⟩


/-- C10 fails: `setDuration` takes effect at the next tick of the run in flight. The worked
example runs with duration 250 on the vector `[0]`. Without a call of `setDuration` the tick
at elapsed time 50 (progress 50/250) leaves variable 0 equal to 4 and the entry unprocessed;
after `setDuration(100)` the same tick (progress 50/100, past the end 0.4) leaves it equal to
10 and the entry processed. -/
theorem C10_counterexample :
    (updateCurrentTime QtConvert.zero (exampleAnimation [.int 0]) 50).map Tick.summary =
      .ok ([.int 4], [{ previousValue := .invalid, processed := false }], 1,
        [.assign 0 0 (.int 0) (.int 4)]) ∧
    (updateCurrentTime QtConvert.zero ((exampleAnimation [.int 0]).setDuration 100) 50).map
        Tick.summary =
      .ok ([.int 10], [{ previousValue := .invalid, processed := true }], 1,
        [.assign 0 0 (.int 0) (.int 10)]) := by
  decide!

/-- C10 (as amended). `setDuration(d)` changes the member `_durationMs` and nothing else, and
the duration it replaces leaves no trace; the next tick at elapsed time `t`, also of a run in
flight, computes its progress as `t/d` and evaluates the table with that progress. -/
theorem C10_setDuration (qt : QtConvert) (a : TimelineAnimation) (d d0 t : Int) :
    (a.setDuration d)._durationMs = d ∧
    (a.setDuration d)._data = a._data ∧
    (a.setDuration d)._transitionStates = a._transitionStates ∧
    (a.setDuration d)._transitions = a._transitions ∧
    (a.setDuration d).state = a.state ∧
    (a.setDuration d0).setDuration d = a.setDuration d ∧
    updateCurrentTime qt (a.setDuration d) t =
      match a._transitions with
      | none => .ok { anim := a.setDuration d, valueChanged := 0, log := [] }
      | some table =>
        (loop qt (progressOf d t) table 0 a.scan0).map fun c =>
          { anim := { a.setDuration d with
              _data := c.scan.data, _transitionStates := c.scan.states }
            valueChanged := if c.scan.changed then 1 else 0
            log := c.scan.log } := by
  refine ⟨rfl, rfl, rfl, rfl, rfl, rfl, ?_⟩
  cases a with
  | mk state durationMs data transitions transitionStates =>
    cases transitions with
    | none => rfl
    | some table =>
      simp only [updateCurrentTime, TimelineAnimation.setDuration, TimelineAnimation.scan0]
      cases loop qt (progressOf d t) table 0
          { data := data, states := transitionStates, changed := false, log := [] } with
      | error f => rfl
      | ok c => rfl


/-! ## Unsupported types, setters, state changes -/

theorem interpolate_unsupported (qt : QtConvert) (from_ to_ : QVariant) (p : FP)
    (h : from_.isSupported = false) : interpolate qt from_ to_ p = .ok to_ := by
  cases from_ <;> simp [QVariant.isSupported] at h <;> rfl

/-- C12, as stated, fails when the variable holds a value that `QVariant::operator!=` finds
equal to `to` without being `to`. The entry interpolates from a value of an unsupported
meta-type to the `int` 10, the variable holds the `double` 10.0. In the tick at elapsed time
1 of 5 the entry runs and `interpolate` returns `to`, but the comparison of Qt 5.15 finds
the `double` 10.0 equal to the `int` 10: the variable is not set to `to` and still holds the
`double` 10.0, and no notification is raised. -/
theorem C12_counterexample :
    unsupportedEntry.from_.isSupported = false ∧
    unsupportedEntry.to_ = .int 10 ∧
    FP.lt unsupportedEntry.relEndTime (progressOf 5 1) = false ∧
    FP.le unsupportedEntry.relStartTime (progressOf 5 1) = true ∧
    (updateCurrentTime QtConvert.zero (unsupportedAnimation [.double (.fin 10)]) 1).map
        Tick.summary =
      .ok ([.double (.fin 10)], [{ previousValue := .invalid, processed := false }], 0, []) ∧
    QVariant.double (.fin 10) ≠ unsupportedEntry.to_ :=
  ⟨rfl, rfl, by decide!, by decide!, by decide!, by decide⟩

/-- C12, amended. Unsupported type fallback. For every `from` whose meta-type is not one of
the eight supported ones (an invalid variant included), every `to` and every progress,
`interpolate` returns `to` and does not fail. Hence when the scan reaches an unprocessed
scalar entry in its running branch and the value it interpolates from has such a type, the
pass leaves the variable equal to `to` if `operator!=` finds the value of the variable
different from `to`, and leaves the variable as it is else; and the scan goes on with the
entries after it. -/
theorem C12_unsupported_fallback (qt : QtConvert) (p : FP) (i : Nat) (e : Entry)
    (post : List Entry) (s1 : Scan) (st : TransitionState) (value : QVariant)
    (hst : s1.states[i]? = some st) (hunp : st.processed = false) (hscalar : e.state = none)
    (hval : s1.data[e.dataId]? = some value)
    (hnotEnded : FP.lt e.relEndTime p = false) (hstarted : FP.le e.relStartTime p = true)
    (hfrom : (e.effectiveFrom st value).isSupported = false) :
    (∀ (from_ to_ : QVariant) (x : FP), from_.isSupported = false →
      interpolate qt from_ to_ x = .ok to_) ∧
    (∃ s2, loopBody qt p i e s1 = .ok (.next s2) ∧
      s2.data[e.dataId]? = some (if qt.ne value e.to_ then e.to_ else value) ∧
      loop qt p (e :: post) i s1 = loop qt p post (i + 1) s2) := by
  refine ⟨fun f t x h => interpolate_unsupported qt f t x h, ?_⟩
  have hb := loopBody_running qt p i e s1 st value hst hunp hscalar hval hnotEnded hstarted
  have hfrom2 : (if e.isStartingFromPreviousValue = true then
      (if (e.isStartingFromPreviousValue && !st.previousValue.isValid) = true then
        { st with previousValue := value } else st).previousValue
      else e.from_) = e.effectiveFrom st value := by
    simp only [Entry.effectiveFrom]
    cases hc : e.isStartingFromPreviousValue <;> cases hv : st.previousValue.isValid <;> simp
  simp only [hfrom2, interpolate_unsupported qt _ e.to_ _ hfrom] at hb
  refine ⟨_, hb, ?_, ?_⟩
  · cases hv : qt.ne value e.to_ with
    | false =>
      simp only [Bool.false_eq_true, if_false]
      exact hval
    | true =>
      simp only [if_true]
      rw [List.getElem?_set_self', hval]
      rfl
  · simp only [loop, hb]

/-- C12 at an example: the "continue from the current value" entry to 10 on the vector
`[invalid]`, tick at elapsed time 0: the invalid value has no supported type, the comparison
finds it different from the `int` 10, and the pass leaves variable 0 equal to 10. -/
theorem C12_witness :
    ∃ s2, loopBody QtConvert.zero (progressOf 250 0) 0 continueEntry
        (continueAnimation [.invalid]).scan0 = .ok (.next s2) ∧
      s2.data[0]? = some (.int 10) :=
  have h := C12_unsupported_fallback QtConvert.zero (progressOf 250 0) 0 continueEntry []
    (continueAnimation [.invalid]).scan0 {} .invalid rfl rfl rfl rfl (by decide!) (by decide!)
    rfl
  ⟨h.2.choose, h.2.choose_spec.1, h.2.choose_spec.2.1⟩

/-- C14. A state change to `Stopped` or `Paused` leaves the object as it is: every processed
flag, every captured value and the variable vector; so does `stop()`, up to the state of the
base class. -/
theorem C14_stop_keeps_state (a : TimelineAnimation) (oldState : State) :
    a.updateState .Stopped oldState = a ∧
    a.updateState .Paused oldState = a ∧
    a.stop._transitionStates = a._transitionStates ∧
    a.stop._data = a._data ∧
    a.stop._transitions = a._transitions ∧
    a.stop._durationMs = a._durationMs := by
  refine ⟨rfl, rfl, ?_, ?_, ?_, ?_⟩ <;>
    · simp only [TimelineAnimation.stop, TimelineAnimation.updateState]
      split <;> rfl


/-- The end of a setter entry built from a `float` offset is the offset. -/
theorem setter_relEndTime (q : ℚ) (i : Nat) (v : QVariant) (hq : rnd32 q = .fin q) :
    (Entry.setter (.fin q) i v).relEndTime = .fin q := by
  simp only [Entry.relEndTime, Entry.setter, FP.add, add_zero, hq]

/-- A setter whose offset the progress has passed jumps: the tick in which it is reached
unprocessed with offset < progress marks it processed and, if no later entry writes the
variable, leaves the variable equal to its value (or as it was, if `operator!=` found it
equal to that value). -/
theorem setter_jumps_when_past (qt : QtConvert) (a : TimelineAnimation)
    (pre post : List Entry) (q : ℚ) (i : Nat) (v : QVariant) (t : Int) (r : Tick) (s1 : Scan)
    (st : TransitionState) (hq : rnd32 q = .fin q)
    (htable : a._transitions = some (pre ++ Entry.setter (.fin q) i v :: post))
    (hreach : loop qt (progressOf a._durationMs t) pre 0 a.scan0 = .ok (.next s1))
    (hst : s1.states[pre.length]? = some st) (hunp : st.processed = false)
    (hpast : FP.lt (.fin q) (progressOf a._durationMs t) = true)
    (htick : updateCurrentTime qt a t = .ok r) :
    r.anim._transitionStates[pre.length]? = some { st with processed := true } ∧
    ((∀ w ∈ r.log, pre.length < w.entry → w.touches i = false) →
      ∃ value, s1.data[i]? = some value ∧
        r.anim._data[i]? = some (if qt.ne value v then v else value)) :=
  tick_ended qt a pre post (Entry.setter (.fin q) i v) t r s1 st htable rfl hreach hst hunp
    (by rw [setter_relEndTime q i v hq]; exact hpast) htick

/-- C13 fails on the code when the progress equals the offset of the setter. The vector is
`[3]`, the table holds the single setter of variable 0 to 7, built by the three-argument
constructor. With the offset 0.0, the tick at elapsed time 0 (progress 0.0, the first tick of
a run) takes the running branch: the local progress is 0.0/0.0, NaN, the easing curve clamps
it to 0, the interpolation from the value captured from the variable returns that value, and
the variable still holds 3. With the offset 1.0 the same happens at elapsed time 250
(progress 1.0, the last tick of a run). At a progress past the offset (elapsed time 1, offset
0.0) the setter does jump. -/
theorem C13_setter_at_its_offset :
    (Entry.setter (rnd32 0) 0 (.int 7)).transitionProgress (progressOf 250 0) = .nan ∧
    (updateCurrentTime QtConvert.zero (setterAnimation 0) 0).map Tick.summary =
      .ok ([.int 3], [{ previousValue := .int 3, processed := false }], 0, []) ∧
    (Entry.setter (rnd32 1) 0 (.int 7)).transitionProgress (progressOf 250 250) = .nan ∧
    (updateCurrentTime QtConvert.zero (setterAnimation 1) 250).map Tick.summary =
      .ok ([.int 3], [{ previousValue := .int 3, processed := false }], 0, []) ∧
    (updateCurrentTime QtConvert.zero (setterAnimation 0) 1).map Tick.summary =
      .ok ([.int 7], [{ previousValue := .invalid, processed := true }], 1,
        [.assign 0 0 (.int 3) (.int 7)]) :=
  ⟨by decide!, by decide!, by decide!, by decide!, by decide!⟩


/-- C15 fails for a snapshot entry. The table holds a snapshot entry at start 0.5 followed by
the entry of the worked example (start 0.0), the vector is `[0]`. In the tick at elapsed
time 1 of 5 (progress 0.2) the snapshot entry is met unprocessed with its start offset above
the progress; the scan goes on, and the entry at table index 1 writes variable 0. -/
theorem C15_counterexample :
    FP.lt (progressOf 5 1) (Entry.snapshot (rnd32 (1 / 2)) [.int 9]).relStartTime = true ∧
    (updateCurrentTime QtConvert.zero lateSnapshotAnimation 1).map Tick.summary =
      .ok ([.int 4],
        [{ previousValue := .invalid, processed := false },
         { previousValue := .invalid, processed := false }], 1,
        [.assign 1 0 (.int 0) (.int 4)]) := by
  decide!


/-- With a non-negative duration fraction an entry that has not started has not ended. -/
theorem not_ended_of_not_started (e : Entry) (p : FP) (hfloat : e.relStartTime.isFloat)
    (hdur : FP.le (.fin 0) e.relDuration = true) (h : FP.le e.relStartTime p = false) :
    FP.le e.relEndTime p = false ∧ FP.lt e.relEndTime p = false := by
  have h2 : FP.le e.relEndTime p = false := by
    cases hc : FP.le e.relEndTime p with
    | false => rfl
    | true =>
      rw [started_of_ended e p hfloat hdur hc] at h
      cases h
  refine ⟨h2, ?_⟩
  cases hc : FP.lt e.relEndTime p with
  | false => rfl
  | true =>
    rw [fp_le_of_lt _ _ hc] at h2
    cases h2

/-- C15, amended. Early exit of the scan. In every tick the entries are visited in table
order. When the scan meets an unprocessed entry whose start offset exceeds the progress and
whose duration fraction is not negative (the start being a `float` value): if the entry is a
scalar entry whose index is within the vector, the loop breaks there, so the tick returns
with the vector, the running states, the `changed` flag and the log as they were when the
entry was met, and no later entry is evaluated; if the entry is a snapshot entry, the entry
is passed over unchanged and the scan goes on with the next entry. -/
theorem C15_early_exit (qt : QtConvert) (a : TimelineAnimation) (t : Int)
    (pre post : List Entry) (e : Entry) (s : Scan) (st : TransitionState)
    (ht : a._transitions = some (pre ++ e :: post))
    (hpre : loop qt (progressOf a._durationMs t) pre 0 a.scan0 = .ok (.next s))
    (hst : s.states[pre.length]? = some st) (hunp : st.processed = false)
    (hfloat : e.relStartTime.isFloat) (hdur : FP.le (.fin 0) e.relDuration = true)
    (hearly : FP.lt (progressOf a._durationMs t) e.relStartTime = true) :
    (e.state = none → e.dataId < s.data.length →
      loop qt (progressOf a._durationMs t) (pre ++ e :: post) 0 a.scan0 = .ok (.brk s) ∧
      updateCurrentTime qt a t =
        .ok { anim := { a with _data := s.data, _transitionStates := s.states }
              valueChanged := if s.changed then 1 else 0
              log := s.log }) ∧
    (∀ snapshot, e.state = some snapshot →
      loop qt (progressOf a._durationMs t) (pre ++ e :: post) 0 a.scan0 =
        loop qt (progressOf a._durationMs t) post (pre.length + 1) s) := by
  have hle := FP.le_false_of_lt _ _ hearly
  obtain ⟨hend, hlt⟩ := not_ended_of_not_started e _ hfloat hdur hle
  have happ := loop_append qt (progressOf a._durationMs t) pre (e :: post) 0 a.scan0
  rw [hpre] at happ
  simp only [Nat.zero_add] at happ
  refine ⟨?_, ?_⟩
  · intro hscalar hbound
    have hval : s.data[e.dataId]? = some (s.data.get ⟨e.dataId, hbound⟩) := by
      simp [List.getElem?_eq_getElem hbound]
    have hb := loopBody_early qt _ pre.length e s st _ hst hunp hscalar hval hlt hle
    have hloop : loop qt (progressOf a._durationMs t) (pre ++ e :: post) 0 a.scan0 =
        .ok (.brk s) := by
      rw [happ]
      simp only [loop, hb]
    exact ⟨hloop, updateCurrentTime_of_loop qt a _ t _ ht hloop⟩
  · intro snapshot hsnap
    rw [happ]
    have hb : loopBody qt (progressOf a._durationMs t) pre.length e s = .ok (.next s) := by
      simp [loopBody, hst, hunp, hsnap, hend]
    simp only [loop, hb]

/-- C15 at the sorted table of two entries: in the tick at elapsed time 1 of 5 the first
entry runs, the second is met unprocessed with its start 0.5 above the progress 0.2, and the
tick returns with what the first entry left. -/
theorem C15_witness :
    updateCurrentTime QtConvert.zero sortedAnimation 1 =
      .ok { anim := { sortedAnimation with
                      _data := sortedScan.data, _transitionStates := sortedScan.states }
            valueChanged := if sortedScan.changed then 1 else 0
            log := sortedScan.log } :=
  ((C15_early_exit QtConvert.zero sortedAnimation 1 [exampleEntry] [] lateEntry sortedScan {}
    rfl (by decide!) (by decide!) rfl (by decide!) (by decide!) (by decide!)).1
    rfl (by decide!)).2


/-! ## The number of running states -/

/-- Every call keeps the table and the number of running states. -/
theorem applyOps_sized (qt : QtConvert) (table : List Entry) (ops : List Op) :
    ∀ (a b : TimelineAnimation), a._transitions = some table →
      a._transitionStates.length = table.length → applyOps qt a ops = .ok b →
      b._transitions = some table ∧ b._transitionStates.length = table.length := by
  induction ops with
  | nil =>
    intro a b ht hl h
    simp only [applyOps, Except.ok.injEq] at h
    subst h
    exact ⟨ht, hl⟩
  | cons op ops ih =>
    intro a b ht hl h
    cases op with
    | tick currentTime =>
      simp only [applyOps] at h
      cases h1 : updateCurrentTime qt a currentTime with
      | error f => simp [h1] at h
      | ok r =>
        simp only [h1] at h
        have ha := tick_anim qt a currentTime r h1
        have hlen := tick_states_length qt a currentTime r h1
        exact ih r.anim b (by rw [ha]; exact ht) (by rw [hlen, hl]) h
    | updateState newState oldState =>
      simp only [applyOps] at h
      refine ih _ b ?_ ?_ h
      · cases newState <;> exact ht
      · cases newState <;> simp [TimelineAnimation.updateState, hl]
    | setDuration durationMs =>
      simp only [applyOps] at h
      exact ih (a.setDuration durationMs) b ht hl h

/-- C17. Running-state sizing invariant. In every state reached from `setTransitions(table)`
by ticks, state changes and `setDuration` calls the table is still installed and the number
of running states is the number of table entries; so each index of the table has a running
state, and in every tick the lookup of the running state of the entry that the scan has
reached is in bounds. -/
theorem C17_states_sized (qt : QtConvert) (a0 : TimelineAnimation) (table : List Entry)
    (ops : List Op) (b : TimelineAnimation)
    (h : applyOps qt (a0.setTransitions (some table)) ops = .ok b) :
    b._transitions = some table ∧
    b._transitionStates.length = table.length ∧
    (∀ i, i < table.length → ∃ st, b._transitionStates[i]? = some st) ∧
    (∀ (t : Int) (pre post : List Entry) (e : Entry) (s1 : Scan),
      table = pre ++ e :: post →
      loop qt (progressOf b._durationMs t) pre 0 b.scan0 = .ok (.next s1) →
      ∃ st, s1.states[pre.length]? = some st) := by
  obtain ⟨ht, hl⟩ := applyOps_sized qt table ops (a0.setTransitions (some table)) b rfl
    (by simp [TimelineAnimation.setTransitions]) h
  refine ⟨ht, hl, ?_, ?_⟩
  · intro i hi
    have hi2 : i < b._transitionStates.length := by rw [hl]; exact hi
    exact ⟨b._transitionStates[i], List.getElem?_eq_getElem hi2⟩
  · intro t pre post e s1 htab hreach
    obtain ⟨l, he⟩ := loop_effect qt _ pre 0 b.scan0 (.next s1) hreach
    have hlen : s1.states.length = table.length := by
      have := he.length
      simp only [Ctl.scan, TimelineAnimation.scan0] at this
      rw [this, hl]
    have hi2 : pre.length < s1.states.length := by
      rw [hlen, htab]
      simp
    exact ⟨s1.states[pre.length], List.getElem?_eq_getElem hi2⟩

/-- C17 at the worked example: installing the table, starting, and the tick at elapsed time
150 leave one running state for the one entry. -/
theorem C17_witness :
    applyOps QtConvert.zero ((exampleAnimation [.int 4]).setTransitions (some [exampleEntry]))
      [.updateState .Running .Stopped, .tick 150] = .ok exampleEndTick.anim ∧
    exampleEndTick.anim._transitionStates.length = [exampleEntry].length :=
  have h : applyOps QtConvert.zero
      ((exampleAnimation [.int 4]).setTransitions (some [exampleEntry]))
      [.updateState .Running .Stopped, .tick 150] = .ok exampleEndTick.anim := by
    show applyOps QtConvert.zero (exampleAnimation [.int 4]) [.tick 150] = _
    simp only [applyOps, exampleEndTick_eq]
  ⟨h, (C17_states_sized QtConvert.zero (exampleAnimation [.int 4]) [exampleEntry] _ _ h).2.1⟩


/-- C11 fails on the code. With linear easing, from 3 to 3 of type `int`, the interpolated
value is 3 at progress 0, 2 at progress 0.3 and 3 at progress 1: the `double`
`3*(1.0-0.3) + 3*0.3` is just below 3 and the conversion to `int` truncates. For `double`
the same sum stays just below 3. From (1, 1) to (1, 1) of type `QPoint` the value is (1, 1)
at progress 0, (2, 2) at progress 0.5 and (1, 1) at progress 1: each of the two products is
rounded to an integer before they are added. -/
theorem C11_not_monotone :
    (interpolate QtConvert.zero (.int 3) (.int 3)
        (QEasingCurve.linear.valueForProgress (rnd64 0)) = .ok (.int 3) ∧
      interpolate QtConvert.zero (.int 3) (.int 3)
        (QEasingCurve.linear.valueForProgress (rnd64 (3 / 10))) = .ok (.int 2) ∧
      interpolate QtConvert.zero (.int 3) (.int 3)
        (QEasingCurve.linear.valueForProgress (rnd64 1)) = .ok (.int 3)) ∧
    (interpolate QtConvert.zero (.double (.fin 3)) (.double (.fin 3))
        (QEasingCurve.linear.valueForProgress (rnd64 (3 / 10)))
      = .ok (.double (.fin (6755399441055743 / 2251799813685248))) ∧
      interpolate QtConvert.zero (.double (.fin 3)) (.double (.fin 3))
        (QEasingCurve.linear.valueForProgress (rnd64 1)) = .ok (.double (.fin 3))) ∧
    (interpolate QtConvert.zero (.point 1 1) (.point 1 1)
        (QEasingCurve.linear.valueForProgress (rnd64 0)) = .ok (.point 1 1) ∧
      interpolate QtConvert.zero (.point 1 1) (.point 1 1)
        (QEasingCurve.linear.valueForProgress (rnd64 (1 / 2))) = .ok (.point 2 2) ∧
      interpolate QtConvert.zero (.point 1 1) (.point 1 1)
        (QEasingCurve.linear.valueForProgress (rnd64 1)) = .ok (.point 1 1)) :=
  ⟨by decide!, by decide!, by decide!⟩


section Sound

variable (qt : QtConvert)

theorem scan_next (s : Scan) : (Ctl.next s).scan = s := rfl

theorem scan_brk (s : Scan) : (Ctl.brk s).scan = s := rfl

/-- The loop against the loop without `break`, on a table sorted by start with non-negative
duration fractions. -/
theorem loop_loopAll (p : FP) (es : List Entry) (i : Nat) (s : Scan)
    (hsorted : es.Pairwise (fun x y => FP.le x.relStartTime y.relStartTime = true))
    (hdur : ∀ e ∈ es, FP.le (.fin 0) e.relDuration = true)
    (hfloat : ∀ e ∈ es, e.relStartTime.isFloat) :
    (∀ s1, loopAll qt p es i s = .ok s1 → ∃ c, loop qt p es i s = .ok c ∧ c.scan = s1) ∧
    (∀ c, loop qt p es i s = .ok c →
      (loopAll qt p es i s = .ok c.scan ∨ loopAll qt p es i s = .error .assertion) ∧
      (i + es.length ≤ c.scan.states.length →
        (∀ e ∈ es, e.state = none → e.dataId < c.scan.data.length) →
        loopAll qt p es i s = .ok c.scan)) ∧
    (∀ f, loop qt p es i s = .error f → loopAll qt p es i s = .error f) := by
  induction es generalizing i s with
  | nil =>
    refine ⟨?_, ?_, ?_⟩
    · intro s1 h
      simp only [loopAll, Except.ok.injEq] at h
      exact ⟨.next s, rfl, h⟩
    · intro c h
      simp only [loop, Except.ok.injEq] at h
      subst h
      simp [loopAll, Ctl.scan]
    · intro f h
      simp [loop] at h
  | cons e rest ih =>
    have hs := List.pairwise_cons.mp hsorted
    have hdur2 : ∀ x ∈ rest, FP.le (.fin 0) x.relDuration = true :=
      fun x hx => hdur x (List.mem_cons_of_mem _ hx)
    have hfloat2 : ∀ x ∈ rest, x.relStartTime.isFloat :=
      fun x hx => hfloat x (List.mem_cons_of_mem _ hx)
    cases hb : loopBody qt p i e s with
    | error f => simp [loop, loopAll, hb]
    | ok c0 =>
      cases c0 with
      | next s1 =>
        obtain ⟨h1, h2, h3⟩ := ih (i + 1) s1 hs.2 hdur2 hfloat2
        simp only [loop, loopAll, hb, scan_next, scan_brk]
        refine ⟨h1, ?_, h3⟩
        intro c hc
        refine ⟨(h2 c hc).1, ?_⟩
        intro hlen hdata
        exact (h2 c hc).2 (by simp only [List.length_cons] at hlen; omega)
          (fun x hx => hdata x (List.mem_cons_of_mem _ hx))
      | brk s1 =>
        obtain ⟨hs1, hle⟩ := loopBody_brk qt p i e s s1 hb
        subst hs1
        have hrest := loopAll_not_started qt p rest (i + 1) s1
          (fun x hx => not_started_after x p e.relStartTime (hfloat2 x hx) (hdur2 x hx) hle
            (hs.1 x hx))
        simp only [loop, loopAll, hb, scan_next, scan_brk]
        refine ⟨?_, ?_, ?_⟩
        · intro s2 h
          rcases hrest.1 with h0 | h0
          · rw [h0] at h
            simp only [Except.ok.injEq] at h
            exact ⟨.brk s1, rfl, h⟩
          · rw [h0] at h
            cases h
        · intro c hc
          simp only [Except.ok.injEq] at hc
          subst hc
          refine ⟨hrest.1, ?_⟩
          intro hlen hdata
          exact hrest.2 (by simp only [List.length_cons, scan_brk] at hlen; omega)
            (fun x hx => hdata x (List.mem_cons_of_mem _ hx))
        · intro f h
          cases h

end Sound

theorem sortedTick_eq : updateCurrentTime QtConvert.zero sortedAnimation 1 = .ok sortedTick :=
  tick_of_summary QtConvert.zero sortedAnimation 1 _ _ _ _
    (by decide! :
      (updateCurrentTime QtConvert.zero sortedAnimation 1).map Tick.summary =
        .ok ([.int 4, .int 0], [{}, {}], 1, [.assign 0 0 (.int 0) (.int 4)]))

/-- C18. Early exit is sound on sorted tables. For every table whose entries are sorted by
non-decreasing start offset and have a non-negative duration fraction (the starts being
`float` values), the tick of `updateCurrentTime`, which breaks at the first entry that has
not started, and the tick that evaluates every entry without breaking leave the same vector,
running states, notification and log: whenever the tick without `break` returns, the tick
with `break` returns the same; whenever the tick with `break` returns, the tick without
`break` returns the same or fails the assertion on the index of an entry that the tick with
`break` never reaches, and it returns the same when the running states are as many as the
entries and every scalar index is within the vector; and when the tick with `break` fails,
the other fails alike. -/
theorem C18_early_exit_sound (qt : QtConvert) (a : TimelineAnimation) (table : List Entry)
    (t : Int) (ht : a._transitions = some table)
    (hsorted : table.Pairwise (fun x y => FP.le x.relStartTime y.relStartTime = true))
    (hdur : ∀ e ∈ table, FP.le (.fin 0) e.relDuration = true)
    (hfloat : ∀ e ∈ table, e.relStartTime.isFloat) :
    (∀ r, updateCurrentTimeAll qt a t = .ok r → updateCurrentTime qt a t = .ok r) ∧
    (∀ r, updateCurrentTime qt a t = .ok r →
      (updateCurrentTimeAll qt a t = .ok r ∨
        updateCurrentTimeAll qt a t = .error .assertion) ∧
      (table.length ≤ r.anim._transitionStates.length →
        (∀ e ∈ table, e.state = none → e.dataId < r.anim._data.length) →
        updateCurrentTimeAll qt a t = .ok r)) ∧
    (∀ f, updateCurrentTime qt a t = .error f → updateCurrentTimeAll qt a t = .error f) := by
  obtain ⟨h1, h2, h3⟩ := loop_loopAll qt (progressOf a._durationMs t) table 0 a.scan0
    hsorted hdur hfloat
  cases a with
  | mk state durationMs data transitions transitionStates =>
    simp only at ht
    subst ht
    simp only [TimelineAnimation.scan0] at h1 h2 h3
    simp only [updateCurrentTime, updateCurrentTimeAll, TimelineAnimation.scan0]
    refine ⟨?_, ?_, ?_⟩
    · intro r hr
      cases hall : loopAll qt (progressOf durationMs t) table 0
          { data := data, states := transitionStates, changed := false, log := [] } with
      | error f => simp [hall] at hr
      | ok s1 =>
        obtain ⟨c, hc, hcs⟩ := h1 s1 hall
        simp only [hall, Except.ok.injEq] at hr
        simp only [hc, hcs, Except.ok.injEq]
        exact hr
    · intro r hr
      cases hl : loop qt (progressOf durationMs t) table 0
          { data := data, states := transitionStates, changed := false, log := [] } with
      | error f => simp [hl] at hr
      | ok c =>
        simp only [hl, Except.ok.injEq] at hr
        subst hr
        obtain ⟨h4, h5⟩ := h2 c hl
        refine ⟨?_, ?_⟩
        · rcases h4 with h4 | h4
          · left
            simp only [h4]
          · right
            simp only [h4]
        · intro hlen hdata
          have := h5 (by simpa using hlen) hdata
          simp only [this]
    · intro f hf
      cases hl : loop qt (progressOf durationMs t) table 0
          { data := data, states := transitionStates, changed := false, log := [] } with
      | error g =>
        simp only [hl, Except.error.injEq] at hf
        subst hf
        simp only [h3 g hl]
      | ok c => simp [hl] at hf

/-- C18 at a sorted table of two entries: at elapsed time 1 of 5 the first entry runs and the
second has not started; the tick that evaluates both entries leaves what the tick that breaks
leaves. -/
theorem C18_witness :
    updateCurrentTimeAll QtConvert.zero sortedAnimation 1 = .ok sortedTick ∧
    updateCurrentTime QtConvert.zero sortedAnimation 1 = .ok sortedTick :=
  have h := C18_early_exit_sound QtConvert.zero sortedAnimation [exampleEntry, lateEntry] 1 rfl
    (by decide!) (by decide!) (by decide!)
  ⟨(h.2.1 sortedTick sortedTick_eq).2 (by decide) (by decide!), sortedTick_eq⟩


section Frame

variable (qt : QtConvert)

/-- The pass for a scalar entry leaves a variable alone unless the entry is unprocessed, has
ended or started, and targets the variable; it leaves the running states of the other
entries alone. -/
theorem loopBody_frame (p : FP) (i : Nat) (e : Entry) (s : Scan) (c : Ctl) (k : Nat)
    (h : loopBody qt p i e s = .ok c) (hscalar : e.state = none)
    (hk : ∀ st, s.states[i]? = some st → st.processed = false →
      FP.lt e.relEndTime p = true ∨ FP.le e.relStartTime p = true → e.dataId ≠ k) :
    c.scan.data[k]? = s.data[k]? ∧ ∀ j, j ≠ i → c.scan.states[j]? = s.states[j]? := by
  cases hst : s.states[i]? with
  | none => simp [loopBody, hst] at h
  | some st =>
    cases hp : st.processed with
    | true =>
      simp only [loopBody, hst, hp, if_true, Except.ok.injEq] at h
      subst h
      exact ⟨rfl, fun _ _ => rfl⟩
    | false =>
      cases hval : s.data[e.dataId]? with
      | none => simp [loopBody, hst, hp, hscalar, hval] at h
      | some value =>
        cases hlt : FP.lt e.relEndTime p with
        | true =>
          have hne := hk st hst hp (Or.inl hlt)
          rw [loopBody_ended qt p i e s st value hst hp hscalar hval hlt] at h
          simp only [Except.ok.injEq] at h
          subst h
          simp only [scan_next]
          refine ⟨?_, fun j hj => List.getElem?_set_ne (Ne.symm hj)⟩
          cases hv : qt.ne value e.to_ with
          | false => simp
          | true =>
            simp only [if_true]
            exact List.getElem?_set_ne hne
        | false =>
          cases hle : FP.le e.relStartTime p with
          | true =>
            have hne := hk st hst hp (Or.inr hle)
            rw [loopBody_running qt p i e s st value hst hp hscalar hval hlt hle] at h
            simp only at h
            split at h
            · cases h
            · rename_i newValue _
              simp only [Except.ok.injEq] at h
              subst h
              simp only [scan_next]
              refine ⟨?_, fun j hj => List.getElem?_set_ne (Ne.symm hj)⟩
              cases hv : qt.ne value newValue with
              | false => simp
              | true =>
                simp only [if_true]
                exact List.getElem?_set_ne hne
          | false =>
            rw [loopBody_early qt p i e s st value hst hp hscalar hval hlt hle] at h
            simp only [Except.ok.injEq] at h
            subst h
            exact ⟨rfl, fun _ _ => rfl⟩

/-- The loop over scalar entries leaves a variable alone that no unprocessed entry that has
ended or started targets. -/
theorem loop_frame (p : FP) (es : List Entry) (i : Nat) (s : Scan) (c : Ctl) (k : Nat)
    (h : loop qt p es i s = .ok c) (hscalar : ∀ e ∈ es, e.state = none)
    (hk : ∀ j e st, es[j]? = some e → s.states[i + j]? = some st → st.processed = false →
      FP.lt e.relEndTime p = true ∨ FP.le e.relStartTime p = true → e.dataId ≠ k) :
    c.scan.data[k]? = s.data[k]? := by
  induction es generalizing i s with
  | nil =>
    simp only [loop, Except.ok.injEq] at h
    subst h
    rfl
  | cons e rest ih =>
    simp only [loop] at h
    cases hb : loopBody qt p i e s with
    | error f => simp [hb] at h
    | ok c0 =>
      obtain ⟨hd, hs⟩ := loopBody_frame qt p i e s c0 k hb (hscalar e (List.mem_cons_self _ _))
        (fun st hst hp hor => hk 0 e st (by simp) (by simpa using hst) hp hor)
      cases c0 with
      | brk s1 =>
        simp only [hb, Except.ok.injEq] at h
        subst h
        exact hd
      | next s1 =>
        simp only [hb] at h
        simp only [scan_next] at hd hs
        rw [← hd]
        apply ih (i + 1) s1 h (fun x hx => hscalar x (List.mem_cons_of_mem _ hx))
        intro j x st hx hst hp hor
        have hst2 : s.states[i + (j + 1)]? = some st := by
          rw [show i + (j + 1) = i + 1 + j by omega, ← hs (i + 1 + j) (by omega)]
          exact hst
        exact hk (j + 1) x st (by simpa using hx) hst2 hp hor

end Frame


/-- C19, as stated, fails for an entry with a negative duration fraction: with start 0.5 and
duration fraction -0.4 the tick at elapsed time 1 of 5 (progress 0.2) finds the end 0.1
before the progress and writes `to` to variable 0, although the start of the only entry that
targets variable 0 exceeds the progress. -/
theorem C19_counterexample :
    (updateCurrentTime QtConvert.zero reversedAnimation 1).map Tick.summary =
        .ok ([.int 10], [{ previousValue := .invalid, processed := true }], 1,
          [.assign 0 0 (.int 0) (.int 10)]) ∧
      reversedAnimation._data = [.int 0] ∧
      FP.le (rnd32 (1 / 2)) (progressOf 5 1) = false ∧
      FP.lt (FP.add rnd32 (rnd32 (1 / 2)) (rnd32 (-2 / 5))) (progressOf 5 1) = true :=
  ⟨by decide!, by decide!, by decide!, by decide!⟩

/-- C19, amended. Frame of a tick. For every table without snapshot entries, a tick that
returns leaves unchanged every variable that no entry of the table targets; and when the
duration fractions are non-negative (the starts being `float` values) it leaves unchanged
every variable that is not the target of an entry that is unprocessed when the tick starts
and whose start offset is at most the progress. -/
theorem C19_frame (qt : QtConvert) (a : TimelineAnimation) (table : List Entry) (t : Int)
    (r : Tick) (k : Nat) (ht : a._transitions = some table)
    (hscalar : ∀ e ∈ table, e.state = none) (h : updateCurrentTime qt a t = .ok r) :
    ((∀ e ∈ table, e.dataId ≠ k) → r.anim._data[k]? = a._data[k]?) ∧
    ((∀ e ∈ table, FP.le (.fin 0) e.relDuration = true) →
      (∀ e ∈ table, e.relStartTime.isFloat) →
      (∀ (j : Nat) (e : Entry) (st : TransitionState), table[j]? = some e →
        a._transitionStates[j]? = some st →
        st.processed = false →
        FP.le e.relStartTime (progressOf a._durationMs t) = true → e.dataId ≠ k) →
      r.anim._data[k]? = a._data[k]?) := by
  obtain ⟨c, hl, _, hd, _⟩ := tick_facts qt a table t r ht h
  rw [hd]
  refine ⟨?_, ?_⟩
  · intro hno
    exact loop_frame qt _ table 0 a.scan0 c k hl hscalar
      (fun j e _ hj _ _ _ => hno e (List.getElem?_mem hj))
  · intro hdur hfloat hk
    apply loop_frame qt _ table 0 a.scan0 c k hl hscalar
    intro j e st hj hst hp hor
    have hmem : e ∈ table := List.getElem?_mem hj
    have hstarted : FP.le e.relStartTime (progressOf a._durationMs t) = true := by
      rcases hor with hlt | hle
      · exact started_of_ended e _ (hfloat e hmem) (hdur e hmem) (fp_le_of_lt _ _ hlt)
      · exact hle
    exact hk j e st hj (by simpa [TimelineAnimation.scan0] using hst) hp hstarted

/-- C19 at the sorted table of two entries: at elapsed time 1 of 5 the entry that targets
variable 1 has not started, and the tick leaves variable 1 as it was. -/
theorem C19_witness : sortedTick.anim._data[1]? = sortedAnimation._data[1]? :=
  (C19_frame QtConvert.zero sortedAnimation [exampleEntry, lateEntry] 1 sortedTick 1 rfl
    (by decide!) sortedTick_eq).2 (by decide!) (by decide!)
    (fun j e st hj _ _ hle => by
      match j, hj with
      | 0, hj =>
        simp only [List.getElem?_cons_zero, Option.some.injEq] at hj
        subst hj
        decide
      | 1, hj =>
        simp only [List.getElem?_cons_succ, List.getElem?_cons_zero, Option.some.injEq] at hj
        subst hj
        have hfalse : FP.le lateEntry.relStartTime (progressOf sortedAnimation._durationMs 1)
            = false := by decide!
        rw [hfalse] at hle
        cases hle
      | j + 2, hj => simp at hj)


/-- The value that `valueForProgress` hands to the easing function lies in `[0, 1]`, whatever
the local progress. -/
theorem qBound_unit (v : FP) :
    FP.le (.fin 0) (qBound (.fin 0) v (.fin 1)) = true ∧
      FP.le (qBound (.fin 0) v (.fin 1)) (.fin 1) = true := by
  cases v with
  | fin q =>
    by_cases h1 : (1 : ℚ) < q
    · have h0 : (0 : ℚ) < 1 := by norm_num
      simp [qBound, qMax, qMin, FP.lt, FP.le, h1, h0]
    · by_cases h0 : (0 : ℚ) < q
      · simp [qBound, qMax, qMin, FP.lt, FP.le, h1, h0]
        exact ⟨le_of_lt h0, not_lt.mp h1⟩
      · simp [qBound, qMax, qMin, FP.lt, FP.le, h1, h0]
  | inf n => cases n <;> simp [qBound, qMax, qMin, FP.lt, FP.le]
  | nan => simp [qBound, qMax, qMin, FP.lt, FP.le]

/-- The quotient of a non-negative `double` by a positive one is not negative. -/
theorem zero_le_div (y : FP) (d : ℚ) (hd : 0 < d) (hy : FP.le (.fin 0) y = true) :
    FP.le (.fin 0) (FP.div rnd64 y (.fin d)) = true := by
  cases y with
  | fin q =>
    simp only [FP.le, decide_eq_true_eq] at hy
    simp only [FP.div, ne_of_gt hd, if_false]
    exact zero_le_roundTo 53 1023 _ (div_nonneg hy (le_of_lt hd))
  | inf n =>
    have hn : ¬ d < 0 := not_lt.mpr (le_of_lt hd)
    cases n <;> simp_all [FP.le, FP.div]
  | nan => simp [FP.le] at hy

/-- The progress at elapsed time 6291457 of 8388608 is `0.75 + 2^-23`. -/
theorem overshoot_progress : progressOf 8388608 6291457 = .fin (6291457 / 8388608) := by
  have h1 : FP.ofInt 6291457 = .fin 6291457 := by
    have := ofInt_exact 6291457 (by norm_num)
    simpa using this
  have h2 : FP.ofInt 8388608 = .fin 8388608 := by
    have := ofInt_exact 8388608 (by norm_num)
    simpa using this
  rw [progressOf, h1, h2]
  simp only [FP.div]
  rw [if_neg (by norm_num)]
  exact roundTo_representable 53 1023 _
    ⟨6291457, -23, by decide!, by norm_num, by norm_num, by decide!⟩

/-- The tick at elapsed time 6291457 of `overshootAnimation`. -/
theorem overshoot_tick :
    (updateCurrentTime QtConvert.zero overshootAnimation 6291457).map Tick.summary =
      .ok ([.int 10], [{ previousValue := .invalid, processed := false }], 1,
        [.assign 0 0 (.int 0) (.int 10)]) := by
  have hp : progressOf overshootAnimation._durationMs 6291457 = .fin (6291457 / 8388608) :=
    overshoot_progress
  have h := tick_single_running QtConvert.zero overshootAnimation overshootEntry {} (.int 0)
    (.int 10) 6291457 rfl rfl rfl rfl rfl (by rw [hp]; decide!) (by rw [hp]; decide!) rfl
    (by rw [hp]; decide!)
  rw [h]
  rfl

/-- C20, as stated, fails: the running branch is taken when the progress is not above the
`float` sum of start and duration fraction, which can lie above the exact sum. With start
0.5 and duration fraction `0.25 + 3 * 2^-25` the exact sum is `0.75 + 3 * 2^-25` and the
`float` end is `0.75 + 2^-23`; at progress `0.75 + 2^-23` (elapsed time 6291457 of 8388608)
the entry has not ended and has started, and its local progress is the `double` nearest to
`8388612 / 8388611`, above 1; the tick writes `to` and leaves the entry unprocessed. -/
theorem C20_counterexample :
    progressOf 8388608 6291457 = .fin (6291457 / 8388608) ∧
    overshootEntry.relStartTime = .fin (1 / 2) ∧
    overshootEntry.relDuration = .fin (8388611 / 33554432) ∧
    overshootEntry.relEndTime = .fin (6291457 / 8388608) ∧
    FP.lt overshootEntry.relEndTime (.fin (6291457 / 8388608)) = false ∧
    FP.le overshootEntry.relStartTime (.fin (6291457 / 8388608)) = true ∧
    overshootEntry.transitionProgress (.fin (6291457 / 8388608)) =
      rnd64 (8388612 / 8388611) ∧
    FP.lt (.fin 1) (overshootEntry.transitionProgress (.fin (6291457 / 8388608))) = true ∧
    (updateCurrentTime QtConvert.zero overshootAnimation 6291457).map Tick.summary =
      .ok ([.int 10], [{ previousValue := .invalid, processed := false }], 1,
        [.assign 0 0 (.int 0) (.int 10)]) :=
  ⟨overshoot_progress, by decide!, by decide!, by decide!, by decide!, by decide!, by decide!,
    by decide!, overshoot_tick⟩

/-- C20, amended. Local progress of an entry that has started. For every entry with a finite
start `a` and a finite duration fraction `d > 0`, and every progress that is not below the
start (as in the running branch): the divisor of the local progress is not zero; the local
progress `(progress - start) / durationFraction` is not NaN and not negative; the value that
`valueForProgress` hands to the easing function, `qBound(0, local progress, 1)`, lies in
`[0, 1]`; and the local progress itself is at most 1 when the progress is at most the exact
sum `a + d` (the duration fraction being a `float` value). -/
theorem C20_local_progress (e : Entry) (p : FP) (a d : ℚ)
    (hs : e.relStartTime = .fin a) (hd : e.relDuration = .fin d) (hpos : 0 < d)
    (hstarted : FP.le e.relStartTime p = true) :
    e.relDuration ≠ .fin 0 ∧
    FP.le (.fin 0) (e.transitionProgress p) = true ∧
    FP.le (.fin 0) (qBound (.fin 0) (e.transitionProgress p) (.fin 1)) = true ∧
    FP.le (qBound (.fin 0) (e.transitionProgress p) (.fin 1)) (.fin 1) = true ∧
    (∀ x, p = .fin x → x ≤ a + d → e.relDuration.isFloat →
      FP.le (e.transitionProgress p) (.fin 1) = true) := by
  have hsub : FP.le (.fin 0) (FP.sub rnd64 p (.fin a)) = true := by
    rw [hs] at hstarted
    cases p with
    | fin x =>
      simp only [FP.le, decide_eq_true_eq] at hstarted
      simp only [FP.sub, FP.neg, FP.add]
      exact zero_le_roundTo 53 1023 _ (by linarith)
    | inf n => cases n <;> simp_all [FP.le, FP.sub, FP.neg, FP.add]
    | nan => simp [FP.le] at hstarted
  have htp : e.transitionProgress p = FP.div rnd64 (FP.sub rnd64 p (.fin a)) (.fin d) := by
    simp only [Entry.transitionProgress, hs, hd]
  refine ⟨?_, ?_, (qBound_unit _).1, (qBound_unit _).2, ?_⟩
  · rw [hd]
    intro hc
    simp only [FP.fin.injEq] at hc
    exact absurd hc (ne_of_gt hpos)
  · rw [htp]
    exact zero_le_div _ d hpos hsub
  · intro x hx hxa hfloat
    subst hx
    rw [hd] at hfloat
    have hdd : rnd64 d = .fin d := rnd64_of_rnd32 d hfloat
    rw [htp]
    have h1 : FP.le (rnd64 (x + -a)) (.fin d) = true :=
      roundTo_le_fixed 53 1023 (x + -a) d (by norm_num) (by linarith) hdd
    have h0 : FP.le (.fin 0) (rnd64 (x + -a)) = true := by
      simpa only [FP.sub, FP.neg, FP.add] using hsub
    simp only [FP.sub, FP.neg, FP.add]
    cases hy : rnd64 (x + -a) with
    | fin y =>
      rw [hy] at h1 h0
      simp only [FP.le, decide_eq_true_eq] at h1 h0
      simp only [FP.div, ne_of_gt hpos, if_false]
      exact roundTo_le_fixed 53 1023 (y / d) 1 (by norm_num)
        ((div_le_one hpos).mpr h1) rnd64_one
    | inf n =>
      rw [hy] at h1 h0
      cases n <;> simp_all [FP.le]
    | nan =>
      rw [hy] at h0
      simp [FP.le] at h0

/-- C20 at the worked example: at elapsed time 1 of 5 the entry with start 0.0 and
duration fraction 0.4 has started; its local progress is not negative, is at most 1, and is
clamped into `[0, 1]`. -/
theorem C20_witness :
    FP.le (.fin 0) (exampleEntry.transitionProgress (progressOf 5 1)) = true ∧
    FP.le (exampleEntry.transitionProgress (progressOf 5 1)) (.fin 1) = true :=
  have h := C20_local_progress exampleEntry (progressOf 5 1) 0 (13421773 / 33554432)
    (by decide!) (by decide!) (by norm_num) (by decide!)
  ⟨h.2.1, h.2.2.2.2 (3602879701896397 / 18014398509481984) (by decide!) (by norm_num)
    (by decide!)⟩


/-- The conversion of `2^53 + 1` to `double` gives `2^53`. -/
theorem ofInt_rounds : FP.ofInt 9007199254740993 = .fin 9007199254740992 := by
  have h : rnd64 9007199254740993 = .fin 9007199254740992 :=
    roundTo_eval 53 1023 9007199254740993 53 9007199254740992 (by norm_num) (by decide!)
      (by decide!) (by decide!) (by decide!)
  simpa [FP.ofInt] using h

theorem longLong_rounds :
    interpolate QtConvert.zero (.longLong 9007199254740993) (.longLong 0) (.fin 0) =
      .ok (.longLong 9007199254740992) := by
  have hb : FP.ofInt 0 = .fin 0 := by decide!
  have haa : rnd64 9007199254740992 = .fin 9007199254740992 :=
    roundTo_representable 53 1023 _
      ⟨4503599627370496, 1, by decide!, by norm_num, by norm_num, by decide!⟩
  have h := (integer_endpoints
    (fun v => match v with | .longLong a => a | w => QtConvert.zero.toLongLong w)
    (-(2 ^ 63)) (2 ^ 63 - 1) .longLong (.longLong 9007199254740993) (.longLong 0)
    9007199254740992 0 ofInt_rounds hb haa (roundTo_zero 53 1023)).1
  have ht : (FP.fin 9007199254740992).toIntegral (-(2 ^ 63)) (2 ^ 63 - 1) =
      .ok 9007199254740992 := by
    have := toIntegral_intCast (-(2 ^ 63)) (2 ^ 63 - 1) 9007199254740992 (by norm_num)
      (by norm_num)
    simpa using this
  rw [ht] at h
  exact h

/-- The interpolation from the `int` 0, when `1.0 - progress` is finite. -/
theorem interpolate_from_zero (qt : QtConvert) (b : Int) (x c : ℚ)
    (hc : rnd64 (1 + -x) = .fin c) :
    interpolate qt (.int 0) (.int b) (.fin x) =
      ((FP.add rnd64 (.fin 0) (FP.mul rnd64 (FP.ofInt b) (.fin x))).toIntegral
        (-(2 ^ 31)) (2 ^ 31 - 1)).map .int := by
  have h0 : FP.ofInt 0 = .fin 0 := by decide!
  have hz : rnd64 0 = .fin 0 := roundTo_zero 53 1023
  have hs : FP.sub rnd64 FP.one (.fin x) = .fin c := hc
  simp only [interpolate, interpolateGeneric, intType, integerType, bind, Except.bind, hs,
    h0, FP.mul, zero_mul, hz]

/-- The value that the running branch of `roundedEndEntry` computes at progress 0.75. -/
theorem roundedEnd_value :
    interpolate QtConvert.zero (.int 0) (.int 10)
      (roundedEndEntry.easingCurve.valueForProgress
        (roundedEndEntry.transitionProgress (progressOf 4 3))) = .ok (.int 9) := by
  have hp : roundedEndEntry.easingCurve.valueForProgress
      (roundedEndEntry.transitionProgress (progressOf 4 3)) =
        .fin (70368735789057 / 70368744177664) := by decide!
  obtain ⟨c, hc, _, _⟩ := roundTo_le_fixed_pos 53 1023
    (1 + -(70368735789057 / 70368744177664)) 1 (by norm_num) (by norm_num) rnd64_one
  have hv : ((FP.add rnd64 (.fin 0) (FP.mul rnd64 (FP.ofInt 10)
      (.fin (70368735789057 / 70368744177664)))).toIntegral (-(2 ^ 31)) (2 ^ 31 - 1)).map
        QVariant.int = .ok (.int 9) := by decide!
  rw [hp, interpolate_from_zero QtConvert.zero 10 _ c hc, hv]

theorem roundedEnd_tick :
    (updateCurrentTime QtConvert.zero roundedEndAnimation 3).map Tick.summary =
      .ok ([.int 9], [{ previousValue := .invalid, processed := false }], 1,
        [.assign 0 0 (.int 0) (.int 9)]) := by
  have h := tick_single_running QtConvert.zero roundedEndAnimation roundedEndEntry {} (.int 0)
    (.int 9) 3 rfl rfl rfl rfl rfl (by decide!) (by decide!) rfl roundedEnd_value
  rw [h]
  rfl

/-- The value that the running branch interpolates from. -/
theorem effectiveFrom_eq (e : Entry) (st : TransitionState) (value : QVariant) :
    (if e.isStartingFromPreviousValue = true then
      (if (e.isStartingFromPreviousValue && !st.previousValue.isValid) = true then
        { st with previousValue := value } else st).previousValue
      else e.from_) = e.effectiveFrom st value := by
  simp only [Entry.effectiveFrom]
  cases hc : e.isStartingFromPreviousValue <;> cases hv : st.previousValue.isValid <;> simp

/-- The pass for an unprocessed scalar entry with a positive `float` duration fraction at a
progress equal to the exact sum of start and duration fraction: the local progress is 1, and
the pass leaves the variable equal to `to` if `operator!=` finds its value different from
`to`, and as it is else. -/
theorem loopBody_at_end (qt : QtConvert) (p : FP) (i : Nat) (e : Entry) (s : Scan)
    (st : TransitionState) (value : QVariant) (a d : ℚ)
    (hst : s.states[i]? = some st) (hunp : st.processed = false) (hscalar : e.state = none)
    (hval : s.data[e.dataId]? = some value)
    (hs : e.relStartTime = .fin a) (hd : e.relDuration = .fin d) (hpos : 0 < d)
    (hfloat : rnd32 d = .fin d) (hp : p = .fin (a + d))
    (heasing : e.easingCurve.func (.fin 1) = .fin 1)
    (hend : interpolate qt (e.effectiveFrom st value) e.to_ (.fin 1) = .ok e.to_) :
    e.transitionProgress p = .fin 1 ∧
      ∃ s2, loopBody qt p i e s = .ok (.next s2) ∧
        s2.data[e.dataId]? = some (if qt.ne value e.to_ then e.to_ else value) := by
  have hdd : rnd64 d = .fin d := rnd64_of_rnd32 d hfloat
  have htp : e.transitionProgress p = .fin 1 := by
    have e1 : a + d + -a = d := by ring
    have e2 : d / d = 1 := div_self (ne_of_gt hpos)
    simp only [Entry.transitionProgress, hs, hd, hp, FP.sub, FP.neg, FP.add, e1, hdd, FP.div,
      ne_of_gt hpos, if_false, e2, rnd64_one]
  refine ⟨htp, ?_⟩
  have hset : (if qt.ne value e.to_ then s.data.set e.dataId e.to_ else s.data)[e.dataId]? =
      some (if qt.ne value e.to_ then e.to_ else value) := by
    cases hv : qt.ne value e.to_ with
    | false =>
      simp only [Bool.false_eq_true, if_false]
      exact hval
    | true =>
      simp only [if_true]
      rw [List.getElem?_set_self', hval]
      rfl
  cases hlt : FP.lt e.relEndTime p with
  | true =>
    exact ⟨_, loopBody_ended qt p i e s st value hst hunp hscalar hval hlt, hset⟩
  | false =>
    have hrun : FP.le e.relStartTime p = true := by
      rw [hs, hp]
      simp only [FP.le, decide_eq_true_eq]
      linarith
    have hb := loopBody_running qt p i e s st value hst hunp hscalar hval hlt hrun
    have hq : qBound (.fin 0) (.fin 1) (.fin 1) = .fin 1 := by decide!
    simp only [effectiveFrom_eq, htp, QEasingCurve.valueForProgress, hq, heasing, hend] at hb
    exact ⟨_, hb, hset⟩

/-- C16, as stated, fails. The endpoint `interpolate(from, to, 0) = from` fails for the
`float` values 1 and +infinity (the product `inf * 0.0` is NaN) and for the `long long`
values `2^53 + 1` and 0 (the conversion to `double` rounds to `2^53`). And a running entry
whose progress equals its end need not hold `to`: with start 0.5 and duration fraction
`0.25 + 2^-25` the `float` end is 0.75; at progress 0.75 (elapsed time 3 of 4) the entry
takes the running branch with a local progress below 1, and the variable holds 9, not 10. -/
theorem C16_counterexample :
    interpolate QtConvert.zero (.float (.fin 1)) (.float (.inf false)) (.fin 0) =
      .ok (.float .nan) ∧
    interpolate QtConvert.zero (.longLong 9007199254740993) (.longLong 0) (.fin 0) =
      .ok (.longLong 9007199254740992) ∧
    FP.lt (.fin 0) roundedEndEntry.relDuration = true ∧
    roundedEndEntry.relEndTime = .fin (3 / 4) ∧
    progressOf 4 3 = .fin (3 / 4) ∧
    FP.lt (roundedEndEntry.transitionProgress (progressOf 4 3)) (.fin 1) = true ∧
    (updateCurrentTime QtConvert.zero roundedEndAnimation 3).map Tick.summary =
      .ok ([.int 9], [{ previousValue := .invalid, processed := false }], 1,
        [.assign 0 0 (.int 0) (.int 9)]) :=
  ⟨by decide!, longLong_rounds, by decide!, by decide!, by decide!, by decide!,
    roundedEnd_tick⟩

/-- C16, amended. Interpolation endpoints. For every supported value kind, `interpolate`
computes `a*(1-p) + b*p` in `double` arithmetic and converts the result to the kind
(componentwise for the point kinds), and `interpolate(from, to, 0) = from` and
`interpolate(from, to, 1) = to` hold for `from` and `to` of that same kind whenever both are
finite, in the range of the kind, and exactly representable as `double`: `int` and `uint`
values in the range of their type, `long long` and `unsigned long long` values in the range
of their type whose conversion to `double` is exact, finite `float` and `double` values,
points whose coordinates are `int` values above the least `int`, and points of finite
`double` coordinates. Hence an unprocessed scalar entry with a positive `float` duration
fraction, met at a progress equal to the exact sum of its start and duration fraction, has
local progress exactly 1 and, when `easing(1) = 1` and the endpoint property holds for the
value it interpolates from, the pass leaves its variable equal to `to` if `operator!=` finds
the value of the variable different from `to`, and leaves the variable as it is else. -/
theorem C16_endpoints (qt : QtConvert) :
    (∀ a b : Int, -(2 ^ 31) ≤ a ∧ a ≤ 2 ^ 31 - 1 → -(2 ^ 31) ≤ b ∧ b ≤ 2 ^ 31 - 1 →
      interpolate qt (.int a) (.int b) (.fin 0) = .ok (.int a) ∧
      interpolate qt (.int a) (.int b) (.fin 1) = .ok (.int b)) ∧
    (∀ a b : Nat, a ≤ 2 ^ 32 - 1 → b ≤ 2 ^ 32 - 1 →
      interpolate qt (.uint a) (.uint b) (.fin 0) = .ok (.uint a) ∧
      interpolate qt (.uint a) (.uint b) (.fin 1) = .ok (.uint b)) ∧
    (∀ a b : Int, -(2 ^ 63) ≤ a ∧ a ≤ 2 ^ 63 - 1 → -(2 ^ 63) ≤ b ∧ b ≤ 2 ^ 63 - 1 →
      FP.ofInt a = .fin (a : ℚ) → FP.ofInt b = .fin (b : ℚ) →
      interpolate qt (.longLong a) (.longLong b) (.fin 0) = .ok (.longLong a) ∧
      interpolate qt (.longLong a) (.longLong b) (.fin 1) = .ok (.longLong b)) ∧
    (∀ a b : Nat, a ≤ 2 ^ 64 - 1 → b ≤ 2 ^ 64 - 1 →
      FP.ofInt a = .fin ((a : Int) : ℚ) → FP.ofInt b = .fin ((b : Int) : ℚ) →
      interpolate qt (.uLongLong a) (.uLongLong b) (.fin 0) = .ok (.uLongLong a) ∧
      interpolate qt (.uLongLong a) (.uLongLong b) (.fin 1) = .ok (.uLongLong b)) ∧
    (∀ a b : ℚ, rnd32 a = .fin a → rnd32 b = .fin b →
      interpolate qt (.float (.fin a)) (.float (.fin b)) (.fin 0) = .ok (.float (.fin a)) ∧
      interpolate qt (.float (.fin a)) (.float (.fin b)) (.fin 1) = .ok (.float (.fin b))) ∧
    (∀ a b : ℚ, rnd64 a = .fin a → rnd64 b = .fin b →
      interpolate qt (.double (.fin a)) (.double (.fin b)) (.fin 0) =
        .ok (.double (.fin a)) ∧
      interpolate qt (.double (.fin a)) (.double (.fin b)) (.fin 1) =
        .ok (.double (.fin b))) ∧
    (∀ a1 a2 b1 b2 : Int, -(2 ^ 31) < a1 ∧ a1 ≤ 2 ^ 31 - 1 → -(2 ^ 31) < a2 ∧ a2 ≤ 2 ^ 31 - 1 →
      -(2 ^ 31) < b1 ∧ b1 ≤ 2 ^ 31 - 1 → -(2 ^ 31) < b2 ∧ b2 ≤ 2 ^ 31 - 1 →
      interpolate qt (.point a1 a2) (.point b1 b2) (.fin 0) = .ok (.point a1 a2) ∧
      interpolate qt (.point a1 a2) (.point b1 b2) (.fin 1) = .ok (.point b1 b2)) ∧
    (∀ a1 a2 b1 b2 : ℚ, rnd64 a1 = .fin a1 → rnd64 a2 = .fin a2 → rnd64 b1 = .fin b1 →
      rnd64 b2 = .fin b2 →
      interpolate qt (.pointF (.fin a1) (.fin a2)) (.pointF (.fin b1) (.fin b2)) (.fin 0) =
        .ok (.pointF (.fin a1) (.fin a2)) ∧
      interpolate qt (.pointF (.fin a1) (.fin a2)) (.pointF (.fin b1) (.fin b2)) (.fin 1) =
        .ok (.pointF (.fin b1) (.fin b2))) ∧
    (∀ (p : FP) (i : Nat) (e : Entry) (s : Scan) (st : TransitionState) (value : QVariant)
      (a d : ℚ), s.states[i]? = some st → st.processed = false → e.state = none →
      s.data[e.dataId]? = some value → e.relStartTime = .fin a → e.relDuration = .fin d →
      0 < d → rnd32 d = .fin d → p = .fin (a + d) → e.easingCurve.func (.fin 1) = .fin 1 →
      interpolate qt (e.effectiveFrom st value) e.to_ (.fin 1) = .ok e.to_ →
      e.transitionProgress p = .fin 1 ∧
        ∃ s2, loopBody qt p i e s = .ok (.next s2) ∧
          s2.data[e.dataId]? = some (if qt.ne value e.to_ then e.to_ else value)) :=
  ⟨int_endpoints qt, uint_endpoints qt, longLong_endpoints qt, uLongLong_endpoints qt,
    float_endpoints qt, double_endpoints qt, point_endpoints qt, pointF_endpoints qt,
    fun p i e s st value a d hst hunp hscalar hval hs hd hpos hfloat hp heasing hend =>
      loopBody_at_end qt p i e s st value a d hst hunp hscalar hval hs hd hpos hfloat hp
        heasing hend⟩

/-- C16 at examples: the endpoints for the `int` values 3 and 7 and for the points (1, -2)
and (5, 0); and the entry of the worked example, met at a progress equal to its end 0.4 (as
a `float`) while variable 0 holds 4, has local progress 1 and leaves the variable equal to
10. -/
theorem C16_witness :
    (interpolate QtConvert.zero (.int 3) (.int 7) (.fin 0) = .ok (.int 3) ∧
      interpolate QtConvert.zero (.int 3) (.int 7) (.fin 1) = .ok (.int 7)) ∧
    (interpolate QtConvert.zero (.point 1 (-2)) (.point 5 0) (.fin 0) = .ok (.point 1 (-2)) ∧
      interpolate QtConvert.zero (.point 1 (-2)) (.point 5 0) (.fin 1) = .ok (.point 5 0)) ∧
    (exampleEntry.transitionProgress (.fin (0 + 13421773 / 33554432)) = .fin 1 ∧
      ∃ s2, loopBody QtConvert.zero (.fin (0 + 13421773 / 33554432)) 0 exampleEntry
          (exampleAnimation [.int 4]).scan0 = .ok (.next s2) ∧
        s2.data[exampleEntry.dataId]? = some exampleEntry.to_) :=
  have h := C16_endpoints QtConvert.zero
  ⟨h.1 3 7 (by decide) (by decide),
    h.2.2.2.2.2.2.1 1 (-2) 5 0 (by decide) (by decide) (by decide) (by decide),
    h.2.2.2.2.2.2.2.2 (.fin (0 + 13421773 / 33554432)) 0 exampleEntry
      (exampleAnimation [.int 4]).scan0 {} (.int 4) 0 (13421773 / 33554432) rfl rfl rfl rfl
      (by decide!) (by decide!) (by norm_num) (by decide!) rfl rfl (by decide!)⟩

end Breeze
